import Mathlib

/-!
Gomoku board (`src/src/board.h`): embedding and verified properties.

The class `gomoku_board` is embedded as a record holding the grid
(`std::vector<std::vector<uint8_t>>`, here `List (List Nat)`) and the last-move
record.  Every member function becomes a function returning `Except Fault _`:
an access through `operator[]` outside a vector is `Fault.outOfRange`, a vector
construction beyond `max_size()` is `Fault.lengthError`, and a loop that has not
finished within its iteration budget is `Fault.timeout`.

`size_t` values are naturals reduced modulo `2^64`, `int` values are integers,
and the conversions between the two are the explicit functions `toInt` and
`toSize`.
-/

namespace Gomoku

/-! ## Machine integers -/

/-- Conversion of a `size_t` value to `int` (two's complement, 32 bits). -/
def toInt (n : Nat) : Int :=
  if n % 2 ^ 32 < 2 ^ 31 then ((n % 2 ^ 32 : Nat) : Int)
  else ((n % 2 ^ 32 : Nat) : Int) - 2 ^ 32

/-- Conversion of an `int` value to `size_t` (64 bits). -/
def toSize (z : Int) : Nat := (z % 2 ^ 64).toNat

/-- The `size_t` sum `a + b`. -/
def add64 (a b : Nat) : Nat := (a + b) % 2 ^ 64

/-- The `size_t` difference `a - b`, which wraps around below zero. -/
def sub64 (a b : Nat) : Nat := (a + 2 ^ 64 - b % 2 ^ 64) % 2 ^ 64

/-- The constant `INT_MAX` of `<limits.h>`. -/
def INT_MAX : Nat := 2 ^ 31 - 1

/-- The value of `(c) - (d)` for two C conditions, as in `(hl >= 0) - (hl < 0)`. -/
def sgn (l : Int) : Int := (if l ≥ 0 then 1 else 0) - (if l < 0 then 1 else 0)

/-! ## Data model -/

/-- The enumerators of `enum SIDE`. -/
def EMPTY : Nat := 0
/-- The side that plays first. -/
def BLACK : Nat := 67
/-- The second side. -/
def WHITE : Nat := 63
/-- The "whatever" cell of a pattern. -/
def WEVER : Nat := 155

/-- The ways a call can fail to return. -/
inductive Fault where
  | outOfRange
  | lengthError
  | timeout
  deriving DecidableEq, Repr

deriving instance DecidableEq for Except

/-- The struct `cell`: a pair of `size_t` coordinates. -/
structure cell where
  x : Nat
  y : Nat
  deriving DecidableEq, Repr

/-- The class `gomoku_board`: the grid `b` and the member `last`, which holds no
value (`none`) until a move is made, as `cell ()` leaves it unset. -/
structure gomoku_board where
  b : List (List Nat)
  last : Option cell
  deriving DecidableEq, Repr

/-- The largest number of rows a `std::vector<std::vector<uint8_t>>` may have
(`max_size()`, 24-byte elements and a 63-bit `ptrdiff_t`). -/
def max_rows : Nat := (2 ^ 63 - 1) / 24

/-- The largest number of cells a `std::vector<uint8_t>` may have. -/
def max_cols : Nat := 2 ^ 63 - 1

/-- The constructor `gomoku_board (size_t h, size_t v)`: the row prototype of
`v` cells is built first, then copied `h` times. -/
def gomoku_board.create (h v : Nat) : Except Fault gomoku_board :=
  if max_cols < v then .error .lengthError
  else if max_rows < h then .error .lengthError
  else .ok ⟨List.replicate h (List.replicate v EMPTY), none⟩

/-- The read `b[i][j]`. -/
def gomoku_board.read (B : gomoku_board) (i j : Nat) : Except Fault Nat :=
  match B.b[i]? with
  | none => .error .outOfRange
  | some r =>
    match r[j]? with
    | none => .error .outOfRange
    | some c => .ok c

/-- The write `b[i][j] = c`. -/
def gomoku_board.write (B : gomoku_board) (i j c : Nat) : Except Fault gomoku_board :=
  match B.b[i]? with
  | none => .error .outOfRange
  | some r =>
    if j < r.length then .ok ⟨B.b.set i (r.set j c), B.last⟩
    else .error .outOfRange

/-- The member `move`: writes `side` at `w` and records `w`. -/
def gomoku_board.move (B : gomoku_board) (w : cell) (side : Nat) : Except Fault gomoku_board :=
  match B.write w.x w.y side with
  | .error e => .error e
  | .ok B1 => .ok ⟨B1.b, some w⟩

/-- The member `lastmove`. -/
def gomoku_board.lastmove (B : gomoku_board) : Option cell := B.last

/-- The member `lastcell`. -/
def gomoku_board.lastcell (B : gomoku_board) : cell :=
  match B.b with
  | [] => ⟨INT_MAX, INT_MAX⟩
  | r :: _ => ⟨toSize (toInt B.b.length - 1), toSize (toInt r.length - 1)⟩

/-- The member `empty`. -/
def gomoku_board.empty (B : gomoku_board) : Bool := B.b.isEmpty

/-- The operator `!=` of `cell`. -/
def cell.ne (s t : cell) : Bool := !(s.x == t.x && s.y == t.y)

/-! ## subboard -/

/-- The inner loop of `subboard`, over `j` and `v`. -/
def subboardCols (B : gomoku_board) (sp : cell) (vl : Int) (i u : Int) :
    Nat → Int → Int → gomoku_board → Except Fault gomoku_board
  | 0, _, _, _ => .error .timeout
  | f + 1, j, v, p =>
    if j < toInt sp.y + vl then
      match B.read (toSize i) (toSize j) with
      | .error e => .error e
      | .ok c =>
        match p.write (toSize u) (toSize v) c with
        | .error e => .error e
        | .ok p1 => subboardCols B sp vl i u f (j + sgn vl) (v + sgn vl) p1
    else .ok p

/-- The outer loop of `subboard`, over `i` and `u`. -/
def subboardRows (B : gomoku_board) (sp : cell) (hl vl : Int) :
    Nat → Int → Int → gomoku_board → Except Fault gomoku_board
  | 0, _, _, _ => .error .timeout
  | f + 1, i, u, p =>
    if i < toInt sp.x + hl then
      match subboardCols B sp vl i u (vl.natAbs + 1) (toInt sp.y)
          (if vl ≥ 0 then 0 else (vl.natAbs : Int) - 1) p with
      | .error e => .error e
      | .ok p1 => subboardRows B sp hl vl f (i + sgn hl) (u + sgn hl) p1
    else .ok p

/-- The member `subboard (cell sp, int hl, int vl)`. -/
def gomoku_board.subboard (B : gomoku_board) (sp : cell) (hl vl : Int) :
    Except Fault gomoku_board :=
  match gomoku_board.create hl.natAbs vl.natAbs with
  | .error e => .error e
  | .ok p =>
    subboardRows B sp hl vl (hl.natAbs + 1) (toInt sp.x)
      (if hl ≥ 0 then 0 else (hl.natAbs : Int) - 1) p

/-! ## operator== -/

/-- The inner loop of `operator==`; `false` is the early `return 0`. -/
def eqCols (A P : gomoku_board) (i : Nat) : Nat → Nat → Except Fault Bool
  | 0, _ => .error .timeout
  | f + 1, j =>
    if j ≤ A.lastcell.y then
      match A.read i j with
      | .error e => .error e
      | .ok a =>
        if a = WEVER then eqCols A P i f (add64 j 1)
        else
          match P.read i j with
          | .error e => .error e
          | .ok q =>
            if q = WEVER then eqCols A P i f (add64 j 1)
            else if a ≠ q then .ok false
            else eqCols A P i f (add64 j 1)
    else .ok true

/-- The outer loop of `operator==`. -/
def eqRows (A P : gomoku_board) : Nat → Nat → Except Fault Bool
  | 0, _ => .error .timeout
  | f + 1, i =>
    if i ≤ A.lastcell.x then
      match eqCols A P i (2 ^ 64 + 1) 0 with
      | .error e => .error e
      | .ok false => .ok false
      | .ok true => eqRows A P f (add64 i 1)
    else .ok true

/-- The member `operator==`. -/
def gomoku_board.eq (A P : gomoku_board) : Except Fault Bool :=
  if cell.ne A.lastcell P.lastcell then .ok false
  else eqRows A P (2 ^ 64 + 1) 0

/-- The member `operator!=`. -/
def gomoku_board.neq (A P : gomoku_board) : Except Fault Bool :=
  match A.eq P with
  | .error e => .error e
  | .ok r => .ok (!r)

/-! ## rotate -/

/-- The inner loop of `rotate`: `p[j][m - i - 1] = b[i][j]`. -/
def rotateCols (B : gomoku_board) (m n i : Int) :
    Nat → Int → gomoku_board → Except Fault gomoku_board
  | 0, _, _ => .error .timeout
  | f + 1, j, p =>
    if j < n then
      match B.read (toSize i) (toSize j) with
      | .error e => .error e
      | .ok c =>
        match p.write (toSize j) (toSize (m - i - 1)) c with
        | .error e => .error e
        | .ok p1 => rotateCols B m n i f (j + 1) p1
    else .ok p

/-- The outer loop of `rotate`. -/
def rotateRows (B : gomoku_board) (m n : Int) :
    Nat → Int → gomoku_board → Except Fault gomoku_board
  | 0, _, _ => .error .timeout
  | f + 1, i, p =>
    if i < m then
      match rotateCols B m n i (n.toNat + 1) 0 p with
      | .error e => .error e
      | .ok p1 => rotateRows B m n f (i + 1) p1
    else .ok p

/-- The member `rotate`; the result is the new value of the receiver, which the
assignment `*this = p` takes whole from the local board `p` (grid and `last`). -/
def gomoku_board.rotate (B : gomoku_board) : Except Fault gomoku_board :=
  let m := toInt (add64 B.lastcell.x 1)
  let n := toInt (add64 B.lastcell.y 1)
  match gomoku_board.create (toSize n) (toSize m) with
  | .error e => .error e
  | .ok p => rotateRows B m n (m.toNat + 1) 0 p

/-! ## exist -/

/-- The inner loop of the concretization in `exist`, with the bound
`v <= j + p.lastcell().y` of the source. -/
def existFillCols (B : gomoku_board) (i j u : Nat) :
    Nat → Nat → gomoku_board → Except Fault gomoku_board
  | 0, _, _ => .error .timeout
  | f + 1, v, p =>
    if v ≤ add64 j p.lastcell.y then
      match p.read u v with
      | .error e => .error e
      | .ok c =>
        if c = WEVER then
          match B.read (add64 u i) (add64 v j) with
          | .error e => .error e
          | .ok d =>
            match p.write u v d with
            | .error e => .error e
            | .ok p1 => existFillCols B i j u f (add64 v 1) p1
        else existFillCols B i j u f (add64 v 1) p
    else .ok p

/-- The outer loop of the concretization in `exist`. -/
def existFillRows (B : gomoku_board) (i j : Nat) :
    Nat → Nat → gomoku_board → Except Fault gomoku_board
  | 0, _, _ => .error .timeout
  | f + 1, u, p =>
    if u ≤ p.lastcell.x then
      match existFillCols B i j u (2 ^ 64 + 1) 0 p with
      | .error e => .error e
      | .ok p1 => existFillRows B i j f (add64 u 1) p1
    else .ok p

/-- The loop over `k` in `exist`, at the anchor `(i, j)`: `Sum.inl` is the board
returned from inside the loop, `Sum.inr` the pattern the loop ends with. -/
def existRot (B : gomoku_board) (i j : Nat) :
    Nat → Int → gomoku_board → Except Fault (gomoku_board ⊕ gomoku_board)
  | 0, _, _ => .error .timeout
  | f + 1, k, p =>
    if k < 4 then
      match B.subboard ⟨i, j⟩ (toInt (add64 p.lastcell.x 1)) (toInt (add64 p.lastcell.y 1)) with
      | .error e => .error e
      | .ok s =>
        match s.eq p with
        | .error e => .error e
        | .ok true =>
          match existFillRows B i j (2 ^ 64 + 1) 0 p with
          | .error e => .error e
          | .ok r => .ok (.inl r)
        | .ok false =>
          match p.rotate with
          | .error e => .error e
          | .ok p1 => existRot B i j f (k + 1) p1
    else .ok (.inr p)

/-- The loop over `j` in `exist`, in the row of anchors `i`. -/
def existCols (B : gomoku_board) (i : Nat) :
    Nat → Nat → gomoku_board → Except Fault (gomoku_board ⊕ gomoku_board)
  | 0, _, _ => .error .timeout
  | f + 1, j, p =>
    if j ≤ sub64 B.lastcell.y p.lastcell.y then
      match existRot B i j 5 0 p with
      | .error e => .error e
      | .ok (.inl r) => .ok (.inl r)
      | .ok (.inr p1) => existCols B i f (add64 j 1) p1
    else .ok (.inr p)

/-- The loop over `i` in `exist`. -/
def existRows (B : gomoku_board) :
    Nat → Nat → gomoku_board → Except Fault (gomoku_board ⊕ gomoku_board)
  | 0, _, _ => .error .timeout
  | f + 1, i, p =>
    if i ≤ sub64 B.lastcell.x p.lastcell.x then
      match existCols B i (2 ^ 64 + 1) 0 p with
      | .error e => .error e
      | .ok (.inl r) => .ok (.inl r)
      | .ok (.inr p1) => existRows B f (add64 i 1) p1
    else .ok (.inr p)

/-- The member `exist`. -/
def gomoku_board.exist (B p : gomoku_board) : Except Fault gomoku_board :=
  match existRows B (2 ^ 64 + 1) 0 p with
  | .error e => .error e
  | .ok (.inl r) => .ok r
  | .ok (.inr _) => gomoku_board.create 0 0

/-! ## replace -/

/-- The inner search loop of `replace`; the state is the local `pos` (unset until
a match) and the flag `cont`. -/
def replaceFindCols (B p1 : gomoku_board) (i : Nat) :
    Nat → Nat → Option cell × Bool → Except Fault (Option cell × Bool)
  | 0, _, _ => .error .timeout
  | f + 1, j, st =>
    if j ≤ sub64 B.lastcell.y p1.lastcell.y ∧ st.2 = true then
      match B.subboard ⟨i, j⟩ (toInt (add64 p1.lastcell.x 1))
          (toInt (add64 p1.lastcell.y 1)) with
      | .error e => .error e
      | .ok s =>
        match s.eq p1 with
        | .error e => .error e
        | .ok true => .ok (some ⟨i, j⟩, false)
        | .ok false => replaceFindCols B p1 i f (add64 j 1) st
    else .ok st

/-- The outer search loop of `replace`. -/
def replaceFindRows (B p1 : gomoku_board) :
    Nat → Nat → Option cell × Bool → Except Fault (Option cell × Bool)
  | 0, _, _ => .error .timeout
  | f + 1, i, st =>
    if i ≤ sub64 B.lastcell.x p1.lastcell.x ∧ st.2 = true then
      match replaceFindCols B p1 i (2 ^ 64 + 1) 0 st with
      | .error e => .error e
      | .ok st1 => replaceFindRows B p1 f (add64 i 1) st1
    else .ok st

/-- The inner overwriting loop of `replace`: `b[i][j] = p2[i - pos.x][j - pos.y]`. -/
def replaceWriteCols (p1 p2 : gomoku_board) (pos : cell) (i : Nat) :
    Nat → Nat → gomoku_board → Except Fault gomoku_board
  | 0, _, _ => .error .timeout
  | f + 1, j, B =>
    if j ≤ add64 pos.y p1.lastcell.y then
      match p2.read (sub64 i pos.x) (sub64 j pos.y) with
      | .error e => .error e
      | .ok c =>
        match B.write i j c with
        | .error e => .error e
        | .ok B1 => replaceWriteCols p1 p2 pos i f (add64 j 1) B1
    else .ok B

/-- The outer overwriting loop of `replace`. -/
def replaceWriteRows (p1 p2 : gomoku_board) (pos : cell) :
    Nat → Nat → gomoku_board → Except Fault gomoku_board
  | 0, _, _ => .error .timeout
  | f + 1, i, B =>
    if i ≤ add64 pos.x p1.lastcell.x then
      match replaceWriteCols p1 p2 pos i (2 ^ 64 + 1) pos.y B with
      | .error e => .error e
      | .ok B1 => replaceWriteRows p1 p2 pos f (add64 i 1) B1
    else .ok B

/-- The member `replace`; the result is the new value of the receiver. -/
def gomoku_board.replace (B p1 p2 : gomoku_board) : Except Fault gomoku_board :=
  if cell.ne p1.lastcell p2.lastcell then .ok B
  else
    match replaceFindRows B p1 (2 ^ 64 + 1) 0 (none, true) with
    | .error e => .error e
    | .ok (_, true) => .ok B
    | .ok (none, false) => .error .outOfRange
    | .ok (some pos, false) => replaceWriteRows p1 p2 pos (2 ^ 64 + 1) pos.x B

/-! ## The constructor from rows, clear, diff -/

/-- The first loop of the constructor from rows: `msize` becomes the largest row
length. -/
def ctorMax (b : List (List Nat)) : Nat → Nat → Nat → Except Fault Nat
  | 0, _, _ => .error .timeout
  | f + 1, i, msize =>
    if i < b.length then
      match b[i]? with
      | none => .error .outOfRange
      | some r => ctorMax b f (add64 i 1) (if r.length > msize then r.length else msize)
    else .ok msize

/-- The loop `while (b[i].size() < msize) b[i].push_back (EMPTY)` on the row `r`. -/
def ctorPadRow (msize : Nat) : Nat → List Nat → Except Fault (List Nat)
  | 0, _ => .error .timeout
  | f + 1, r =>
    if r.length < msize then ctorPadRow msize f (r ++ [EMPTY])
    else .ok r

/-- The second loop of the constructor from rows. -/
def ctorPad (msize : Nat) : Nat → Nat → List (List Nat) → Except Fault (List (List Nat))
  | 0, _, _ => .error .timeout
  | f + 1, i, b =>
    if i < b.length then
      match b[i]? with
      | none => .error .outOfRange
      | some r =>
        match ctorPadRow msize (msize + 1) r with
        | .error e => .error e
        | .ok r1 => ctorPad msize f (add64 i 1) (b.set i r1)
    else .ok b

/-- The constructor `gomoku_board (std::vector<std::vector<uint8_t>> _b)`. -/
def gomoku_board.ofRows (rs : List (List Nat)) : Except Fault gomoku_board :=
  match ctorMax rs (rs.length + 1) 0 0 with
  | .error e => .error e
  | .ok msize =>
    match ctorPad msize (rs.length + 1) 0 rs with
    | .error e => .error e
    | .ok b => .ok ⟨b, none⟩

/-- The inner loop of `clear`, over the cells of row `i`. -/
def clearCols (i : Nat) : Nat → Nat → gomoku_board → Except Fault gomoku_board
  | 0, _, _ => .error .timeout
  | f + 1, j, B =>
    match B.b[i]? with
    | none => .error .outOfRange
    | some r =>
      if j < r.length then
        match B.write i j EMPTY with
        | .error e => .error e
        | .ok B1 => clearCols i f (add64 j 1) B1
      else .ok B

/-- The outer loop of `clear`. -/
def clearRows : Nat → Nat → gomoku_board → Except Fault gomoku_board
  | 0, _, _ => .error .timeout
  | f + 1, i, B =>
    if i < B.b.length then
      match clearCols i (2 ^ 64 + 1) 0 B with
      | .error e => .error e
      | .ok B1 => clearRows f (add64 i 1) B1
    else .ok B

/-- The member `clear`; the result is the new value of the receiver. -/
def gomoku_board.clear (B : gomoku_board) : Except Fault gomoku_board :=
  clearRows (2 ^ 64 + 1) 0 B

/-- The inner loop of `diff`; `rep` is the vector built so far. -/
def diffCols (A P : gomoku_board) (i : Nat) :
    Nat → Nat → List cell → Except Fault (List cell)
  | 0, _, _ => .error .timeout
  | f + 1, j, rep =>
    if j ≤ A.lastcell.y then
      match A.read i j with
      | .error e => .error e
      | .ok a =>
        match P.read i j with
        | .error e => .error e
        | .ok q =>
          if a ≠ q ∧ a ≠ WEVER ∧ q ≠ WEVER then
            diffCols A P i f (add64 j 1) (rep ++ [⟨i, j⟩])
          else diffCols A P i f (add64 j 1) rep
    else .ok rep

/-- The outer loop of `diff`. -/
def diffRows (A P : gomoku_board) : Nat → Nat → List cell → Except Fault (List cell)
  | 0, _, _ => .error .timeout
  | f + 1, i, rep =>
    if i ≤ A.lastcell.x then
      match diffCols A P i (2 ^ 64 + 1) 0 rep with
      | .error e => .error e
      | .ok rep1 => diffRows A P f (add64 i 1) rep1
    else .ok rep

/-- The member `diff`. -/
def gomoku_board.diff (A P : gomoku_board) : Except Fault (List cell) :=
  if cell.ne A.lastcell P.lastcell then .ok []
  else diffRows A P (2 ^ 64 + 1) 0 []

/-! ## Vocabulary of the statements -/

/-- The board `B` has `m` rows of `n` cells each. -/
def gomoku_board.sized (B : gomoku_board) (m n : Nat) : Prop :=
  B.b.length = m ∧ ∀ r ∈ B.b, r.length = n

instance (B : gomoku_board) (m n : Nat) : Decidable (B.sized m n) := by
  unfold gomoku_board.sized; infer_instance

/-- The content of the cell `(i, j)`, `EMPTY` outside the grid. -/
def gomoku_board.cellAt (B : gomoku_board) (i j : Nat) : Nat :=
  match B.read i j with
  | .ok c => c
  | .error _ => EMPTY

/-- Wildcard agreement of two cell values. -/
def wild (a q : Nat) : Prop := a = WEVER ∨ q = WEVER ∨ a = q

instance (a q : Nat) : Decidable (wild a q) := by unfold wild; infer_instance

/-- The sub-grid of `B` of `r` rows and `c` columns at the anchor `(i, j)` agrees
with `P` up to wildcards. -/
def matchAt (B P : gomoku_board) (r c i j : Nat) : Prop :=
  ∀ u, u < r → ∀ v, v < c → wild (B.cellAt (i + u) (j + v)) (P.cellAt u v)

instance (B P : gomoku_board) (r c i j : Nat) : Decidable (matchAt B P r c i j) := by
  unfold matchAt; infer_instance

/-- Four calls of `rotate` in succession. -/
def rotate4 (B : gomoku_board) : Except Fault gomoku_board :=
  match B.rotate with
  | .error e => .error e
  | .ok B1 =>
    match B1.rotate with
    | .error e => .error e
    | .ok B2 =>
      match B2.rotate with
      | .error e => .error e
      | .ok B3 => B3.rotate

/-- Row-major order of cells: by row, then by column. -/
def cell.lt (s t : cell) : Prop := s.x < t.x ∨ (s.x = t.x ∧ s.y < t.y)

instance (s t : cell) : Decidable (cell.lt s t) := by unfold cell.lt; infer_instance

/-- The boards `A` and `P` hold different values at `(i, j)`, neither of them the
wildcard. -/
def differs (A P : gomoku_board) (i j : Nat) : Prop :=
  A.cellAt i j ≠ P.cellAt i j ∧ A.cellAt i j ≠ WEVER ∧ P.cellAt i j ≠ WEVER

instance (A P : gomoku_board) (i j : Nat) : Decidable (differs A P i j) := by
  unfold differs; infer_instance

/-- The row `r` extended with `EMPTY` cells to the length `msize`. -/
def padRow (msize : Nat) (r : List Nat) : List Nat :=
  r ++ List.replicate (msize - r.length) EMPTY

/-- The pattern `p` rotated `k` times by `rotate`. -/
def rotN : Nat → gomoku_board → Except Fault gomoku_board
  | 0, p => .ok p
  | k + 1, p =>
    match p.rotate with
    | .error e => .error e
    | .ok p1 => rotN k p1

/-- The return of `exist` from inside its loops at the anchor `(i, j)`: for the
pattern `p0` the rotation loop starts with, some rotation `q` of it compares equal to
the sub-grid at `(i, j)`, and `R` is what the concretization loops make of `q`. -/
def returnsAt (B p0 R : gomoku_board) (i j : Nat) : Prop :=
  ∃ t q s, t < 4 ∧ rotN t p0 = .ok q ∧
    B.subboard ⟨i, j⟩ (toInt (add64 q.lastcell.x 1)) (toInt (add64 q.lastcell.y 1)) = .ok s ∧
    s.eq q = .ok true ∧ existFillRows B i j (2 ^ 64 + 1) 0 q = .ok R

/-- All rows of the grid have the same length. -/
def gomoku_board.rectangular (B : gomoku_board) : Prop :=
  ∀ r1 ∈ B.b, ∀ r2 ∈ B.b, r1.length = r2.length

instance (B : gomoku_board) : Decidable B.rectangular := by
  unfold gomoku_board.rectangular; infer_instance

/-! ## Arithmetic and grid lemmas -/

theorem toInt_small (n : Nat) (h : n < 2 ^ 31) : toInt n = (n : Int) := by
  unfold toInt; omega

theorem toSize_small (n : Nat) (h : n < 2 ^ 64) : toSize (n : Int) = n := by
  unfold toSize; omega

theorem add64_small (a b : Nat) (h : a + b < 2 ^ 64) : add64 a b = a + b := by
  unfold add64; omega

theorem sub64_small (a b : Nat) (h : b ≤ a) (ha : a < 2 ^ 64) : sub64 a b = a - b := by
  unfold sub64; omega

theorem sized_row (B : gomoku_board) (m n i : Nat) (h : B.sized m n) (hi : i < m) :
    ∃ r, B.b[i]? = some r ∧ r.length = n := by
  obtain ⟨h1, h2⟩ := h
  have hi' : i < B.b.length := by omega
  refine ⟨B.b[i], ?_, h2 _ (List.getElem_mem _)⟩
  simp [hi']

theorem read_of_sized (B : gomoku_board) (m n i j : Nat) (h : B.sized m n) (hi : i < m)
    (hj : j < n) : B.read i j = .ok (B.cellAt i j) := by
  obtain ⟨r, hr, hl⟩ := sized_row B m n i h hi
  have hj' : j < r.length := by omega
  simp [gomoku_board.cellAt, gomoku_board.read, hr, hj']

theorem read_row_out (B : gomoku_board) (m n i j : Nat) (h : B.sized m n) (hi : m ≤ i) :
    B.read i j = .error .outOfRange := by
  have : B.b[i]? = none := by
    apply List.getElem?_eq_none; have := h.1; omega
  simp [gomoku_board.read, this]

theorem read_col_out (B : gomoku_board) (m n i j : Nat) (h : B.sized m n) (hj : n ≤ j) :
    B.read i j = .error .outOfRange := by
  by_cases hi : i < m
  · obtain ⟨r, hr, hl⟩ := sized_row B m n i h hi
    have : r[j]? = none := by apply List.getElem?_eq_none; omega
    simp [gomoku_board.read, hr, this]
  · exact read_row_out B m n i j h (by omega)

theorem write_spec (B : gomoku_board) (m n i j c : Nat) (h : B.sized m n) (hi : i < m)
    (hj : j < n) :
    ∃ B1, B.write i j c = .ok B1 ∧ B1.sized m n ∧ B1.last = B.last ∧
      ∀ a b, B1.read a b = if a = i ∧ b = j then .ok c else B.read a b := by
  obtain ⟨r, hr, hl⟩ := sized_row B m n i h hi
  have hj' : j < r.length := by omega
  refine ⟨⟨B.b.set i (r.set j c), B.last⟩, ?_, ?_, rfl, ?_⟩
  · simp [gomoku_board.write, hr, hj']
  · refine ⟨by simpa using h.1, ?_⟩
    intro row hrow
    rcases List.mem_or_eq_of_mem_set hrow with h1 | h1
    · exact h.2 _ h1
    · subst h1; simpa using hl
  · intro a b
    have hlen : i < B.b.length := by have := h.1; omega
    by_cases ha : a = i
    · subst ha
      by_cases hb : b = j
      · subst hb; simp [gomoku_board.read, hlen, hj']
      · have hb' : ¬ j = b := fun e => hb e.symm
        simp [gomoku_board.read, hlen, hb, hr, List.getElem?_set, hb']
    · have ha' : ¬ i = a := fun e => ha e.symm
      simp [gomoku_board.read, ha, List.getElem?_set, ha']

theorem create_spec (h v : Nat) (hh : h < 2 ^ 31) (hv : v < 2 ^ 31) :
    ∃ p, gomoku_board.create h v = .ok p ∧ p.sized h v ∧ p.last = none ∧
      ∀ a b, a < h → b < v → p.cellAt a b = EMPTY := by
  refine ⟨⟨List.replicate h (List.replicate v EMPTY), none⟩, ?_, ?_, rfl, ?_⟩
  · have h1 : ¬ max_cols < v := by unfold max_cols; omega
    have h2 : ¬ max_rows < h := by unfold max_rows; omega
    simp [gomoku_board.create, h1, h2]
  · refine ⟨by simp, ?_⟩
    intro r hr
    rw [List.eq_of_mem_replicate hr]; simp
  · intro a b ha hb
    simp [gomoku_board.cellAt, gomoku_board.read, List.getElem?_replicate, ha, hb]

/-! ## subboard with non-negative lengths -/

theorem sgn_nonneg (c : Nat) : sgn (c : Int) = 1 := by
  unfold sgn; simp

theorem subboardCols_ok (B : gomoku_board) (sp : cell) (mB nB r c i u : Nat)
    (hB : B.sized mB nB) (hi : i < mB) (hy : sp.y + c ≤ nB) (hn : sp.y + c < 2 ^ 31)
    (hu : u < r) (hi31 : i < 2 ^ 31) (hu31 : u < 2 ^ 31) :
    ∀ (d k f : Nat) (p : gomoku_board), d + k = c → d < f → p.sized r c →
      ∃ p1, subboardCols B sp c i u f ((sp.y + k : Nat) : Int) (k : Int) p = .ok p1 ∧
        p1.sized r c ∧ p1.last = p.last ∧
        ∀ a b, p1.read a b =
          if a = u ∧ k ≤ b ∧ b < c then .ok (B.cellAt i (sp.y + b)) else p.read a b := by
  intro d
  induction d with
  | zero =>
    intro k f p hk hf hp
    obtain ⟨f, rfl⟩ : ∃ g, f = g + 1 := ⟨f - 1, by omega⟩
    have hg : ¬ (((sp.y + k : Nat) : Int) < toInt sp.y + (c : Int)) := by
      rw [toInt_small sp.y (by omega)]; omega
    refine ⟨p, by rw [subboardCols, if_neg hg], hp, rfl, ?_⟩
    intro a b
    have : ¬ (a = u ∧ k ≤ b ∧ b < c) := by omega
    simp [this]
  | succ d ih =>
    intro k f p hk hf hp
    obtain ⟨f, rfl⟩ : ∃ g, f = g + 1 := ⟨f - 1, by omega⟩
    have hg : (((sp.y + k : Nat) : Int) < toInt sp.y + (c : Int)) := by
      rw [toInt_small sp.y (by omega)]; omega
    have hrd : B.read (toSize (i : Int)) (toSize ((sp.y + k : Nat) : Int)) =
        .ok (B.cellAt i (sp.y + k)) := by
      rw [toSize_small i (by omega), toSize_small (sp.y + k) (by omega)]
      exact read_of_sized B mB nB i (sp.y + k) hB hi (by omega)
    obtain ⟨p1, hw, hs1, hl1, hr1⟩ :=
      write_spec p r c u k (B.cellAt i (sp.y + k)) hp hu (by omega)
    have hw' : p.write (toSize (u : Int)) (toSize (k : Int)) (B.cellAt i (sp.y + k)) = .ok p1 := by
      rw [toSize_small u (by omega), toSize_small k (by omega)]; exact hw
    obtain ⟨p2, he, hs2, hl2, hr2⟩ := ih (k + 1) f p1 (by omega) (by omega) hs1
    refine ⟨p2, ?_, hs2, by rw [hl2, hl1], ?_⟩
    · rw [subboardCols, if_pos hg, hrd]
      simp only [hw', sgn_nonneg]
      have e1 : ((sp.y + k : Nat) : Int) + 1 = ((sp.y + (k + 1) : Nat) : Int) := by omega
      have e2 : (k : Int) + 1 = ((k + 1 : Nat) : Int) := by omega
      rw [e1, e2]; exact he
    · intro a b
      rw [hr2, hr1]
      by_cases h1 : a = u ∧ k + 1 ≤ b ∧ b < c
      · have : a = u ∧ k ≤ b ∧ b < c := by omega
        simp [h1, this]
      · by_cases h2 : a = u ∧ b = k
        · have : a = u ∧ k ≤ b ∧ b < c := by omega
          obtain ⟨h3, h4⟩ := h2
          subst h4
          simp [h1, h3, this]
        · have : ¬ (a = u ∧ k ≤ b ∧ b < c) := by omega
          simp [h1, h2, this]

theorem cellAt_of_read (B : gomoku_board) (i j c : Nat) (h : B.read i j = .ok c) :
    B.cellAt i j = c := by
  simp [gomoku_board.cellAt, h]

theorem subboardRows_ok (B : gomoku_board) (sp : cell) (mB nB r c : Nat)
    (hB : B.sized mB nB) (hx : sp.x + r ≤ mB) (hx31 : sp.x + r < 2 ^ 31)
    (hy : sp.y + c ≤ nB) (hy31 : sp.y + c < 2 ^ 31) (hr31 : r < 2 ^ 31) :
    ∀ (d k f : Nat) (p : gomoku_board), d + k = r → d < f → p.sized r c →
      ∃ p1, subboardRows B sp r c f ((sp.x + k : Nat) : Int) (k : Int) p = .ok p1 ∧
        p1.sized r c ∧ p1.last = p.last ∧
        ∀ a b, p1.read a b =
          if k ≤ a ∧ a < r ∧ b < c then .ok (B.cellAt (sp.x + a) (sp.y + b))
          else p.read a b := by
  intro d
  induction d with
  | zero =>
    intro k f p hk hf hp
    obtain ⟨f, rfl⟩ : ∃ g, f = g + 1 := ⟨f - 1, by omega⟩
    have hg : ¬ (((sp.x + k : Nat) : Int) < toInt sp.x + (r : Int)) := by
      rw [toInt_small sp.x (by omega)]; omega
    refine ⟨p, by rw [subboardRows, if_neg hg], hp, rfl, ?_⟩
    intro a b
    have : ¬ (k ≤ a ∧ a < r ∧ b < c) := by omega
    simp [this]
  | succ d ih =>
    intro k f p hk hf hp
    obtain ⟨f, rfl⟩ : ∃ g, f = g + 1 := ⟨f - 1, by omega⟩
    have hg : (((sp.x + k : Nat) : Int) < toInt sp.x + (r : Int)) := by
      rw [toInt_small sp.x (by omega)]; omega
    obtain ⟨p1, hc, hs1, hl1, hr1⟩ :=
      subboardCols_ok B sp mB nB r c (sp.x + k) k hB (by omega) hy hy31 (by omega)
        (by omega) (by omega) c 0 (c + 1) p (by omega) (by omega) hp
    obtain ⟨p2, he, hs2, hl2, hr2⟩ := ih (k + 1) f p1 (by omega) (by omega) hs1
    refine ⟨p2, ?_, hs2, by rw [hl2, hl1], ?_⟩
    · rw [subboardRows, if_pos hg]
      have e0 : ((c : Int)).natAbs = c := Int.natAbs_ofNat c
      have e1 : toInt sp.y = ((sp.y + 0 : Nat) : Int) := by
        rw [toInt_small sp.y (by omega)]; rfl
      have e2 : (if (c : Int) ≥ 0 then (0 : Int) else ((c : Nat) : Int) - 1) =
          ((0 : Nat) : Int) := by simp
      rw [e0, e1, e2, hc]
      simp only [sgn_nonneg]
      have e3 : ((sp.x + k : Nat) : Int) + 1 = ((sp.x + (k + 1) : Nat) : Int) := by omega
      have e4 : (k : Int) + 1 = ((k + 1 : Nat) : Int) := by omega
      rw [e3, e4]; exact he
    · intro a b
      rw [hr2, hr1]
      by_cases h1 : k + 1 ≤ a ∧ a < r ∧ b < c
      · have : k ≤ a ∧ a < r ∧ b < c := by omega
        rw [if_pos h1, if_pos this]
      · by_cases h2 : a = k ∧ 0 ≤ b ∧ b < c
        · have : k ≤ a ∧ a < r ∧ b < c := by omega
          rw [if_neg h1, if_pos h2, if_pos this, h2.1]
        · have : ¬ (k ≤ a ∧ a < r ∧ b < c) := by omega
          rw [if_neg h1, if_neg h2, if_neg this]

theorem subboard_ok (B : gomoku_board) (sp : cell) (mB nB r c : Nat)
    (hB : B.sized mB nB) (hx : sp.x + r ≤ mB) (hx31 : sp.x + r < 2 ^ 31)
    (hy : sp.y + c ≤ nB) (hy31 : sp.y + c < 2 ^ 31) :
    ∃ R, B.subboard sp (r : Int) (c : Int) = .ok R ∧ R.sized r c ∧ R.last = none ∧
      ∀ a b, a < r → b < c → R.cellAt a b = B.cellAt (sp.x + a) (sp.y + b) := by
  obtain ⟨p, hc, hp, hl, _⟩ := create_spec r c (by omega) (by omega)
  obtain ⟨R, he, hs, hl1, hr⟩ :=
    subboardRows_ok B sp mB nB r c hB hx hx31 hy hy31 (by omega) r 0 (r + 1) p
      (by omega) (by omega) hp
  refine ⟨R, ?_, hs, by rw [hl1, hl], ?_⟩
  · unfold gomoku_board.subboard
    have e0 : ((r : Int)).natAbs = r := Int.natAbs_ofNat r
    have e0' : ((c : Int)).natAbs = c := Int.natAbs_ofNat c
    have e1 : toInt sp.x = ((sp.x + 0 : Nat) : Int) := by
      rw [toInt_small sp.x (by omega)]; rfl
    have e2 : (if (r : Int) ≥ 0 then (0 : Int) else ((r : Nat) : Int) - 1) =
        ((0 : Nat) : Int) := by simp
    rw [e0, e0', hc]
    simp only []
    rw [e1, e2]; exact he
  · intro a b ha hb
    apply cellAt_of_read
    rw [hr]
    have : 0 ≤ a ∧ a < r ∧ b < c := by omega
    simp [this]

/-! ## operator== on boards with cells -/

theorem lastcell_of_sized (B : gomoku_board) (m n : Nat) (h : B.sized m n)
    (hm : 0 < m) (hm31 : m < 2 ^ 31) (hn : 0 < n) (hn31 : n < 2 ^ 31) :
    B.lastcell = ⟨m - 1, n - 1⟩ := by
  obtain ⟨h1, h2⟩ := h
  unfold gomoku_board.lastcell
  cases hb : B.b with
  | nil => rw [hb] at h1; simp at h1; omega
  | cons r rest =>
    have hr : r.length = n := h2 r (by rw [hb]; simp)
    have hl : (r :: rest).length = m := by rw [← hb]; exact h1
    simp only [hl, hr]
    rw [toInt_small m hm31, toInt_small n hn31]
    have e1 : toSize ((m : Int) - 1) = m - 1 := by unfold toSize; omega
    have e2 : toSize ((n : Int) - 1) = n - 1 := by unfold toSize; omega
    rw [e1, e2]

theorem eqCols_spec (A P : gomoku_board) (m n i : Nat) (hA : A.sized m n) (hP : P.sized m n)
    (hm : 0 < m) (hm31 : m < 2 ^ 31) (hn : 0 < n) (hn31 : n < 2 ^ 31) (hi : i < m) :
    ∀ (d k f : Nat), d + k = n → d < f →
      ∃ r, eqCols A P i f k = .ok r ∧
        (r = true ↔ ∀ j, k ≤ j → j < n → wild (A.cellAt i j) (P.cellAt i j)) := by
  have hlc := lastcell_of_sized A m n hA hm hm31 hn hn31
  intro d
  induction d with
  | zero =>
    intro k f hk hf
    obtain ⟨f, rfl⟩ : ∃ g, f = g + 1 := ⟨f - 1, by omega⟩
    have hg : ¬ (k ≤ A.lastcell.y) := by rw [hlc]; simp; omega
    refine ⟨true, by rw [eqCols, if_neg hg], ?_⟩
    simp only [true_iff]
    intro j h1 h2; omega
  | succ d ih =>
    intro k f hk hf
    obtain ⟨f, rfl⟩ : ∃ g, f = g + 1 := ⟨f - 1, by omega⟩
    have hg : k ≤ A.lastcell.y := by rw [hlc]; simp; omega
    have hra := read_of_sized A m n i k hA hi (by omega)
    have hrp := read_of_sized P m n i k hP hi (by omega)
    have hk1 : add64 k 1 = k + 1 := add64_small k 1 (by omega)
    obtain ⟨r, he, hr⟩ := ih (k + 1) f (by omega) (by omega)
    have step : ∀ (w : wild (A.cellAt i k) (P.cellAt i k)),
        (r = true ↔ ∀ j, k ≤ j → j < n → wild (A.cellAt i j) (P.cellAt i j)) := by
      intro w
      rw [hr]
      constructor
      · intro h j h1 h2
        by_cases e : j = k
        · subst e; exact w
        · exact h j (by omega) h2
      · intro h j h1 h2
        exact h j (by omega) h2
    rw [eqCols, if_pos hg, hra]
    simp only [hk1]
    by_cases ha : A.cellAt i k = WEVER
    · rw [if_pos ha]
      exact ⟨r, he, step (Or.inl ha)⟩
    · rw [if_neg ha, hrp]
      simp only []
      by_cases hq : P.cellAt i k = WEVER
      · rw [if_pos hq]
        exact ⟨r, he, step (Or.inr (Or.inl hq))⟩
      · rw [if_neg hq]
        by_cases hne : A.cellAt i k ≠ P.cellAt i k
        · rw [if_pos hne]
          refine ⟨false, rfl, ?_⟩
          simp only [Bool.false_eq_true, false_iff]
          intro h
          rcases h k (le_refl k) (by omega) with w | w | w
          · exact ha w
          · exact hq w
          · exact hne w
        · rw [if_neg hne]
          exact ⟨r, he, step (Or.inr (Or.inr (not_not.mp hne)))⟩

theorem eqRows_spec (A P : gomoku_board) (m n : Nat) (hA : A.sized m n) (hP : P.sized m n)
    (hm : 0 < m) (hm31 : m < 2 ^ 31) (hn : 0 < n) (hn31 : n < 2 ^ 31) :
    ∀ (d k f : Nat), d + k = m → d < f →
      ∃ r, eqRows A P f k = .ok r ∧
        (r = true ↔ ∀ i, k ≤ i → i < m → ∀ j, j < n → wild (A.cellAt i j) (P.cellAt i j)) := by
  have hlc := lastcell_of_sized A m n hA hm hm31 hn hn31
  intro d
  induction d with
  | zero =>
    intro k f hk hf
    obtain ⟨f, rfl⟩ : ∃ g, f = g + 1 := ⟨f - 1, by omega⟩
    have hg : ¬ (k ≤ A.lastcell.x) := by rw [hlc]; simp; omega
    refine ⟨true, by rw [eqRows, if_neg hg], ?_⟩
    simp only [true_iff]
    intro i h1 h2; omega
  | succ d ih =>
    intro k f hk hf
    obtain ⟨f, rfl⟩ : ∃ g, f = g + 1 := ⟨f - 1, by omega⟩
    have hg : k ≤ A.lastcell.x := by rw [hlc]; simp; omega
    have hk1 : add64 k 1 = k + 1 := add64_small k 1 (by omega)
    obtain ⟨c, hc, hcr⟩ :=
      eqCols_spec A P m n k hA hP hm hm31 hn hn31 (by omega) n 0 (2 ^ 64 + 1) (by omega)
        (by omega)
    obtain ⟨r, he, hr⟩ := ih (k + 1) f (by omega) (by omega)
    rw [eqRows, if_pos hg, hc]
    cases c with
    | false =>
      refine ⟨false, rfl, ?_⟩
      simp only [Bool.false_eq_true, false_iff]
      intro h
      have : false = true := hcr.mpr (fun j _ h2 => h k (le_refl k) (by omega) j h2)
      exact Bool.noConfusion this
    | true =>
      simp only [hk1]
      refine ⟨r, he, ?_⟩
      rw [hr]
      have hrow := hcr.mp rfl
      constructor
      · intro h i h1 h2 j h3
        by_cases e : i = k
        · subst e; exact hrow j (Nat.zero_le j) h3
        · exact h i (by omega) h2 j h3
      · intro h i h1 h2 j h3
        exact h i (by omega) h2 j h3

theorem eq_same_size (A P : gomoku_board) (m n : Nat) (hA : A.sized m n) (hP : P.sized m n)
    (hm : 0 < m) (hm31 : m < 2 ^ 31) (hn : 0 < n) (hn31 : n < 2 ^ 31) :
    ∃ r, A.eq P = .ok r ∧
      (r = true ↔ ∀ i, i < m → ∀ j, j < n → wild (A.cellAt i j) (P.cellAt i j)) := by
  have h1 := lastcell_of_sized A m n hA hm hm31 hn hn31
  have h2 := lastcell_of_sized P m n hP hm hm31 hn hn31
  obtain ⟨r, he, hr⟩ :=
    eqRows_spec A P m n hA hP hm hm31 hn hn31 m 0 (2 ^ 64 + 1) (by omega) (by omega)
  refine ⟨r, ?_, ?_⟩
  · unfold gomoku_board.eq
    rw [h1, h2]
    have hc : cell.ne ⟨m - 1, n - 1⟩ ⟨m - 1, n - 1⟩ = false := by simp [cell.ne]
    rw [if_neg (by rw [hc]; exact Bool.false_ne_true)]
    exact he
  · rw [hr]
    constructor
    · intro h i hi j hj; exact h i (Nat.zero_le i) hi j hj
    · intro h i _ hi j hj; exact h i hi j hj

theorem eq_diff_size (A P : gomoku_board) (m n m1 n1 : Nat) (hA : A.sized m n)
    (hP : P.sized m1 n1) (hm : 0 < m) (hm31 : m < 2 ^ 31) (hn : 0 < n) (hn31 : n < 2 ^ 31)
    (hm1 : 0 < m1) (hm131 : m1 < 2 ^ 31) (hn1 : 0 < n1) (hn131 : n1 < 2 ^ 31)
    (hne : ¬ (m = m1 ∧ n = n1)) : A.eq P = .ok false := by
  have h1 := lastcell_of_sized A m n hA hm hm31 hn hn31
  have h2 := lastcell_of_sized P m1 n1 hP hm1 hm131 hn1 hn131
  unfold gomoku_board.eq
  rw [h1, h2]
  have : cell.ne ⟨m - 1, n - 1⟩ ⟨m1 - 1, n1 - 1⟩ = true := by
    simp only [cell.ne, Bool.not_eq_true', Bool.and_eq_false_imp, beq_iff_eq]
    intro h3
    simp only [beq_eq_false_iff_ne]
    omega
  rw [if_pos this]

/-! ## rotate on boards with cells -/

theorem rotateCols_ok (B : gomoku_board) (m n i : Nat) (hB : B.sized m n)
    (hm31 : m < 2 ^ 31) (hn31 : n < 2 ^ 31) (hi : i < m) :
    ∀ (d k f : Nat) (p : gomoku_board), d + k = n → d < f → p.sized n m →
      ∃ p1, rotateCols B (m : Int) (n : Int) (i : Int) f (k : Int) p = .ok p1 ∧
        p1.sized n m ∧ p1.last = p.last ∧
        ∀ a b, p1.read a b =
          if k ≤ a ∧ a < n ∧ b = m - 1 - i then .ok (B.cellAt i a) else p.read a b := by
  intro d
  induction d with
  | zero =>
    intro k f p hk hf hp
    obtain ⟨f, rfl⟩ : ∃ g, f = g + 1 := ⟨f - 1, by omega⟩
    have hg : ¬ ((k : Int) < (n : Int)) := by omega
    refine ⟨p, by rw [rotateCols, if_neg hg], hp, rfl, ?_⟩
    intro a b
    have : ¬ (k ≤ a ∧ a < n ∧ b = m - 1 - i) := by omega
    rw [if_neg this]
  | succ d ih =>
    intro k f p hk hf hp
    obtain ⟨f, rfl⟩ : ∃ g, f = g + 1 := ⟨f - 1, by omega⟩
    have hg : (k : Int) < (n : Int) := by omega
    have hrd : B.read (toSize (i : Int)) (toSize (k : Int)) = .ok (B.cellAt i k) := by
      rw [toSize_small i (by omega), toSize_small k (by omega)]
      exact read_of_sized B m n i k hB hi (by omega)
    obtain ⟨p1, hw, hs1, hl1, hr1⟩ :=
      write_spec p n m k (m - 1 - i) (B.cellAt i k) hp (by omega) (by omega)
    have hw' : p.write (toSize (k : Int)) (toSize ((m : Int) - (i : Int) - 1))
        (B.cellAt i k) = .ok p1 := by
      have e : toSize ((m : Int) - (i : Int) - 1) = m - 1 - i := by unfold toSize; omega
      rw [toSize_small k (by omega), e]; exact hw
    obtain ⟨p2, he, hs2, hl2, hr2⟩ := ih (k + 1) f p1 (by omega) (by omega) hs1
    refine ⟨p2, ?_, hs2, by rw [hl2, hl1], ?_⟩
    · rw [rotateCols, if_pos hg, hrd]
      simp only [hw']
      have e2 : (k : Int) + 1 = ((k + 1 : Nat) : Int) := by omega
      rw [e2]; exact he
    · intro a b
      rw [hr2, hr1]
      by_cases h1 : k + 1 ≤ a ∧ a < n ∧ b = m - 1 - i
      · have : k ≤ a ∧ a < n ∧ b = m - 1 - i := by omega
        rw [if_pos h1, if_pos this]
      · by_cases h2 : a = k ∧ b = m - 1 - i
        · have : k ≤ a ∧ a < n ∧ b = m - 1 - i := by omega
          rw [if_neg h1, if_pos h2, if_pos this, h2.1]
        · have : ¬ (k ≤ a ∧ a < n ∧ b = m - 1 - i) := by omega
          rw [if_neg h1, if_neg h2, if_neg this]

theorem rotateRows_ok (B : gomoku_board) (m n : Nat) (hB : B.sized m n)
    (hm31 : m < 2 ^ 31) (hn31 : n < 2 ^ 31) :
    ∀ (d k f : Nat) (p : gomoku_board), d + k = m → d < f → p.sized n m →
      ∃ p1, rotateRows B (m : Int) (n : Int) f (k : Int) p = .ok p1 ∧
        p1.sized n m ∧ p1.last = p.last ∧
        ∀ a b, p1.read a b =
          if a < n ∧ b < m ∧ k ≤ m - 1 - b then .ok (B.cellAt (m - 1 - b) a)
          else p.read a b := by
  intro d
  induction d with
  | zero =>
    intro k f p hk hf hp
    obtain ⟨f, rfl⟩ : ∃ g, f = g + 1 := ⟨f - 1, by omega⟩
    have hg : ¬ ((k : Int) < (m : Int)) := by omega
    refine ⟨p, by rw [rotateRows, if_neg hg], hp, rfl, ?_⟩
    intro a b
    have : ¬ (a < n ∧ b < m ∧ k ≤ m - 1 - b) := by omega
    rw [if_neg this]
  | succ d ih =>
    intro k f p hk hf hp
    obtain ⟨f, rfl⟩ : ∃ g, f = g + 1 := ⟨f - 1, by omega⟩
    have hg : (k : Int) < (m : Int) := by omega
    obtain ⟨p1, hc, hs1, hl1, hr1⟩ :=
      rotateCols_ok B m n k hB hm31 hn31 (by omega) n 0 (n + 1) p (by omega) (by omega) hp
    obtain ⟨p2, he, hs2, hl2, hr2⟩ := ih (k + 1) f p1 (by omega) (by omega) hs1
    refine ⟨p2, ?_, hs2, by rw [hl2, hl1], ?_⟩
    · rw [rotateRows, if_pos hg]
      have e0 : ((n : Int)).toNat = n := Int.toNat_ofNat n
      have e1 : (0 : Int) = ((0 : Nat) : Int) := rfl
      rw [e0, e1, hc]
      simp only []
      have e2 : (k : Int) + 1 = ((k + 1 : Nat) : Int) := by omega
      rw [e2]; exact he
    · intro a b
      rw [hr2, hr1]
      by_cases h1 : a < n ∧ b < m ∧ k + 1 ≤ m - 1 - b
      · have : a < n ∧ b < m ∧ k ≤ m - 1 - b := by omega
        rw [if_pos h1, if_pos this]
      · by_cases h2 : 0 ≤ a ∧ a < n ∧ b = m - 1 - k
        · have : a < n ∧ b < m ∧ k ≤ m - 1 - b := by omega
          have e : m - 1 - b = k := by omega
          rw [if_neg h1, if_pos h2, if_pos this, e]
        · have : ¬ (a < n ∧ b < m ∧ k ≤ m - 1 - b) := by omega
          rw [if_neg h1, if_neg h2, if_neg this]

theorem rotate_ok (B : gomoku_board) (m n : Nat) (hB : B.sized m n)
    (hm : 0 < m) (hm31 : m < 2 ^ 31) (hn : 0 < n) (hn31 : n < 2 ^ 31) :
    ∃ R, B.rotate = .ok R ∧ R.sized n m ∧ R.last = none ∧
      ∀ a b, a < n → b < m → R.cellAt a b = B.cellAt (m - 1 - b) a := by
  have hlc := lastcell_of_sized B m n hB hm hm31 hn hn31
  obtain ⟨p, hc, hp, hl, _⟩ := create_spec n m hn31 hm31
  obtain ⟨R, he, hs, hl1, hr⟩ :=
    rotateRows_ok B m n hB hm31 hn31 m 0 (m + 1) p (by omega) (by omega) hp
  refine ⟨R, ?_, hs, by rw [hl1, hl], ?_⟩
  · unfold gomoku_board.rotate
    rw [hlc]
    have e1 : toInt (add64 (m - 1) 1) = (m : Int) := by
      rw [add64_small _ _ (by omega), toInt_small _ (by omega)]; omega
    have e2 : toInt (add64 (n - 1) 1) = (n : Int) := by
      rw [add64_small _ _ (by omega), toInt_small _ (by omega)]; omega
    simp only [e1, e2]
    rw [toSize_small n (by omega), toSize_small m (by omega), hc]
    simp only []
    have e0 : ((m : Int)).toNat = m := Int.toNat_ofNat m
    have e3 : (0 : Int) = ((0 : Nat) : Int) := rfl
    rw [e0, e3]; exact he
  · intro a b ha hb
    apply cellAt_of_read
    rw [hr]
    have : a < n ∧ b < m ∧ 0 ≤ m - 1 - b := by omega
    rw [if_pos this]

/-! ## The search and overwriting loops of replace -/

theorem window_eq (B P : gomoku_board) (mB nB r c i j : Nat) (hB : B.sized mB nB)
    (hP : P.sized r c) (hr : 0 < r) (hc : 0 < c) (hm31 : mB < 2 ^ 31) (hn31 : nB < 2 ^ 31)
    (hi : i + r ≤ mB) (hj : j + c ≤ nB) :
    ∃ s e, B.subboard ⟨i, j⟩ (toInt (add64 P.lastcell.x 1)) (toInt (add64 P.lastcell.y 1))
        = .ok s ∧ s.eq P = .ok e ∧ (e = true ↔ matchAt B P r c i j) := by
  have hlc := lastcell_of_sized P r c hP hr (by omega) hc (by omega)
  have e1 : toInt (add64 (r - 1) 1) = (r : Int) := by
    rw [add64_small _ _ (by omega), toInt_small _ (by omega)]; omega
  have e2 : toInt (add64 (c - 1) 1) = (c : Int) := by
    rw [add64_small _ _ (by omega), toInt_small _ (by omega)]; omega
  obtain ⟨s, hs, hsz, _, hcell⟩ :=
    subboard_ok B ⟨i, j⟩ mB nB r c hB (by simpa using hi) (by simp only []; omega)
      (by simpa using hj) (by simp only []; omega)
  obtain ⟨e, he, hiff⟩ := eq_same_size s P r c hsz hP hr (by omega) hc (by omega)
  refine ⟨s, e, ?_, he, ?_⟩
  · rw [hlc]; simp only [e1, e2]; exact hs
  · rw [hiff]
    unfold matchAt
    constructor
    · intro h u hu v hv
      have := h u hu v hv
      rw [hcell u v hu hv] at this; exact this
    · intro h u hu v hv
      rw [hcell u v hu hv]; exact h u hu v hv

theorem replaceFindCols_none (B P : gomoku_board) (mB nB r c i : Nat) (hB : B.sized mB nB)
    (hP : P.sized r c) (hr : 0 < r) (hc : 0 < c) (hm31 : mB < 2 ^ 31) (hn31 : nB < 2 ^ 31)
    (hi : i + r ≤ mB) (hcn : c ≤ nB) (pos : Option cell) :
    ∀ (d k f : Nat), d + k = nB - c + 1 → d < f →
      (∀ j, k ≤ j → j + c ≤ nB → ¬ matchAt B P r c i j) →
      replaceFindCols B P i f k (pos, true) = .ok (pos, true) := by
  have hlB := lastcell_of_sized B mB nB hB (by omega) hm31 (by omega) hn31
  have hlP := lastcell_of_sized P r c hP hr (by omega) hc (by omega)
  have hbound : sub64 B.lastcell.y P.lastcell.y = nB - c := by
    rw [hlB, hlP]; simp only []; rw [sub64_small _ _ (by omega) (by omega)]; omega
  intro d
  induction d with
  | zero =>
    intro k f hk hf _
    obtain ⟨f, rfl⟩ : ∃ g, f = g + 1 := ⟨f - 1, by omega⟩
    have hg : ¬ (k ≤ sub64 B.lastcell.y P.lastcell.y ∧ (pos, true).2 = true) := by
      rw [hbound]; omega
    rw [replaceFindCols, if_neg hg]
  | succ d ih =>
    intro k f hk hf hno
    obtain ⟨f, rfl⟩ : ∃ g, f = g + 1 := ⟨f - 1, by omega⟩
    have hg : k ≤ sub64 B.lastcell.y P.lastcell.y ∧ (pos, true).2 = true := by
      rw [hbound]; exact ⟨by omega, rfl⟩
    obtain ⟨s, e, hs, he, hiff⟩ :=
      window_eq B P mB nB r c i k hB hP hr hc hm31 hn31 hi (by omega)
    have hef : e = false := by
      cases e with
      | false => rfl
      | true => exact absurd (hiff.mp rfl) (hno k (le_refl k) (by omega))
    subst hef
    rw [replaceFindCols, if_pos hg, hs]
    simp only [he]
    rw [add64_small k 1 (by omega)]
    exact ih (k + 1) f (by omega) (by omega) (fun j h1 h2 => hno j (by omega) h2)

theorem replaceFindCols_first (B P : gomoku_board) (mB nB r c i j0 : Nat)
    (hB : B.sized mB nB) (hP : P.sized r c) (hr : 0 < r) (hc : 0 < c) (hm31 : mB < 2 ^ 31)
    (hn31 : nB < 2 ^ 31) (hi : i + r ≤ mB) (hj0 : j0 + c ≤ nB)
    (hmatch : matchAt B P r c i j0) (pos : Option cell) :
    ∀ (d k f : Nat), d + k = j0 → d < f →
      (∀ j, k ≤ j → j < j0 → ¬ matchAt B P r c i j) →
      replaceFindCols B P i f k (pos, true) = .ok (some ⟨i, j0⟩, false) := by
  have hlB := lastcell_of_sized B mB nB hB (by omega) hm31 (by omega) hn31
  have hlP := lastcell_of_sized P r c hP hr (by omega) hc (by omega)
  have hbound : sub64 B.lastcell.y P.lastcell.y = nB - c := by
    rw [hlB, hlP]; simp only []; rw [sub64_small _ _ (by omega) (by omega)]; omega
  intro d
  induction d with
  | zero =>
    intro k f hk hf _
    obtain ⟨f, rfl⟩ : ∃ g, f = g + 1 := ⟨f - 1, by omega⟩
    have hk0 : k = j0 := by omega
    subst hk0
    have hg : k ≤ sub64 B.lastcell.y P.lastcell.y ∧ (pos, true).2 = true := by
      rw [hbound]; exact ⟨by omega, rfl⟩
    obtain ⟨s, e, hs, he, hiff⟩ :=
      window_eq B P mB nB r c i k hB hP hr hc hm31 hn31 hi hj0
    have het : e = true := hiff.mpr hmatch
    subst het
    rw [replaceFindCols, if_pos hg, hs]
    simp only [he]
  | succ d ih =>
    intro k f hk hf hno
    obtain ⟨f, rfl⟩ : ∃ g, f = g + 1 := ⟨f - 1, by omega⟩
    have hg : k ≤ sub64 B.lastcell.y P.lastcell.y ∧ (pos, true).2 = true := by
      rw [hbound]; exact ⟨by omega, rfl⟩
    obtain ⟨s, e, hs, he, hiff⟩ :=
      window_eq B P mB nB r c i k hB hP hr hc hm31 hn31 hi (by omega)
    have hef : e = false := by
      cases e with
      | false => rfl
      | true => exact absurd (hiff.mp rfl) (hno k (le_refl k) (by omega))
    subst hef
    rw [replaceFindCols, if_pos hg, hs]
    simp only [he]
    rw [add64_small k 1 (by omega)]
    exact ih (k + 1) f (by omega) (by omega) (fun j h1 h2 => hno j (by omega) h2)

theorem replaceFindRows_none (B P : gomoku_board) (mB nB r c : Nat) (hB : B.sized mB nB)
    (hP : P.sized r c) (hr : 0 < r) (hc : 0 < c) (hm31 : mB < 2 ^ 31) (hn31 : nB < 2 ^ 31)
    (hrm : r ≤ mB) (hcn : c ≤ nB) (pos : Option cell) :
    ∀ (d k f : Nat), d + k = mB - r + 1 → d < f →
      (∀ i j, k ≤ i → i + r ≤ mB → j + c ≤ nB → ¬ matchAt B P r c i j) →
      replaceFindRows B P f k (pos, true) = .ok (pos, true) := by
  have hlB := lastcell_of_sized B mB nB hB (by omega) hm31 (by omega) hn31
  have hlP := lastcell_of_sized P r c hP hr (by omega) hc (by omega)
  have hbound : sub64 B.lastcell.x P.lastcell.x = mB - r := by
    rw [hlB, hlP]; simp only []; rw [sub64_small _ _ (by omega) (by omega)]; omega
  intro d
  induction d with
  | zero =>
    intro k f hk hf _
    obtain ⟨f, rfl⟩ : ∃ g, f = g + 1 := ⟨f - 1, by omega⟩
    have hg : ¬ (k ≤ sub64 B.lastcell.x P.lastcell.x ∧ (pos, true).2 = true) := by
      rw [hbound]; omega
    rw [replaceFindRows, if_neg hg]
  | succ d ih =>
    intro k f hk hf hno
    obtain ⟨f, rfl⟩ : ∃ g, f = g + 1 := ⟨f - 1, by omega⟩
    have hg : k ≤ sub64 B.lastcell.x P.lastcell.x ∧ (pos, true).2 = true := by
      rw [hbound]; exact ⟨by omega, rfl⟩
    have hrow := replaceFindCols_none B P mB nB r c k hB hP hr hc hm31 hn31 (by omega) hcn
      pos (nB - c + 1) 0 (2 ^ 64 + 1) (by omega) (by omega)
      (fun j _ h2 => hno k j (le_refl k) (by omega) h2)
    rw [replaceFindRows, if_pos hg, hrow]
    simp only []
    rw [add64_small k 1 (by omega)]
    exact ih (k + 1) f (by omega) (by omega) (fun i j h1 h2 h3 => hno i j (by omega) h2 h3)

theorem replaceFindRows_first (B P : gomoku_board) (mB nB r c i0 j0 : Nat)
    (hB : B.sized mB nB) (hP : P.sized r c) (hr : 0 < r) (hc : 0 < c) (hm31 : mB < 2 ^ 31)
    (hn31 : nB < 2 ^ 31) (hi0 : i0 + r ≤ mB) (hj0 : j0 + c ≤ nB)
    (hmatch : matchAt B P r c i0 j0) (pos : Option cell) :
    ∀ (d k f : Nat), d + k = i0 → d + 1 < f →
      (∀ i j, k ≤ i → i + r ≤ mB → j + c ≤ nB → (i < i0 ∨ (i = i0 ∧ j < j0)) →
        ¬ matchAt B P r c i j) →
      replaceFindRows B P f k (pos, true) = .ok (some ⟨i0, j0⟩, false) := by
  have hlB := lastcell_of_sized B mB nB hB (by omega) hm31 (by omega) hn31
  have hlP := lastcell_of_sized P r c hP hr (by omega) hc (by omega)
  have hbound : sub64 B.lastcell.x P.lastcell.x = mB - r := by
    rw [hlB, hlP]; simp only []; rw [sub64_small _ _ (by omega) (by omega)]; omega
  intro d
  induction d with
  | zero =>
    intro k f hk hf hno
    obtain ⟨f, rfl⟩ : ∃ g, f = g + 2 := ⟨f - 2, by omega⟩
    have hk0 : k = i0 := by omega
    subst hk0
    have hg : k ≤ sub64 B.lastcell.x P.lastcell.x ∧ (pos, true).2 = true := by
      rw [hbound]; exact ⟨by omega, rfl⟩
    have hrow := replaceFindCols_first B P mB nB r c k j0 hB hP hr hc hm31 hn31 hi0 hj0
      hmatch pos j0 0 (2 ^ 64 + 1) (by omega) (by omega)
      (fun j _ h2 => hno k j (le_refl k) hi0 (by omega) (Or.inr ⟨rfl, h2⟩))
    rw [replaceFindRows, if_pos hg, hrow]
    simp only []
    have hg2 : ¬ (add64 k 1 ≤ sub64 B.lastcell.x P.lastcell.x ∧
        ((some (⟨k, j0⟩ : cell), false) : Option cell × Bool).2 = true) := by
      intro h; exact Bool.false_ne_true h.2
    rw [replaceFindRows, if_neg hg2]
  | succ d ih =>
    intro k f hk hf hno
    obtain ⟨f, rfl⟩ : ∃ g, f = g + 1 := ⟨f - 1, by omega⟩
    have hg : k ≤ sub64 B.lastcell.x P.lastcell.x ∧ (pos, true).2 = true := by
      rw [hbound]; exact ⟨by omega, rfl⟩
    have hrow := replaceFindCols_none B P mB nB r c k hB hP hr hc hm31 hn31 (by omega)
      (by omega) pos (nB - c + 1) 0 (2 ^ 64 + 1) (by omega) (by omega)
      (fun j _ h2 => hno k j (le_refl k) (by omega) h2 (Or.inl (by omega)))
    rw [replaceFindRows, if_pos hg, hrow]
    simp only []
    rw [add64_small k 1 (by omega)]
    exact ih (k + 1) f (by omega) (by omega)
      (fun i j h1 h2 h3 h4 => hno i j (by omega) h2 h3 h4)

theorem replaceWriteCols_ok (P Q : gomoku_board) (mB nB r c i0 j0 i : Nat)
    (hP : P.sized r c) (hQ : Q.sized r c) (hr : 0 < r) (hc : 0 < c)
    (hm31 : mB < 2 ^ 31) (hn31 : nB < 2 ^ 31) (hi0 : i0 + r ≤ mB) (hj0 : j0 + c ≤ nB)
    (hi : i0 ≤ i) (hi2 : i < i0 + r) :
    ∀ (d k f : Nat) (B : gomoku_board), d + k = j0 + c → j0 ≤ k → d < f → B.sized mB nB →
      ∃ B1, replaceWriteCols P Q ⟨i0, j0⟩ i f k B = .ok B1 ∧ B1.sized mB nB ∧
        B1.last = B.last ∧
        ∀ a b, B1.read a b =
          if a = i ∧ k ≤ b ∧ b < j0 + c then .ok (Q.cellAt (i - i0) (b - j0))
          else B.read a b := by
  have hlP := lastcell_of_sized P r c hP hr (by omega) hc (by omega)
  have hbound : add64 (⟨i0, j0⟩ : cell).y P.lastcell.y = j0 + c - 1 := by
    rw [hlP]; simp only []; rw [add64_small _ _ (by omega)]; omega
  intro d
  induction d with
  | zero =>
    intro k f B hk hjk hf hBs
    obtain ⟨f, rfl⟩ : ∃ g, f = g + 1 := ⟨f - 1, by omega⟩
    have hg : ¬ (k ≤ add64 (⟨i0, j0⟩ : cell).y P.lastcell.y) := by rw [hbound]; omega
    refine ⟨B, by rw [replaceWriteCols, if_neg hg], hBs, rfl, ?_⟩
    intro a b
    have : ¬ (a = i ∧ k ≤ b ∧ b < j0 + c) := by omega
    rw [if_neg this]
  | succ d ih =>
    intro k f B hk hjk hf hBs
    obtain ⟨f, rfl⟩ : ∃ g, f = g + 1 := ⟨f - 1, by omega⟩
    have hg : k ≤ add64 (⟨i0, j0⟩ : cell).y P.lastcell.y := by rw [hbound]; omega
    have hrd : Q.read (sub64 i (⟨i0, j0⟩ : cell).x) (sub64 k (⟨i0, j0⟩ : cell).y) =
        .ok (Q.cellAt (i - i0) (k - j0)) := by
      simp only []
      rw [sub64_small _ _ hi (by omega), sub64_small _ _ hjk (by omega)]
      exact read_of_sized Q r c _ _ hQ (by omega) (by omega)
    obtain ⟨B1, hw, hs1, hl1, hr1⟩ :=
      write_spec B mB nB i k (Q.cellAt (i - i0) (k - j0)) hBs (by omega) (by omega)
    obtain ⟨B2, he, hs2, hl2, hr2⟩ := ih (k + 1) f B1 (by omega) (by omega) (by omega) hs1
    refine ⟨B2, ?_, hs2, by rw [hl2, hl1], ?_⟩
    · rw [replaceWriteCols, if_pos hg, hrd]
      simp only [hw]
      rw [add64_small k 1 (by omega)]; exact he
    · intro a b
      rw [hr2, hr1]
      by_cases h1 : a = i ∧ k + 1 ≤ b ∧ b < j0 + c
      · have : a = i ∧ k ≤ b ∧ b < j0 + c := by omega
        rw [if_pos h1, if_pos this]
      · by_cases h2 : a = i ∧ b = k
        · have : a = i ∧ k ≤ b ∧ b < j0 + c := by omega
          rw [if_neg h1, if_pos h2, if_pos this, h2.2]
        · have : ¬ (a = i ∧ k ≤ b ∧ b < j0 + c) := by omega
          rw [if_neg h1, if_neg h2, if_neg this]

theorem replaceWriteRows_ok (P Q : gomoku_board) (mB nB r c i0 j0 : Nat)
    (hP : P.sized r c) (hQ : Q.sized r c) (hr : 0 < r) (hc : 0 < c)
    (hm31 : mB < 2 ^ 31) (hn31 : nB < 2 ^ 31) (hi0 : i0 + r ≤ mB) (hj0 : j0 + c ≤ nB) :
    ∀ (d k f : Nat) (B : gomoku_board), d + k = i0 + r → i0 ≤ k → d < f → B.sized mB nB →
      ∃ B1, replaceWriteRows P Q ⟨i0, j0⟩ f k B = .ok B1 ∧ B1.sized mB nB ∧
        B1.last = B.last ∧
        ∀ a b, B1.read a b =
          if k ≤ a ∧ a < i0 + r ∧ j0 ≤ b ∧ b < j0 + c then .ok (Q.cellAt (a - i0) (b - j0))
          else B.read a b := by
  have hlP := lastcell_of_sized P r c hP hr (by omega) hc (by omega)
  have hbound : add64 (⟨i0, j0⟩ : cell).x P.lastcell.x = i0 + r - 1 := by
    rw [hlP]; simp only []; rw [add64_small _ _ (by omega)]; omega
  intro d
  induction d with
  | zero =>
    intro k f B hk hik hf hBs
    obtain ⟨f, rfl⟩ : ∃ g, f = g + 1 := ⟨f - 1, by omega⟩
    have hg : ¬ (k ≤ add64 (⟨i0, j0⟩ : cell).x P.lastcell.x) := by rw [hbound]; omega
    refine ⟨B, by rw [replaceWriteRows, if_neg hg], hBs, rfl, ?_⟩
    intro a b
    have : ¬ (k ≤ a ∧ a < i0 + r ∧ j0 ≤ b ∧ b < j0 + c) := by omega
    rw [if_neg this]
  | succ d ih =>
    intro k f B hk hik hf hBs
    obtain ⟨f, rfl⟩ : ∃ g, f = g + 1 := ⟨f - 1, by omega⟩
    have hg : k ≤ add64 (⟨i0, j0⟩ : cell).x P.lastcell.x := by rw [hbound]; omega
    obtain ⟨B1, hc1, hs1, hl1, hr1⟩ :=
      replaceWriteCols_ok P Q mB nB r c i0 j0 k hP hQ hr hc hm31 hn31 hi0 hj0 hik (by omega)
        c j0 (2 ^ 64 + 1) B (by omega) (le_refl j0) (by omega) hBs
    obtain ⟨B2, he, hs2, hl2, hr2⟩ := ih (k + 1) f B1 (by omega) (by omega) (by omega) hs1
    refine ⟨B2, ?_, hs2, by rw [hl2, hl1], ?_⟩
    · rw [replaceWriteRows, if_pos hg]
      have e : (⟨i0, j0⟩ : cell).y = j0 := rfl
      rw [e, hc1]
      simp only []
      rw [add64_small k 1 (by omega)]; exact he
    · intro a b
      rw [hr2, hr1]
      by_cases h1 : k + 1 ≤ a ∧ a < i0 + r ∧ j0 ≤ b ∧ b < j0 + c
      · have : k ≤ a ∧ a < i0 + r ∧ j0 ≤ b ∧ b < j0 + c := by omega
        rw [if_pos h1, if_pos this]
      · by_cases h2 : a = k ∧ j0 ≤ b ∧ b < j0 + c
        · have : k ≤ a ∧ a < i0 + r ∧ j0 ≤ b ∧ b < j0 + c := by omega
          rw [if_neg h1, if_pos h2, if_pos this, h2.1]
        · have : ¬ (k ≤ a ∧ a < i0 + r ∧ j0 ≤ b ∧ b < j0 + c) := by omega
          rw [if_neg h1, if_neg h2, if_neg this]

theorem cellAt_congr (A B : gomoku_board) (i j a b : Nat) (h : A.read i j = B.read a b) :
    A.cellAt i j = B.cellAt a b := by
  simp [gomoku_board.cellAt, h]

/-! ## Four rotations -/

theorem grid_ext (A B : gomoku_board) (m n : Nat) (hA : A.sized m n) (hB : B.sized m n)
    (h : ∀ i j, i < m → j < n → A.cellAt i j = B.cellAt i j) : A.b = B.b := by
  apply List.ext_getElem?
  intro i
  by_cases hi : i < m
  · obtain ⟨ra, hra, hla⟩ := sized_row A m n i hA hi
    obtain ⟨rb, hrb, hlb⟩ := sized_row B m n i hB hi
    rw [hra, hrb]
    congr 1
    apply List.ext_getElem?
    intro j
    by_cases hj : j < n
    · have h1 := read_of_sized A m n i j hA hi hj
      have h2 := read_of_sized B m n i j hB hi hj
      rw [h i j hi hj] at h1
      have hja : j < ra.length := by omega
      have hjb : j < rb.length := by omega
      simp only [gomoku_board.read, hra, hrb, List.getElem?_eq_getElem hja,
        List.getElem?_eq_getElem hjb] at h1 h2
      rw [List.getElem?_eq_getElem hja, List.getElem?_eq_getElem hjb]
      injection h1 with h1
      injection h2 with h2
      rw [h1, h2]
    · rw [List.getElem?_eq_none (by omega), List.getElem?_eq_none (by omega)]
  · rw [List.getElem?_eq_none (by have := hA.1; omega),
      List.getElem?_eq_none (by have := hB.1; omega)]

theorem rotate4_ok (B : gomoku_board) (m n : Nat) (hB : B.sized m n)
    (hm : 0 < m) (hm31 : m < 2 ^ 31) (hn : 0 < n) (hn31 : n < 2 ^ 31) :
    ∃ R, rotate4 B = .ok R ∧ R.sized m n ∧
      ∀ a b, a < m → b < n → R.cellAt a b = B.cellAt a b := by
  obtain ⟨R1, h1, s1, _, c1⟩ := rotate_ok B m n hB hm hm31 hn hn31
  obtain ⟨R2, h2, s2, _, c2⟩ := rotate_ok R1 n m s1 hn hn31 hm hm31
  obtain ⟨R3, h3, s3, _, c3⟩ := rotate_ok R2 m n s2 hm hm31 hn hn31
  obtain ⟨R4, h4, s4, _, c4⟩ := rotate_ok R3 n m s3 hn hn31 hm hm31
  refine ⟨R4, ?_, s4, ?_⟩
  · unfold rotate4
    rw [h1]; simp only []
    rw [h2]; simp only []
    rw [h3]; simp only []
    exact h4
  · intro a b ha hb
    rw [c4 a b ha hb, c3 (n - 1 - b) a (by omega) ha,
      c2 (m - 1 - a) (n - 1 - b) (by omega) (by omega),
      c1 (n - 1 - (n - 1 - b)) (m - 1 - a) (by omega) (by omega)]
    have e1 : m - 1 - (m - 1 - a) = a := by omega
    have e2 : n - 1 - (n - 1 - b) = b := by omega
    rw [e1, e2]

/-! ## replace without effect -/

theorem replace_size_mismatch_noop (B P Q : gomoku_board) (r c r2 c2 : Nat)
    (hP : P.sized r c) (hQ : Q.sized r2 c2) (hr : 0 < r) (hc : 0 < c) (hr2 : 0 < r2)
    (hc2 : 0 < c2) (hr31 : r < 2 ^ 31) (hc31 : c < 2 ^ 31) (hr231 : r2 < 2 ^ 31)
    (hc231 : c2 < 2 ^ 31) (hne : ¬ (r = r2 ∧ c = c2)) : B.replace P Q = .ok B := by
  have h1 := lastcell_of_sized P r c hP hr hr31 hc hc31
  have h2 := lastcell_of_sized Q r2 c2 hQ hr2 hr231 hc2 hc231
  unfold gomoku_board.replace
  rw [h1, h2]
  have : cell.ne ⟨r - 1, c - 1⟩ ⟨r2 - 1, c2 - 1⟩ = true := by
    simp only [cell.ne, Bool.not_eq_true', Bool.and_eq_false_imp, beq_iff_eq]
    intro h3
    simp only [beq_eq_false_iff_ne]
    omega
  rw [if_pos this]

theorem replace_no_match_noop (B P Q : gomoku_board) (mB nB r c : Nat)
    (hB : B.sized mB nB) (hP : P.sized r c) (hQ : Q.sized r c) (hr : 0 < r) (hc : 0 < c)
    (hrm : r ≤ mB) (hcn : c ≤ nB) (hm31 : mB < 2 ^ 31) (hn31 : nB < 2 ^ 31)
    (hno : ∀ i j, i + r ≤ mB → j + c ≤ nB → ¬ matchAt B P r c i j) :
    B.replace P Q = .ok B := by
  have h1 := lastcell_of_sized P r c hP hr (by omega) hc (by omega)
  have h2 := lastcell_of_sized Q r c hQ hr (by omega) hc (by omega)
  have hfind := replaceFindRows_none B P mB nB r c hB hP hr hc hm31 hn31 hrm hcn none
    (mB - r + 1) 0 (2 ^ 64 + 1) (by omega) (by omega) (fun i j _ h2 h3 => hno i j h2 h3)
  have hc0 : cell.ne P.lastcell Q.lastcell = false := by rw [h1, h2]; simp [cell.ne]
  unfold gomoku_board.replace
  rw [if_neg (by rw [hc0]; exact Bool.false_ne_true), hfind]

/-! ## diff on boards with cells -/

theorem diffCols_spec (A P : gomoku_board) (m n i : Nat) (hA : A.sized m n)
    (hP : P.sized m n) (hm : 0 < m) (hm31 : m < 2 ^ 31) (hn : 0 < n) (hn31 : n < 2 ^ 31)
    (hi : i < m) :
    ∀ (d k f : Nat) (rep : List cell), d + k = n → d < f →
      ∃ L, diffCols A P i f k rep = .ok (rep ++ L) ∧ L.Pairwise cell.lt ∧
        ∀ c, c ∈ L ↔ (c.x = i ∧ k ≤ c.y ∧ c.y < n ∧ differs A P i c.y) := by
  have hlc := lastcell_of_sized A m n hA hm hm31 hn hn31
  intro d
  induction d with
  | zero =>
    intro k f rep hk hf
    obtain ⟨f, rfl⟩ : ∃ g, f = g + 1 := ⟨f - 1, by omega⟩
    have hg : ¬ (k ≤ A.lastcell.y) := by rw [hlc]; simp; omega
    refine ⟨[], by rw [diffCols, if_neg hg, List.append_nil], List.Pairwise.nil, ?_⟩
    intro c
    constructor
    · intro h; exact absurd h (List.not_mem_nil c)
    · intro h; omega
  | succ d ih =>
    intro k f rep hk hf
    obtain ⟨f, rfl⟩ : ∃ g, f = g + 1 := ⟨f - 1, by omega⟩
    have hg : k ≤ A.lastcell.y := by rw [hlc]; simp; omega
    have hra := read_of_sized A m n i k hA hi (by omega)
    have hrp := read_of_sized P m n i k hP hi (by omega)
    have hk1 : add64 k 1 = k + 1 := add64_small k 1 (by omega)
    rw [diffCols, if_pos hg, hra]
    simp only [hrp, hk1]
    by_cases hc : A.cellAt i k ≠ P.cellAt i k ∧ A.cellAt i k ≠ WEVER ∧ P.cellAt i k ≠ WEVER
    · rw [if_pos hc]
      obtain ⟨L, he, hp, hmem⟩ := ih (k + 1) f (rep ++ [⟨i, k⟩]) (by omega) (by omega)
      refine ⟨⟨i, k⟩ :: L, ?_, ?_, ?_⟩
      · rw [he, List.append_assoc, List.singleton_append]
      · refine List.Pairwise.cons ?_ hp
        intro b hb
        have := (hmem b).mp hb
        right
        exact ⟨this.1.symm, by simp only []; omega⟩
      · intro c
        rw [List.mem_cons, hmem]
        constructor
        · rintro (h | h)
          · subst h; exact ⟨rfl, le_refl k, by simp only []; omega, hc⟩
          · exact ⟨h.1, by omega, h.2.2.1, h.2.2.2⟩
        · intro h
          by_cases e : c.y = k
          · left
            cases c with
            | mk cx cy =>
              simp only [] at e h
              rw [h.1, e]
          · right; exact ⟨h.1, by omega, h.2.2.1, h.2.2.2⟩
    · rw [if_neg hc]
      obtain ⟨L, he, hp, hmem⟩ := ih (k + 1) f rep (by omega) (by omega)
      refine ⟨L, he, hp, ?_⟩
      intro c
      rw [hmem]
      constructor
      · intro h; exact ⟨h.1, by omega, h.2.2.1, h.2.2.2⟩
      · intro h
        refine ⟨h.1, ?_, h.2.2.1, h.2.2.2⟩
        by_contra hlt
        have e : c.y = k := by omega
        rw [e] at h
        exact hc h.2.2.2

theorem diffRows_spec (A P : gomoku_board) (m n : Nat) (hA : A.sized m n)
    (hP : P.sized m n) (hm : 0 < m) (hm31 : m < 2 ^ 31) (hn : 0 < n) (hn31 : n < 2 ^ 31) :
    ∀ (d k f : Nat) (rep : List cell), d + k = m → d < f →
      ∃ L, diffRows A P f k rep = .ok (rep ++ L) ∧ L.Pairwise cell.lt ∧
        ∀ c, c ∈ L ↔ (k ≤ c.x ∧ c.x < m ∧ c.y < n ∧ differs A P c.x c.y) := by
  have hlc := lastcell_of_sized A m n hA hm hm31 hn hn31
  intro d
  induction d with
  | zero =>
    intro k f rep hk hf
    obtain ⟨f, rfl⟩ : ∃ g, f = g + 1 := ⟨f - 1, by omega⟩
    have hg : ¬ (k ≤ A.lastcell.x) := by rw [hlc]; simp; omega
    refine ⟨[], by rw [diffRows, if_neg hg, List.append_nil], List.Pairwise.nil, ?_⟩
    intro c
    constructor
    · intro h; exact absurd h (List.not_mem_nil c)
    · intro h; omega
  | succ d ih =>
    intro k f rep hk hf
    obtain ⟨f, rfl⟩ : ∃ g, f = g + 1 := ⟨f - 1, by omega⟩
    have hg : k ≤ A.lastcell.x := by rw [hlc]; simp; omega
    have hk1 : add64 k 1 = k + 1 := add64_small k 1 (by omega)
    obtain ⟨L1, he1, hp1, hmem1⟩ :=
      diffCols_spec A P m n k hA hP hm hm31 hn hn31 (by omega) n 0 (2 ^ 64 + 1) rep
        (by omega) (by omega)
    obtain ⟨L2, he2, hp2, hmem2⟩ := ih (k + 1) f (rep ++ L1) (by omega) (by omega)
    refine ⟨L1 ++ L2, ?_, ?_, ?_⟩
    · rw [diffRows, if_pos hg, he1]
      simp only [hk1]
      rw [he2, List.append_assoc]
    · rw [List.pairwise_append]
      refine ⟨hp1, hp2, ?_⟩
      intro a ha b hb
      have h1 := (hmem1 a).mp ha
      have h2 := (hmem2 b).mp hb
      left; omega
    · intro c
      rw [List.mem_append, hmem1, hmem2]
      constructor
      · rintro (h | h)
        · refine ⟨by omega, by omega, h.2.2.1, ?_⟩
          rw [h.1]; exact h.2.2.2
        · exact ⟨by omega, h.2.1, h.2.2.1, h.2.2.2⟩
      · intro h
        by_cases e : c.x = k
        · left
          refine ⟨e, Nat.zero_le _, h.2.2.1, ?_⟩
          rw [← e]; exact h.2.2.2
        · right; exact ⟨by omega, h.2.1, h.2.2.1, h.2.2.2⟩

theorem diff_same_size (A P : gomoku_board) (m n : Nat) (hA : A.sized m n)
    (hP : P.sized m n) (hm : 0 < m) (hm31 : m < 2 ^ 31) (hn : 0 < n) (hn31 : n < 2 ^ 31) :
    ∃ L, A.diff P = .ok L ∧ L.Pairwise cell.lt ∧
      ∀ c, c ∈ L ↔ (c.x < m ∧ c.y < n ∧ differs A P c.x c.y) := by
  have h1 := lastcell_of_sized A m n hA hm hm31 hn hn31
  have h2 := lastcell_of_sized P m n hP hm hm31 hn hn31
  obtain ⟨L, he, hp, hmem⟩ :=
    diffRows_spec A P m n hA hP hm hm31 hn hn31 m 0 (2 ^ 64 + 1) [] (by omega) (by omega)
  refine ⟨L, ?_, hp, ?_⟩
  · have hc : cell.ne A.lastcell P.lastcell = false := by rw [h1, h2]; simp [cell.ne]
    unfold gomoku_board.diff
    rw [if_neg (by rw [hc]; exact Bool.false_ne_true), he, List.nil_append]
  · intro c
    rw [hmem]
    constructor
    · intro h; exact ⟨h.2.1, h.2.2.1, h.2.2.2⟩
    · intro h; exact ⟨Nat.zero_le _, h.1, h.2.1, h.2.2⟩

theorem diff_diff_size (A P : gomoku_board) (m n m1 n1 : Nat) (hA : A.sized m n)
    (hP : P.sized m1 n1) (hm : 0 < m) (hm31 : m < 2 ^ 31) (hn : 0 < n) (hn31 : n < 2 ^ 31)
    (hm1 : 0 < m1) (hm131 : m1 < 2 ^ 31) (hn1 : 0 < n1) (hn131 : n1 < 2 ^ 31)
    (hne : ¬ (m = m1 ∧ n = n1)) : A.diff P = .ok [] := by
  have h1 := lastcell_of_sized A m n hA hm hm31 hn hn31
  have h2 := lastcell_of_sized P m1 n1 hP hm1 hm131 hn1 hn131
  unfold gomoku_board.diff
  rw [h1, h2]
  have : cell.ne ⟨m - 1, n - 1⟩ ⟨m1 - 1, n1 - 1⟩ = true := by
    simp only [cell.ne, Bool.not_eq_true', Bool.and_eq_false_imp, beq_iff_eq]
    intro h3
    simp only [beq_eq_false_iff_ne]
    omega
  rw [if_pos this]

/-! ## The constructor from rows -/

theorem ctorMax_spec (b : List (List Nat)) (hb : b.length < 2 ^ 64) :
    ∀ (d i f ms : Nat), d + i = b.length → d < f →
      ∃ M, ctorMax b f i ms = .ok M ∧ ms ≤ M ∧
        (∀ k r, i ≤ k → b[k]? = some r → r.length ≤ M) ∧
        (M = ms ∨ ∃ k r, i ≤ k ∧ b[k]? = some r ∧ r.length = M) := by
  intro d
  induction d with
  | zero =>
    intro i f ms hi hf
    obtain ⟨f, rfl⟩ : ∃ g, f = g + 1 := ⟨f - 1, by omega⟩
    have hg : ¬ (i < b.length) := by omega
    refine ⟨ms, by rw [ctorMax, if_neg hg], le_refl ms, ?_, Or.inl rfl⟩
    intro k r hk hr
    have : k < b.length := (List.getElem?_eq_some_iff.mp hr).1
    omega
  | succ d ih =>
    intro i f ms hi hf
    obtain ⟨f, rfl⟩ : ∃ g, f = g + 1 := ⟨f - 1, by omega⟩
    have hg : i < b.length := by omega
    have hri : b[i]? = some b[i] := List.getElem?_eq_getElem hg
    have hi1 : add64 i 1 = i + 1 := add64_small i 1 (by omega)
    obtain ⟨M, he, hle, hub, hat⟩ :=
      ih (i + 1) f (if b[i].length > ms then b[i].length else ms) (by omega) (by omega)
    refine ⟨M, ?_, ?_, ?_, ?_⟩
    · rw [ctorMax, if_pos hg, hri]
      simp only [hi1]
      exact he
    · split at hle <;> omega
    · intro k r hk hr
      by_cases e : k = i
      · subst e
        rw [hri] at hr
        injection hr with hr
        subst hr
        split at hle <;> omega
      · exact hub k r (by omega) hr
    · rcases hat with h | ⟨k, r, hk, hr, hl⟩
      · by_cases hgt : b[i].length > ms
        · rw [if_pos hgt] at h
          exact Or.inr ⟨i, b[i], le_refl i, hri, h.symm⟩
        · rw [if_neg hgt] at h
          exact Or.inl h
      · exact Or.inr ⟨k, r, by omega, hr, hl⟩

theorem ctorPadRow_spec (ms : Nat) :
    ∀ (d f : Nat) (r : List Nat), d + r.length = ms → d < f →
      ctorPadRow ms f r = .ok (padRow ms r) := by
  intro d
  induction d with
  | zero =>
    intro f r hr hf
    obtain ⟨f, rfl⟩ : ∃ g, f = g + 1 := ⟨f - 1, by omega⟩
    have hg : ¬ (r.length < ms) := by omega
    have e : ms - r.length = 0 := by omega
    rw [ctorPadRow, if_neg hg, padRow, e, List.replicate_zero, List.append_nil]
  | succ d ih =>
    intro f r hr hf
    obtain ⟨f, rfl⟩ : ∃ g, f = g + 1 := ⟨f - 1, by omega⟩
    have hg : r.length < ms := by omega
    rw [ctorPadRow, if_pos hg, ih f (r ++ [EMPTY]) (by simp; omega) (by omega)]
    have e1 : ms - r.length = (ms - (r ++ [EMPTY]).length) + 1 := by simp; omega
    rw [padRow, padRow, e1, List.replicate_succ, List.append_assoc, List.singleton_append]

theorem padRow_length (ms : Nat) (r : List Nat) (h : r.length ≤ ms) :
    (padRow ms r).length = ms := by
  simp [padRow]; omega

theorem ctorPad_spec (ms : Nat) :
    ∀ (d i f : Nat) (g : List (List Nat)), d + i = g.length → d < f → g.length < 2 ^ 64 →
      (∀ r ∈ g, r.length ≤ ms) →
      ∃ g1, ctorPad ms f i g = .ok g1 ∧ g1.length = g.length ∧
        ∀ k, g1[k]? = if i ≤ k then (g[k]?).map (padRow ms) else g[k]? := by
  intro d
  induction d with
  | zero =>
    intro i f g hi hf hlen hle
    obtain ⟨f, rfl⟩ : ∃ h, f = h + 1 := ⟨f - 1, by omega⟩
    have hg : ¬ (i < g.length) := by omega
    refine ⟨g, by rw [ctorPad, if_neg hg], rfl, ?_⟩
    intro k
    by_cases hk : i ≤ k
    · rw [if_pos hk, List.getElem?_eq_none (by omega)]; rfl
    · rw [if_neg hk]
  | succ d ih =>
    intro i f g hi hf hlen hle
    obtain ⟨f, rfl⟩ : ∃ h, f = h + 1 := ⟨f - 1, by omega⟩
    have hg : i < g.length := by omega
    have hri : g[i]? = some g[i] := List.getElem?_eq_getElem hg
    have hi1 : add64 i 1 = i + 1 := add64_small i 1 (by omega)
    have hrl : g[i].length ≤ ms := hle _ (List.getElem_mem _)
    have hpad := ctorPadRow_spec ms (ms - g[i].length) (ms + 1) g[i] (by omega) (by omega)
    have hle1 : ∀ r ∈ g.set i (padRow ms g[i]), r.length ≤ ms := by
      intro r hr
      rcases List.mem_or_eq_of_mem_set hr with h | h
      · exact hle r h
      · rw [h, padRow_length ms _ hrl]
    obtain ⟨g1, he, hl, hk⟩ :=
      ih (i + 1) f (g.set i (padRow ms g[i])) (by simp; omega) (by omega) (by simpa using hlen)
        hle1
    refine ⟨g1, ?_, by simpa using hl, ?_⟩
    · rw [ctorPad, if_pos hg, hri]
      simp only [hpad, hi1]
      exact he
    · intro k
      rw [hk k]
      by_cases h1 : i + 1 ≤ k
      · have h2 : i ≤ k := by omega
        have h3 : ¬ i = k := by omega
        rw [if_pos h1, if_pos h2, List.getElem?_set, if_neg h3]
      · by_cases h2 : i = k
        · subst h2
          rw [if_neg h1, if_pos (le_refl i), List.getElem?_set, if_pos rfl, if_pos hg, hri]
          rfl
        · have h3 : ¬ i ≤ k := by omega
          rw [if_neg h1, if_neg h3, List.getElem?_set, if_neg h2]

theorem padRow_getElem? (ms : Nat) (r : List Nat) (j : Nat) :
    (padRow ms r)[j]? =
      if j < r.length then r[j]? else if j < ms then some EMPTY else none := by
  unfold padRow
  by_cases h1 : j < r.length
  · rw [if_pos h1, List.getElem?_append_left h1]
  · rw [if_neg h1, List.getElem?_append_right (by omega), List.getElem?_replicate]
    by_cases h2 : j < ms
    · rw [if_pos h2, if_pos (by omega)]
    · rw [if_neg h2, if_neg (by omega)]

theorem ofRows_spec (rs : List (List Nat)) (hlen : rs.length < 2 ^ 64) :
    ∃ B M, gomoku_board.ofRows rs = .ok B ∧ B.last = none ∧ B.b.length = rs.length ∧
      (∀ r ∈ rs, r.length ≤ M) ∧ (M = 0 ∨ ∃ r ∈ rs, r.length = M) ∧
      ∀ k : Nat, B.b[k]? = (rs[k]?).map (padRow M) := by
  obtain ⟨M, hM, _, hub, hat⟩ :=
    ctorMax_spec rs hlen rs.length 0 (rs.length + 1) 0 (by omega) (by omega)
  have hub1 : ∀ r ∈ rs, r.length ≤ M := by
    intro r hr
    obtain ⟨k, hk, e⟩ := List.getElem_of_mem hr
    exact hub k r (Nat.zero_le k) (by rw [List.getElem?_eq_getElem hk, e])
  obtain ⟨g, hg, hl, hk⟩ :=
    ctorPad_spec M rs.length 0 (rs.length + 1) rs (by omega) (by omega) hlen hub1
  refine ⟨⟨g, none⟩, M, ?_, rfl, hl, hub1, ?_, ?_⟩
  · unfold gomoku_board.ofRows
    rw [hM]; simp only []
    rw [hg]
  · rcases hat with h | ⟨k, r, _, hr, hlr⟩
    · exact Or.inl h
    · exact Or.inr ⟨r, List.getElem?_mem hr, hlr⟩
  · intro k
    have := hk k
    rw [if_pos (Nat.zero_le k)] at this
    exact this

/-! ## move and clear -/

theorem move_spec (B : gomoku_board) (m n : Nat) (w : cell) (s : Nat) (hB : B.sized m n)
    (hx : w.x < m) (hy : w.y < n) :
    ∃ B1, B.move w s = .ok B1 ∧ B1.sized m n ∧ B1.last = some w ∧
      ∀ a b, B1.read a b = if a = w.x ∧ b = w.y then .ok s else B.read a b := by
  obtain ⟨B1, hw, hs, _, hr⟩ := write_spec B m n w.x w.y s hB hx hy
  refine ⟨⟨B1.b, some w⟩, ?_, hs, rfl, ?_⟩
  · unfold gomoku_board.move
    rw [hw]
  · intro a b
    exact hr a b

theorem clearCols_spec (m n i : Nat) (hi : i < m) (hn : n < 2 ^ 64) :
    ∀ (d k f : Nat) (B : gomoku_board), d + k = n → d < f → B.sized m n →
      ∃ B1, clearCols i f k B = .ok B1 ∧ B1.sized m n ∧ B1.last = B.last ∧
        ∀ a b, B1.read a b =
          if a = i ∧ k ≤ b ∧ b < n then .ok EMPTY else B.read a b := by
  intro d
  induction d with
  | zero =>
    intro k f B hk hf hB
    obtain ⟨f, rfl⟩ : ∃ g, f = g + 1 := ⟨f - 1, by omega⟩
    obtain ⟨r, hr, hl⟩ := sized_row B m n i hB hi
    have hg : ¬ (k < r.length) := by omega
    refine ⟨B, ?_, hB, rfl, ?_⟩
    · rw [clearCols, hr]
      simp only [if_neg hg]
    · intro a b
      have : ¬ (a = i ∧ k ≤ b ∧ b < n) := by omega
      rw [if_neg this]
  | succ d ih =>
    intro k f B hk hf hB
    obtain ⟨f, rfl⟩ : ∃ g, f = g + 1 := ⟨f - 1, by omega⟩
    obtain ⟨r, hr, hl⟩ := sized_row B m n i hB hi
    have hg : k < r.length := by omega
    obtain ⟨B1, hw, hs1, hl1, hr1⟩ := write_spec B m n i k EMPTY hB hi (by omega)
    obtain ⟨B2, he, hs2, hl2, hr2⟩ := ih (k + 1) f B1 (by omega) (by omega) hs1
    refine ⟨B2, ?_, hs2, by rw [hl2, hl1], ?_⟩
    · rw [clearCols, hr]
      simp only [if_pos hg, hw]
      rw [add64_small k 1 (by omega)]
      exact he
    · intro a b
      rw [hr2, hr1]
      by_cases h1 : a = i ∧ k + 1 ≤ b ∧ b < n
      · have : a = i ∧ k ≤ b ∧ b < n := by omega
        rw [if_pos h1, if_pos this]
      · by_cases h2 : a = i ∧ b = k
        · have : a = i ∧ k ≤ b ∧ b < n := by omega
          rw [if_neg h1, if_pos h2, if_pos this]
        · have : ¬ (a = i ∧ k ≤ b ∧ b < n) := by omega
          rw [if_neg h1, if_neg h2, if_neg this]

theorem clearRows_spec (m n : Nat) (hm : m < 2 ^ 64) (hn : n < 2 ^ 64) :
    ∀ (d k f : Nat) (B : gomoku_board), d + k = m → d < f → B.sized m n →
      ∃ B1, clearRows f k B = .ok B1 ∧ B1.sized m n ∧ B1.last = B.last ∧
        ∀ a b, B1.read a b =
          if k ≤ a ∧ a < m ∧ b < n then .ok EMPTY else B.read a b := by
  intro d
  induction d with
  | zero =>
    intro k f B hk hf hB
    obtain ⟨f, rfl⟩ : ∃ g, f = g + 1 := ⟨f - 1, by omega⟩
    have hg : ¬ (k < B.b.length) := by rw [hB.1]; omega
    refine ⟨B, by rw [clearRows, if_neg hg], hB, rfl, ?_⟩
    intro a b
    have : ¬ (k ≤ a ∧ a < m ∧ b < n) := by omega
    rw [if_neg this]
  | succ d ih =>
    intro k f B hk hf hB
    obtain ⟨f, rfl⟩ : ∃ g, f = g + 1 := ⟨f - 1, by omega⟩
    have hg : k < B.b.length := by rw [hB.1]; omega
    obtain ⟨B1, hc, hs1, hl1, hr1⟩ :=
      clearCols_spec m n k (by omega) hn n 0 (2 ^ 64 + 1) B (by omega) (by omega) hB
    obtain ⟨B2, he, hs2, hl2, hr2⟩ := ih (k + 1) f B1 (by omega) (by omega) hs1
    refine ⟨B2, ?_, hs2, by rw [hl2, hl1], ?_⟩
    · rw [clearRows, if_pos hg, hc]
      simp only []
      rw [add64_small k 1 (by omega)]
      exact he
    · intro a b
      rw [hr2, hr1]
      by_cases h1 : k + 1 ≤ a ∧ a < m ∧ b < n
      · have : k ≤ a ∧ a < m ∧ b < n := by omega
        rw [if_pos h1, if_pos this]
      · by_cases h2 : a = k ∧ 0 ≤ b ∧ b < n
        · have : k ≤ a ∧ a < m ∧ b < n := by omega
          rw [if_neg h1, if_pos h2, if_pos this]
        · have : ¬ (k ≤ a ∧ a < m ∧ b < n) := by omega
          rw [if_neg h1, if_neg h2, if_neg this]

theorem clear_spec (B : gomoku_board) (m n : Nat) (hB : B.sized m n) (hm : m < 2 ^ 64)
    (hn : n < 2 ^ 64) :
    ∃ B1, B.clear = .ok B1 ∧ B1.sized m n ∧ B1.last = B.last ∧
      ∀ a b, B1.cellAt a b = EMPTY := by
  obtain ⟨B1, he, hs, hl, hr⟩ :=
    clearRows_spec m n hm hn m 0 (2 ^ 64 + 1) B (by omega) (by omega) hB
  refine ⟨B1, he, hs, hl, ?_⟩
  intro a b
  by_cases h : a < m ∧ b < n
  · apply cellAt_of_read
    rw [hr, if_pos ⟨Nat.zero_le a, h.1, h.2⟩]
  · have hout : B1.read a b = .error .outOfRange := by
      by_cases ha : a < m
      · exact read_col_out B1 m n a b hs (by omega)
      · exact read_row_out B1 m n a b hs (by omega)
    simp [gomoku_board.cellAt, hout]

/-! ## Reflexivity and symmetry of operator== -/

theorem wild_symm (a q : Nat) (h : wild a q) : wild q a := by
  rcases h with h | h | h
  · exact Or.inr (Or.inl h)
  · exact Or.inl h
  · exact Or.inr (Or.inr h.symm)

theorem eq_refl_sized (A : gomoku_board) (m n : Nat) (hA : A.sized m n)
    (hm : 0 < m) (hm31 : m < 2 ^ 31) (hn : 0 < n) (hn31 : n < 2 ^ 31) :
    A.eq A = .ok true := by
  obtain ⟨r, he, hr⟩ := eq_same_size A A m n hA hA hm hm31 hn hn31
  have : r = true := hr.mpr (fun i _ j _ => Or.inr (Or.inr rfl))
  rw [he, this]

theorem eq_symm_sized (A B : gomoku_board) (m n m1 n1 : Nat) (hA : A.sized m n)
    (hB : B.sized m1 n1) (hm : 0 < m) (hm31 : m < 2 ^ 31) (hn : 0 < n) (hn31 : n < 2 ^ 31)
    (hm1 : 0 < m1) (hm131 : m1 < 2 ^ 31) (hn1 : 0 < n1) (hn131 : n1 < 2 ^ 31) :
    A.eq B = B.eq A := by
  by_cases hd : m = m1 ∧ n = n1
  · obtain ⟨e1, e2⟩ := hd
    subst e1; subst e2
    obtain ⟨r, he, hr⟩ := eq_same_size A B m n hA hB hm hm31 hn hn31
    obtain ⟨r1, he1, hr1⟩ := eq_same_size B A m n hB hA hm hm31 hn hn31
    have : r = r1 := by
      cases r with
      | true =>
        have h := hr.mp rfl
        exact (hr1.mpr (fun i hi j hj => wild_symm _ _ (h i hi j hj))).symm
      | false =>
        cases r1 with
        | false => rfl
        | true =>
          have h := hr1.mp rfl
          exact hr.mpr (fun i hi j hj => wild_symm _ _ (h i hi j hj))
    rw [he, he1, this]
  · rw [eq_diff_size A B m n m1 n1 hA hB hm hm31 hn hn31 hm1 hm131 hn1 hn131 hd,
      eq_diff_size B A m1 n1 m n hB hA hm1 hm131 hn1 hn131 hm hm31 hn hn31
        (fun h => hd ⟨h.1.symm, h.2.symm⟩)]

theorem cell_lt_ne (s t : cell) (h : cell.lt s t) : s ≠ t := by
  intro e
  subst e
  unfold cell.lt at h
  omega

/-! ## The concretization loops of exist at an anchor of column 0 -/

theorem existFillCols_ok (B : gomoku_board) (mB nB a b i u : Nat) (hB : B.sized mB nB)
    (ha : 0 < a) (hb : 0 < b) (hm31 : mB < 2 ^ 31) (hn31 : nB < 2 ^ 31)
    (hi : i + a ≤ mB) (hbn : b ≤ nB) (hu : u < a) :
    ∀ (d k f : Nat) (p : gomoku_board), d + k = b → d < f → p.sized a b →
      ∃ p1, existFillCols B i 0 u f k p = .ok p1 ∧ p1.sized a b ∧ p1.last = p.last ∧
        ∀ x y, p1.read x y =
          if x = u ∧ k ≤ y ∧ y < b ∧ p.cellAt x y = WEVER then .ok (B.cellAt (u + i) y)
          else p.read x y := by
  intro d
  induction d with
  | zero =>
    intro k f p hk hf hp
    obtain ⟨f, rfl⟩ : ∃ g, f = g + 1 := ⟨f - 1, by omega⟩
    have hlc := lastcell_of_sized p a b hp ha (by omega) hb (by omega)
    have hg : ¬ (k ≤ add64 0 p.lastcell.y) := by
      rw [hlc]; simp only []; rw [add64_small _ _ (by omega)]; omega
    refine ⟨p, by rw [existFillCols, if_neg hg], hp, rfl, ?_⟩
    intro x y
    have : ¬ (x = u ∧ k ≤ y ∧ y < b ∧ p.cellAt x y = WEVER) := by omega
    rw [if_neg this]
  | succ d ih =>
    intro k f p hk hf hp
    obtain ⟨f, rfl⟩ : ∃ g, f = g + 1 := ⟨f - 1, by omega⟩
    have hlc := lastcell_of_sized p a b hp ha (by omega) hb (by omega)
    have hg : k ≤ add64 0 p.lastcell.y := by
      rw [hlc]; simp only []; rw [add64_small _ _ (by omega)]; omega
    have hrp := read_of_sized p a b u k hp hu (by omega)
    have hk1 : add64 k 1 = k + 1 := add64_small k 1 (by omega)
    rw [existFillCols, if_pos hg, hrp]
    simp only [hk1]
    by_cases hw : p.cellAt u k = WEVER
    · rw [if_pos hw]
      have e1 : add64 u i = u + i := add64_small u i (by omega)
      have e2 : add64 k 0 = k := add64_small k 0 (by omega)
      rw [e1, e2, read_of_sized B mB nB (u + i) k hB (by omega) (by omega)]
      obtain ⟨p1, hwr, hs1, hl1, hr1⟩ :=
        write_spec p a b u k (B.cellAt (u + i) k) hp hu (by omega)
      simp only [hwr]
      obtain ⟨p2, he, hs2, hl2, hr2⟩ := ih (k + 1) f p1 (by omega) (by omega) hs1
      refine ⟨p2, he, hs2, by rw [hl2, hl1], ?_⟩
      intro x y
      rw [hr2, hr1]
      by_cases h2 : x = u ∧ y = k
      · obtain ⟨hx, hy⟩ := h2
        subst hx; subst hy
        have h1 : ¬ (x = x ∧ y + 1 ≤ y ∧ y < b ∧ p1.cellAt x y = WEVER) := by omega
        have h3 : x = x ∧ y ≤ y ∧ y < b ∧ p.cellAt x y = WEVER := ⟨rfl, le_refl y, by omega, hw⟩
        rw [if_neg h1, if_pos ⟨rfl, rfl⟩, if_pos h3]
      · have hc : p1.cellAt x y = p.cellAt x y := by
          apply cellAt_congr
          rw [hr1, if_neg h2]
        rw [hc, if_neg h2]
        by_cases h1 : x = u ∧ k + 1 ≤ y ∧ y < b ∧ p.cellAt x y = WEVER
        · have : x = u ∧ k ≤ y ∧ y < b ∧ p.cellAt x y = WEVER :=
            ⟨h1.1, by omega, h1.2.2.1, h1.2.2.2⟩
          rw [if_pos h1, if_pos this]
        · have : ¬ (x = u ∧ k ≤ y ∧ y < b ∧ p.cellAt x y = WEVER) := by
            intro h
            by_cases e : y = k
            · exact h2 ⟨h.1, e⟩
            · exact h1 ⟨h.1, by omega, h.2.2.1, h.2.2.2⟩
          rw [if_neg h1, if_neg this]
    · rw [if_neg hw]
      obtain ⟨p2, he, hs2, hl2, hr2⟩ := ih (k + 1) f p (by omega) (by omega) hp
      refine ⟨p2, he, hs2, hl2, ?_⟩
      intro x y
      rw [hr2]
      by_cases h1 : x = u ∧ k + 1 ≤ y ∧ y < b ∧ p.cellAt x y = WEVER
      · have : x = u ∧ k ≤ y ∧ y < b ∧ p.cellAt x y = WEVER :=
          ⟨h1.1, by omega, h1.2.2.1, h1.2.2.2⟩
        rw [if_pos h1, if_pos this]
      · have : ¬ (x = u ∧ k ≤ y ∧ y < b ∧ p.cellAt x y = WEVER) := by
          intro h
          by_cases e : y = k
          · apply hw; rw [← h.1, ← e]; exact h.2.2.2
          · exact h1 ⟨h.1, by omega, h.2.2.1, h.2.2.2⟩
        rw [if_neg h1, if_neg this]

theorem existFillRows_ok (B : gomoku_board) (mB nB a b i : Nat) (hB : B.sized mB nB)
    (ha : 0 < a) (hb : 0 < b) (hm31 : mB < 2 ^ 31) (hn31 : nB < 2 ^ 31)
    (hi : i + a ≤ mB) (hbn : b ≤ nB) :
    ∀ (d k f : Nat) (p : gomoku_board), d + k = a → d < f → p.sized a b →
      ∃ p1, existFillRows B i 0 f k p = .ok p1 ∧ p1.sized a b ∧ p1.last = p.last ∧
        ∀ x y, p1.read x y =
          if k ≤ x ∧ x < a ∧ y < b ∧ p.cellAt x y = WEVER then .ok (B.cellAt (x + i) y)
          else p.read x y := by
  intro d
  induction d with
  | zero =>
    intro k f p hk hf hp
    obtain ⟨f, rfl⟩ : ∃ g, f = g + 1 := ⟨f - 1, by omega⟩
    have hlc := lastcell_of_sized p a b hp ha (by omega) hb (by omega)
    have hg : ¬ (k ≤ p.lastcell.x) := by rw [hlc]; simp only []; omega
    refine ⟨p, by rw [existFillRows, if_neg hg], hp, rfl, ?_⟩
    intro x y
    have : ¬ (k ≤ x ∧ x < a ∧ y < b ∧ p.cellAt x y = WEVER) := by omega
    rw [if_neg this]
  | succ d ih =>
    intro k f p hk hf hp
    obtain ⟨f, rfl⟩ : ∃ g, f = g + 1 := ⟨f - 1, by omega⟩
    have hlc := lastcell_of_sized p a b hp ha (by omega) hb (by omega)
    have hg : k ≤ p.lastcell.x := by rw [hlc]; simp only []; omega
    have hk1 : add64 k 1 = k + 1 := add64_small k 1 (by omega)
    obtain ⟨p1, hc, hs1, hl1, hr1⟩ :=
      existFillCols_ok B mB nB a b i k hB ha hb hm31 hn31 hi hbn (by omega) b 0 (2 ^ 64 + 1) p
        (by omega) (by omega) hp
    obtain ⟨p2, he, hs2, hl2, hr2⟩ := ih (k + 1) f p1 (by omega) (by omega) hs1
    refine ⟨p2, ?_, hs2, by rw [hl2, hl1], ?_⟩
    · rw [existFillRows, if_pos hg, hc]
      simp only [hk1]
      exact he
    · intro x y
      rw [hr2, hr1]
      by_cases hrow : x = k
      · subst hrow
        have h1 : ¬ (x + 1 ≤ x ∧ x < a ∧ y < b ∧ p1.cellAt x y = WEVER) := by omega
        rw [if_neg h1]
        by_cases h2 : x = x ∧ 0 ≤ y ∧ y < b ∧ p.cellAt x y = WEVER
        · have : x ≤ x ∧ x < a ∧ y < b ∧ p.cellAt x y = WEVER :=
            ⟨le_refl x, by omega, h2.2.2.1, h2.2.2.2⟩
          rw [if_pos h2, if_pos this]
        · have : ¬ (x ≤ x ∧ x < a ∧ y < b ∧ p.cellAt x y = WEVER) := by
            intro h; exact h2 ⟨rfl, Nat.zero_le y, h.2.2.1, h.2.2.2⟩
          rw [if_neg h2, if_neg this]
      · have h2 : ¬ (x = k ∧ 0 ≤ y ∧ y < b ∧ p.cellAt x y = WEVER) := fun h => hrow h.1
        have hc1 : p1.cellAt x y = p.cellAt x y := by
          apply cellAt_congr
          rw [hr1, if_neg h2]
        rw [hc1, if_neg h2]
        by_cases h1 : k + 1 ≤ x ∧ x < a ∧ y < b ∧ p.cellAt x y = WEVER
        · have : k ≤ x ∧ x < a ∧ y < b ∧ p.cellAt x y = WEVER :=
            ⟨by omega, h1.2.1, h1.2.2.1, h1.2.2.2⟩
          rw [if_pos h1, if_pos this]
        · have : ¬ (k ≤ x ∧ x < a ∧ y < b ∧ p.cellAt x y = WEVER) := by
            intro h; exact h1 ⟨by omega, h.2.1, h.2.2.1, h.2.2.2⟩
          rw [if_neg h1, if_neg this]

theorem existFill_ok (B q : gomoku_board) (mB nB a b i : Nat) (hB : B.sized mB nB)
    (hq : q.sized a b) (ha : 0 < a) (hb : 0 < b) (hm31 : mB < 2 ^ 31) (hn31 : nB < 2 ^ 31)
    (hi : i + a ≤ mB) (hbn : b ≤ nB) :
    ∃ R, existFillRows B i 0 (2 ^ 64 + 1) 0 q = .ok R ∧ R.sized a b ∧ R.last = q.last ∧
      ∀ u v, u < a → v < b →
        R.cellAt u v = if q.cellAt u v = WEVER then B.cellAt (i + u) v else q.cellAt u v := by
  obtain ⟨R, he, hs, hl, hr⟩ :=
    existFillRows_ok B mB nB a b i hB ha hb hm31 hn31 hi hbn a 0 (2 ^ 64 + 1) q
      (by omega) (by omega) hq
  refine ⟨R, he, hs, hl, ?_⟩
  intro u v hu hv
  by_cases hw : q.cellAt u v = WEVER
  · rw [if_pos hw]
    apply cellAt_of_read
    rw [hr, if_pos ⟨Nat.zero_le u, hu, hv, hw⟩, Nat.add_comm]
  · rw [if_neg hw]
    apply cellAt_congr
    rw [hr]
    have : ¬ (0 ≤ u ∧ u < a ∧ v < b ∧ q.cellAt u v = WEVER) := fun h => hw h.2.2.2
    rw [if_neg this]

/-! ## The rotation loop of exist on a square pattern -/

theorem rotN_succ (k : Nat) (p p1 : gomoku_board) (h : p.rotate = .ok p1) :
    rotN (k + 1) p = rotN k p1 := by
  rw [rotN, h]

theorem rotN_square (n : Nat) (hn : 0 < n) (hn31 : n < 2 ^ 31) :
    ∀ (t : Nat) (p : gomoku_board), p.sized n n → ∃ q, rotN t p = .ok q ∧ q.sized n n := by
  intro t
  induction t with
  | zero => intro p hp; exact ⟨p, rfl, hp⟩
  | succ t ih =>
    intro p hp
    obtain ⟨p1, h1, hs1, _, _⟩ := rotate_ok p n n hp hn hn31 hn hn31
    obtain ⟨q, hq, hsq⟩ := ih p1 hs1
    exact ⟨q, by rw [rotN_succ t p p1 h1]; exact hq, hsq⟩

theorem existRot_square (B : gomoku_board) (mB nB n i : Nat) (hB : B.sized mB nB)
    (hn : 0 < n) (hm31 : mB < 2 ^ 31) (hn31 : nB < 2 ^ 31) (hi : i + n ≤ mB)
    (hnn : n ≤ nB) :
    ∀ (d k f : Nat) (p : gomoku_board), d + k = 4 → d < f → p.sized n n →
      (∃ t q R, t < d ∧ rotN t p = .ok q ∧ q.sized n n ∧ matchAt B q n n i 0 ∧
        (∀ t1, t1 < t → ∀ q1, rotN t1 p = .ok q1 → ¬ matchAt B q1 n n i 0) ∧
        existRot B i 0 f (k : Int) p = .ok (.inl R) ∧ R.sized n n ∧ R.last = q.last ∧
        ∀ u v, u < n → v < n →
          R.cellAt u v = if q.cellAt u v = WEVER then B.cellAt (i + u) v else q.cellAt u v)
      ∨ ((∀ t, t < d → ∀ q, rotN t p = .ok q → ¬ matchAt B q n n i 0) ∧
        ∃ p1, rotN d p = .ok p1 ∧ p1.sized n n ∧
          existRot B i 0 f (k : Int) p = .ok (.inr p1)) := by
  intro d
  induction d with
  | zero =>
    intro k f p hk hf hp
    obtain ⟨f, rfl⟩ : ∃ g, f = g + 1 := ⟨f - 1, by omega⟩
    right
    have hg : ¬ ((k : Int) < 4) := by omega
    refine ⟨fun t ht => absurd ht (Nat.not_lt_zero t), p, rfl, hp, ?_⟩
    rw [existRot, if_neg hg]
  | succ d ih =>
    intro k f p hk hf hp
    obtain ⟨f, rfl⟩ : ∃ g, f = g + 1 := ⟨f - 1, by omega⟩
    have hg : (k : Int) < 4 := by omega
    obtain ⟨s, e, hs, he, hiff⟩ :=
      window_eq B p mB nB n n i 0 hB hp hn hn hm31 hn31 hi (by omega)
    cases e with
    | true =>
      left
      obtain ⟨R, hf1, hsR, hlR, hcR⟩ :=
        existFill_ok B p mB nB n n i hB hp hn hn hm31 hn31 hi hnn
      refine ⟨0, p, R, Nat.succ_pos d, rfl, hp, hiff.mp rfl,
        fun t1 ht1 => absurd ht1 (Nat.not_lt_zero t1), ?_, hsR, hlR, hcR⟩
      rw [existRot, if_pos hg, hs]
      simp only [he, hf1]
    | false =>
      have hno : ¬ matchAt B p n n i 0 := fun h => Bool.noConfusion (hiff.mpr h)
      obtain ⟨p1, hrot, hs1, _, _⟩ := rotate_ok p n n hp hn (by omega) hn (by omega)
      have hstep : existRot B i 0 (f + 1) (k : Int) p
          = existRot B i 0 f (((k + 1 : Nat)) : Int) p1 := by
        rw [existRot, if_pos hg, hs]
        simp only [he, hrot]
        have e2 : (k : Int) + 1 = ((k + 1 : Nat) : Int) := by omega
        rw [e2]
      rcases ih (k + 1) f p1 (by omega) (by omega) hs1 with
        ⟨t, q, R, ht, hq, hsq, hm, hear, hex, hsR, hlR, hcR⟩ | ⟨hall, p2, hp2, hs2, hex⟩
      · left
        refine ⟨t + 1, q, R, by omega, by rw [rotN_succ t p p1 hrot]; exact hq, hsq, hm, ?_,
          by rw [hstep]; exact hex, hsR, hlR, hcR⟩
        intro t1 ht1 q1 hq1
        cases t1 with
        | zero =>
          have : q1 = p := by
            have h0 : rotN 0 p = .ok p := rfl
            rw [h0] at hq1
            injection hq1 with hq1
            exact hq1.symm
          rw [this]; exact hno
        | succ t2 =>
          rw [rotN_succ t2 p p1 hrot] at hq1
          exact hear t2 (by omega) q1 hq1
      · right
        refine ⟨?_, p2, by rw [rotN_succ d p p1 hrot]; exact hp2, hs2, by rw [hstep]; exact hex⟩
        intro t1 ht1 q1 hq1
        cases t1 with
        | zero =>
          have : q1 = p := by
            have h0 : rotN 0 p = .ok p := rfl
            rw [h0] at hq1
            injection hq1 with hq1
            exact hq1.symm
          rw [this]; exact hno
        | succ t2 =>
          rw [rotN_succ t2 p p1 hrot] at hq1
          exact hall t2 (by omega) q1 hq1

theorem existCols_done (B p : gomoku_board) (i j f : Nat) (hf : 0 < f)
    (hg : ¬ (j ≤ sub64 B.lastcell.y p.lastcell.y)) :
    existCols B i f j p = .ok (.inr p) := by
  obtain ⟨f, rfl⟩ : ∃ g, f = g + 1 := ⟨f - 1, by omega⟩
  rw [existCols, if_neg hg]

theorem existRows_done (B p : gomoku_board) (i f : Nat) (hf : 0 < f)
    (hg : ¬ (i ≤ sub64 B.lastcell.x p.lastcell.x)) :
    existRows B f i p = .ok (.inr p) := by
  obtain ⟨f, rfl⟩ : ∃ g, f = g + 1 := ⟨f - 1, by omega⟩
  rw [existRows, if_neg hg]

theorem exist_square_spec (B p : gomoku_board) (n : Nat) (hB : B.sized n n)
    (hp : p.sized n n) (hn : 0 < n) (hn31 : n < 2 ^ 31) :
    (∃ t q R, t < 4 ∧ rotN t p = .ok q ∧ q.sized n n ∧ matchAt B q n n 0 0 ∧
      (∀ t1, t1 < t → ∀ q1, rotN t1 p = .ok q1 → ¬ matchAt B q1 n n 0 0) ∧
      B.exist p = .ok R ∧ R.sized n n ∧
      ∀ u v, u < n → v < n →
        R.cellAt u v = if q.cellAt u v = WEVER then B.cellAt u v else q.cellAt u v)
    ∨ ((∀ t, t < 4 → ∀ q, rotN t p = .ok q → ¬ matchAt B q n n 0 0) ∧
      B.exist p = .ok ⟨[], none⟩) := by
  have hlB := lastcell_of_sized B n n hB hn hn31 hn hn31
  have hlp := lastcell_of_sized p n n hp hn hn31 hn hn31
  have hgx : 0 ≤ sub64 B.lastcell.x p.lastcell.x := Nat.zero_le _
  have hgy : 0 ≤ sub64 B.lastcell.y p.lastcell.y := Nat.zero_le _
  have e0 : ((0 : Nat) : Int) = 0 := rfl
  rcases existRot_square B n n n 0 hB hn hn31 hn31 (by omega) (le_refl n) 4 0 5 p (by omega)
      (by omega) hp with
    ⟨t, q, R, ht, hq, hsq, hm, hear, hex, hsR, _, hcR⟩ | ⟨hall, p1, _, hs1, hex⟩
  · left
    rw [e0] at hex
    refine ⟨t, q, R, ht, hq, hsq, hm, hear, ?_, hsR, ?_⟩
    · unfold gomoku_board.exist
      rw [existRows, if_pos hgx, existCols, if_pos hgy, hex]
    · intro u v hu hv
      have := hcR u v hu hv
      rw [Nat.zero_add] at this
      exact this
  · right
    rw [e0] at hex
    refine ⟨hall, ?_⟩
    have hl1 := lastcell_of_sized p1 n n hs1 hn hn31 hn hn31
    have h1 : add64 0 1 = 1 := rfl
    have hdy : ¬ (add64 0 1 ≤ sub64 B.lastcell.y p1.lastcell.y) := by
      rw [hlB, hl1, h1]; simp only []
      rw [sub64_small _ _ (le_refl _) (by omega)]; omega
    have hdx : ¬ (add64 0 1 ≤ sub64 B.lastcell.x p1.lastcell.x) := by
      rw [hlB, hl1, h1]; simp only []
      rw [sub64_small _ _ (le_refl _) (by omega)]; omega
    unfold gomoku_board.exist
    rw [existRows, if_pos hgx, existCols, if_pos hgy, hex]
    simp only []
    rw [existCols_done B p1 0 (add64 0 1) (2 ^ 64) (by norm_num) hdy]
    simp only []
    rw [existRows_done B p1 (add64 0 1) (2 ^ 64) (by norm_num) hdx]
    rfl

/-! ## What a returned result tells about the accesses made -/

theorem read_ok_inv (B : gomoku_board) (m n i j x : Nat) (hB : B.sized m n)
    (h : B.read i j = .ok x) : i < m ∧ j < n := by
  constructor
  · by_contra hi
    rw [read_row_out B m n i j hB (by omega)] at h
    exact Except.noConfusion h
  · by_contra hj
    rw [read_col_out B m n i j hB (by omega)] at h
    exact Except.noConfusion h

theorem cellAt_out (B : gomoku_board) (m n i j : Nat) (hB : B.sized m n)
    (h : ¬ (i < m ∧ j < n)) : B.cellAt i j = EMPTY := by
  have hout : B.read i j = .error .outOfRange := by
    by_cases hi : i < m
    · exact read_col_out B m n i j hB (by omega)
    · exact read_row_out B m n i j hB (by omega)
  simp [gomoku_board.cellAt, hout]

theorem write_ok_inv (B B1 : gomoku_board) (m n i j c : Nat) (hB : B.sized m n)
    (h : B.write i j c = .ok B1) : i < m ∧ j < n := by
  unfold gomoku_board.write at h
  cases hr : B.b[i]? with
  | none => rw [hr] at h; exact Except.noConfusion h
  | some r =>
    rw [hr] at h
    simp only [] at h
    have hi : i < B.b.length := (List.getElem?_eq_some_iff.mp hr).1
    have hl : r.length = n := hB.2 r (List.getElem?_mem hr)
    by_cases hj : j < r.length
    · exact ⟨by rw [← hB.1]; exact hi, by omega⟩
    · rw [if_neg hj] at h; exact Except.noConfusion h

theorem write_ok_sized (B B1 : gomoku_board) (m n i j c : Nat) (hB : B.sized m n)
    (h : B.write i j c = .ok B1) : B1.sized m n ∧ B1.last = B.last := by
  obtain ⟨hi, hj⟩ := write_ok_inv B B1 m n i j c hB h
  obtain ⟨B2, hw, hs, hl, _⟩ := write_spec B m n i j c hB hi hj
  rw [hw] at h
  injection h with h
  subst h
  exact ⟨hs, hl⟩

theorem create_ok_sized (h v : Nat) (p : gomoku_board) (hc : gomoku_board.create h v = .ok p) :
    p.sized h v ∧ p.last = none := by
  unfold gomoku_board.create at hc
  split at hc
  · exact Except.noConfusion hc
  · split at hc
    · exact Except.noConfusion hc
    · injection hc with hc
      subst hc
      refine ⟨⟨by simp, ?_⟩, rfl⟩
      intro r hr
      rw [List.eq_of_mem_replicate hr]; simp

theorem subboardCols_sized (B : gomoku_board) (sp : cell) (vl i u : Int) (m n : Nat) :
    ∀ (f : Nat) (j v : Int) (p p1 : gomoku_board), p.sized m n →
      subboardCols B sp vl i u f j v p = .ok p1 → p1.sized m n ∧ p1.last = p.last := by
  intro f
  induction f with
  | zero => intro j v p p1 _ h; rw [subboardCols] at h; exact Except.noConfusion h
  | succ f ih =>
    intro j v p p1 hp h
    rw [subboardCols] at h
    split at h
    · cases hr : B.read (toSize i) (toSize j) with
      | error e => rw [hr] at h; exact Except.noConfusion h
      | ok c =>
        rw [hr] at h
        simp only [] at h
        cases hw : p.write (toSize u) (toSize v) c with
        | error e => rw [hw] at h; exact Except.noConfusion h
        | ok p2 =>
          rw [hw] at h
          simp only [] at h
          obtain ⟨hs2, hl2⟩ := write_ok_sized p p2 m n _ _ c hp hw
          obtain ⟨hs, hl⟩ := ih _ _ p2 p1 hs2 h
          exact ⟨hs, by rw [hl, hl2]⟩
    · injection h with h
      subst h
      exact ⟨hp, rfl⟩

theorem subboardRows_sized (B : gomoku_board) (sp : cell) (hl vl : Int) (m n : Nat) :
    ∀ (f : Nat) (i u : Int) (p p1 : gomoku_board), p.sized m n →
      subboardRows B sp hl vl f i u p = .ok p1 → p1.sized m n ∧ p1.last = p.last := by
  intro f
  induction f with
  | zero => intro i u p p1 _ h; rw [subboardRows] at h; exact Except.noConfusion h
  | succ f ih =>
    intro i u p p1 hp h
    rw [subboardRows] at h
    split at h
    · cases hc : subboardCols B sp vl i u (vl.natAbs + 1) (toInt sp.y)
          (if vl ≥ 0 then 0 else (vl.natAbs : Int) - 1) p with
      | error e => rw [hc] at h; exact Except.noConfusion h
      | ok p2 =>
        rw [hc] at h
        simp only [] at h
        obtain ⟨hs2, hl2⟩ := subboardCols_sized B sp vl i u m n _ _ _ p p2 hp hc
        obtain ⟨hs, hl1⟩ := ih _ _ p2 p1 hs2 h
        exact ⟨hs, by rw [hl1, hl2]⟩
    · injection h with h
      subst h
      exact ⟨hp, rfl⟩

theorem subboard_ok_sized (B R : gomoku_board) (sp : cell) (hl vl : Int)
    (h : B.subboard sp hl vl = .ok R) : R.sized hl.natAbs vl.natAbs ∧ R.last = none := by
  unfold gomoku_board.subboard at h
  cases hc : gomoku_board.create hl.natAbs vl.natAbs with
  | error e => rw [hc] at h; exact Except.noConfusion h
  | ok p =>
    rw [hc] at h
    simp only [] at h
    obtain ⟨hp, hlp⟩ := create_ok_sized _ _ p hc
    obtain ⟨hs, hl1⟩ := subboardRows_sized B sp hl vl _ _ _ _ _ p R hp h
    exact ⟨hs, by rw [hl1, hlp]⟩

theorem subboardCols_reads (B : gomoku_board) (sp : cell) (b ii : Nat) (uu : Int)
    (hy31 : sp.y < 2 ^ 31) (hb31 : b < 2 ^ 31) (hii : ii < 2 ^ 64) :
    ∀ (f k : Nat) (p p1 : gomoku_board),
      subboardCols B sp (b : Int) (ii : Int) uu f ((sp.y + k : Nat) : Int) (k : Int) p = .ok p1 →
      ∀ v, k ≤ v → v < b → ∃ x, B.read ii (sp.y + v) = .ok x := by
  intro f
  induction f with
  | zero => intro k p p1 h; rw [subboardCols] at h; exact Except.noConfusion h
  | succ f ih =>
    intro k p p1 h v hkv hvb
    rw [subboardCols] at h
    have hg : ((sp.y + k : Nat) : Int) < toInt sp.y + (b : Int) := by
      rw [toInt_small sp.y (by omega)]; omega
    rw [if_pos hg, toSize_small ii hii, toSize_small (sp.y + k) (by omega)] at h
    cases hr : B.read ii (sp.y + k) with
    | error e => rw [hr] at h; exact Except.noConfusion h
    | ok c =>
      rw [hr] at h
      simp only [] at h
      cases hw : p.write (toSize uu) (toSize (k : Int)) c with
      | error e => rw [hw] at h; exact Except.noConfusion h
      | ok p2 =>
        rw [hw] at h
        simp only [sgn_nonneg] at h
        have e1 : ((sp.y + k : Nat) : Int) + 1 = ((sp.y + (k + 1) : Nat) : Int) := by omega
        have e2 : (k : Int) + 1 = ((k + 1 : Nat) : Int) := by omega
        rw [e1, e2] at h
        by_cases e : v = k
        · subst e; exact ⟨c, hr⟩
        · exact ih (k + 1) p2 p1 h v (by omega) hvb

theorem subboardRows_reads (B : gomoku_board) (sp : cell) (a b : Nat)
    (hx31 : sp.x < 2 ^ 31) (ha31 : a < 2 ^ 31) (hy31 : sp.y < 2 ^ 31) (hb31 : b < 2 ^ 31) :
    ∀ (f k : Nat) (p p1 : gomoku_board),
      subboardRows B sp (a : Int) (b : Int) f ((sp.x + k : Nat) : Int) (k : Int) p = .ok p1 →
      ∀ u, k ≤ u → u < a → ∀ v, v < b → ∃ x, B.read (sp.x + u) (sp.y + v) = .ok x := by
  intro f
  induction f with
  | zero => intro k p p1 h; rw [subboardRows] at h; exact Except.noConfusion h
  | succ f ih =>
    intro k p p1 h u hku hua v hvb
    rw [subboardRows] at h
    have hg : ((sp.x + k : Nat) : Int) < toInt sp.x + (a : Int) := by
      rw [toInt_small sp.x (by omega)]; omega
    have e0 : ((b : Int)).natAbs = b := Int.natAbs_ofNat b
    have e1 : toInt sp.y = ((sp.y + 0 : Nat) : Int) := by
      rw [toInt_small sp.y (by omega)]; rfl
    have e2 : (if (b : Int) ≥ 0 then (0 : Int) else ((b : Nat) : Int) - 1) =
        ((0 : Nat) : Int) := by simp
    rw [if_pos hg, e0, e1, e2] at h
    cases hc : subboardCols B sp (b : Int) ((sp.x + k : Nat) : Int) (k : Int) (b + 1)
        ((sp.y + 0 : Nat) : Int) ((0 : Nat) : Int) p with
    | error e => rw [hc] at h; exact Except.noConfusion h
    | ok p2 =>
      rw [hc] at h
      simp only [sgn_nonneg] at h
      have e3 : ((sp.x + k : Nat) : Int) + 1 = ((sp.x + (k + 1) : Nat) : Int) := by omega
      have e4 : (k : Int) + 1 = ((k + 1 : Nat) : Int) := by omega
      rw [e3, e4] at h
      by_cases e : u = k
      · subst e
        exact subboardCols_reads B sp b (sp.x + u) (u : Int) hy31 hb31 (by omega) (b + 1) 0 p p2
          hc v
          (Nat.zero_le v) hvb
      · exact ih (k + 1) p2 p1 h u (by omega) hua v hvb

theorem subboard_ok_fits (B s : gomoku_board) (sp : cell) (mB nB a b : Nat)
    (hB : B.sized mB nB) (ha : 0 < a) (hb : 0 < b) (hx31 : sp.x < 2 ^ 31)
    (ha31 : a < 2 ^ 31) (hy31 : sp.y < 2 ^ 31) (hb31 : b < 2 ^ 31)
    (h : B.subboard sp (a : Int) (b : Int) = .ok s) :
    sp.x + a ≤ mB ∧ sp.y + b ≤ nB := by
  unfold gomoku_board.subboard at h
  cases hc : gomoku_board.create ((a : Int)).natAbs ((b : Int)).natAbs with
  | error e => rw [hc] at h; exact Except.noConfusion h
  | ok p =>
    rw [hc] at h
    simp only [] at h
    have e0 : ((a : Int)).natAbs = a := Int.natAbs_ofNat a
    have e1 : toInt sp.x = ((sp.x + 0 : Nat) : Int) := by
      rw [toInt_small sp.x (by omega)]; rfl
    have e2 : (if (a : Int) ≥ 0 then (0 : Int) else ((a : Nat) : Int) - 1) =
        ((0 : Nat) : Int) := by simp
    rw [e0, e1, e2] at h
    obtain ⟨x, hx⟩ := subboardRows_reads B sp a b hx31 ha31 hy31 hb31 (a + 1) 0 p s h (a - 1)
      (Nat.zero_le _) (by omega) (b - 1) (by omega)
    have := read_ok_inv B mB nB _ _ x hB hx
    omega

theorem empty_ne_wever : EMPTY ≠ WEVER := by decide

theorem existFillCols_sized (B : gomoku_board) (i j u a b : Nat) :
    ∀ (f v : Nat) (p R : gomoku_board), p.sized a b →
      existFillCols B i j u f v p = .ok R → R.sized a b ∧ R.last = p.last := by
  intro f
  induction f with
  | zero => intro v p R _ h; rw [existFillCols] at h; exact Except.noConfusion h
  | succ f ih =>
    intro v p R hp h
    rw [existFillCols] at h
    split at h
    · cases hr : p.read u v with
      | error e => rw [hr] at h; exact Except.noConfusion h
      | ok c =>
        rw [hr] at h
        simp only [] at h
        split at h
        · cases hb : B.read (add64 u i) (add64 v j) with
          | error e => rw [hb] at h; exact Except.noConfusion h
          | ok d =>
            rw [hb] at h
            simp only [] at h
            cases hw : p.write u v d with
            | error e => rw [hw] at h; exact Except.noConfusion h
            | ok p1 =>
              rw [hw] at h
              simp only [] at h
              obtain ⟨hs1, hl1⟩ := write_ok_sized p p1 a b u v d hp hw
              obtain ⟨hs, hl⟩ := ih _ p1 R hs1 h
              exact ⟨hs, by rw [hl, hl1]⟩
        · exact ih _ p R hp h
    · injection h with h
      subst h
      exact ⟨hp, rfl⟩

theorem existFillRows_sized (B : gomoku_board) (i j a b : Nat) :
    ∀ (f u : Nat) (p R : gomoku_board), p.sized a b →
      existFillRows B i j f u p = .ok R → R.sized a b ∧ R.last = p.last := by
  intro f
  induction f with
  | zero => intro u p R _ h; rw [existFillRows] at h; exact Except.noConfusion h
  | succ f ih =>
    intro u p R hp h
    rw [existFillRows] at h
    split at h
    · cases hc : existFillCols B i j u (2 ^ 64 + 1) 0 p with
      | error e => rw [hc] at h; exact Except.noConfusion h
      | ok p1 =>
        rw [hc] at h
        simp only [] at h
        obtain ⟨hs1, hl1⟩ := existFillCols_sized B i j u a b _ _ p p1 hp hc
        obtain ⟨hs, hl⟩ := ih _ p1 R hs1 h
        exact ⟨hs, by rw [hl, hl1]⟩
    · injection h with h
      subst h
      exact ⟨hp, rfl⟩

theorem existFillCols_id (B : gomoku_board) (i j u : Nat) :
    ∀ (f v : Nat) (p R : gomoku_board), (∀ x y, p.cellAt x y ≠ WEVER) →
      existFillCols B i j u f v p = .ok R → R = p := by
  intro f
  induction f with
  | zero => intro v p R _ h; rw [existFillCols] at h; exact Except.noConfusion h
  | succ f ih =>
    intro v p R hp h
    rw [existFillCols] at h
    split at h
    · cases hr : p.read u v with
      | error e => rw [hr] at h; exact Except.noConfusion h
      | ok c =>
        rw [hr] at h
        simp only [] at h
        have hc : ¬ c = WEVER := by
          rw [← cellAt_of_read p u v c hr]; exact hp u v
        rw [if_neg hc] at h
        exact ih _ p R hp h
    · injection h with h
      exact h.symm

theorem existFillRows_id (B : gomoku_board) (i j : Nat) :
    ∀ (f u : Nat) (p R : gomoku_board), (∀ x y, p.cellAt x y ≠ WEVER) →
      existFillRows B i j f u p = .ok R → R = p := by
  intro f
  induction f with
  | zero => intro u p R _ h; rw [existFillRows] at h; exact Except.noConfusion h
  | succ f ih =>
    intro u p R hp h
    rw [existFillRows] at h
    split at h
    · cases hc : existFillCols B i j u (2 ^ 64 + 1) 0 p with
      | error e => rw [hc] at h; exact Except.noConfusion h
      | ok p1 =>
        rw [hc] at h
        simp only [] at h
        have e := existFillCols_id B i j u _ _ p p1 hp hc
        subst e
        exact ih _ p1 R hp h
    · injection h with h
      exact h.symm

theorem rotN_shape :
    ∀ (t : Nat) (p q : gomoku_board) (a b : Nat), p.sized a b → 0 < a → a < 2 ^ 31 →
      0 < b → b < 2 ^ 31 → rotN t p = .ok q →
      (t % 2 = 0 → q.sized a b) ∧ (t % 2 = 1 → q.sized b a) ∧
      ((∀ x y, p.cellAt x y ≠ WEVER) → ∀ x y, q.cellAt x y ≠ WEVER) := by
  intro t
  induction t with
  | zero =>
    intro p q a b hp _ _ _ _ h
    have h0 : rotN 0 p = .ok p := rfl
    rw [h0] at h
    injection h with h
    subst h
    exact ⟨fun _ => hp, fun h1 => absurd h1 (by omega), fun hw => hw⟩
  | succ t ih =>
    intro p q a b hp ha ha31 hb hb31 h
    obtain ⟨R, hrot, hsR, _, hcR⟩ := rotate_ok p a b hp ha ha31 hb hb31
    rw [rotN_succ t p R hrot] at h
    obtain ⟨h0, h1, hw⟩ := ih R q b a hsR hb hb31 ha ha31 h
    refine ⟨fun e => h1 (by omega), fun e => h0 (by omega), ?_⟩
    intro hpw
    apply hw
    intro x y
    by_cases hin : x < b ∧ y < a
    · rw [hcR x y hin.1 hin.2]; exact hpw _ _
    · rw [cellAt_out R b a x y hsR hin]; exact empty_ne_wever

/-! ## Inversion of the search loops of exist -/

theorem existRot_inv (B : gomoku_board) (i j : Nat) :
    ∀ (f k : Nat) (p : gomoku_board) (X : gomoku_board ⊕ gomoku_board), k ≤ 4 →
      existRot B i j f (k : Int) p = .ok X →
      (∀ R, X = .inl R → ∃ t q s, k + t < 4 ∧ rotN t p = .ok q ∧
        B.subboard ⟨i, j⟩ (toInt (add64 q.lastcell.x 1)) (toInt (add64 q.lastcell.y 1))
          = .ok s ∧
        s.eq q = .ok true ∧ existFillRows B i j (2 ^ 64 + 1) 0 q = .ok R) ∧
      (∀ p1, X = .inr p1 → rotN (4 - k) p = .ok p1) := by
  intro f
  induction f with
  | zero => intro k p X _ h; rw [existRot] at h; exact Except.noConfusion h
  | succ f ih =>
    intro k p X hk h
    rw [existRot] at h
    by_cases hg : (k : Int) < 4
    · rw [if_pos hg] at h
      cases hs : B.subboard ⟨i, j⟩ (toInt (add64 p.lastcell.x 1))
          (toInt (add64 p.lastcell.y 1)) with
      | error e => rw [hs] at h; exact Except.noConfusion h
      | ok s =>
        rw [hs] at h
        simp only [] at h
        cases he : s.eq p with
        | error e => rw [he] at h; exact Except.noConfusion h
        | ok e =>
          rw [he] at h
          cases e with
          | true =>
            simp only [] at h
            cases hfl : existFillRows B i j (2 ^ 64 + 1) 0 p with
            | error e => rw [hfl] at h; exact Except.noConfusion h
            | ok R1 =>
              rw [hfl] at h
              simp only [] at h
              injection h with h
              subst h
              constructor
              · intro R hR
                injection hR with hR
                subst hR
                exact ⟨0, p, s, by omega, rfl, hs, he, hfl⟩
              · intro p1 hp1
                exact Sum.noConfusion hp1
          | false =>
            simp only [] at h
            cases hr : p.rotate with
            | error e => rw [hr] at h; exact Except.noConfusion h
            | ok p2 =>
              rw [hr] at h
              simp only [] at h
              have e2 : (k : Int) + 1 = ((k + 1 : Nat) : Int) := by omega
              rw [e2] at h
              obtain ⟨h1, h2⟩ := ih (k + 1) p2 X (by omega) h
              constructor
              · intro R hR
                obtain ⟨t, q, s1, ht, hq, hs1, he1, hf1⟩ := h1 R hR
                exact ⟨t + 1, q, s1, by omega, by rw [rotN_succ t p p2 hr]; exact hq, hs1,
                  he1, hf1⟩
              · intro p1 hp1
                have e3 : 4 - k = (4 - (k + 1)) + 1 := by omega
                rw [e3, rotN_succ _ p p2 hr]
                exact h2 p1 hp1
    · rw [if_neg hg] at h
      injection h with h
      subst h
      constructor
      · intro R hR; exact Sum.noConfusion hR
      · intro p1 hp1
        injection hp1 with hp1
        subst hp1
        have e : 4 - k = 0 := by omega
        rw [e]; rfl

theorem existCols_inv (B : gomoku_board) (i : Nat) (I : gomoku_board → Prop)
    (hI : ∀ p p1, I p → rotN 4 p = .ok p1 → I p1) :
    ∀ (f j : Nat) (p : gomoku_board) (X : gomoku_board ⊕ gomoku_board), I p →
      existCols B i f j p = .ok X →
      (∀ R, X = .inl R → ∃ j1 p0, I p0 ∧ j1 ≤ sub64 B.lastcell.y p0.lastcell.y ∧
        returnsAt B p0 R i j1) ∧
      (∀ p1, X = .inr p1 → I p1) := by
  intro f
  induction f with
  | zero => intro j p X _ h; rw [existCols] at h; exact Except.noConfusion h
  | succ f ih =>
    intro j p X hp h
    rw [existCols] at h
    by_cases hg : j ≤ sub64 B.lastcell.y p.lastcell.y
    · rw [if_pos hg] at h
      cases hr : existRot B i j 5 0 p with
      | error e => rw [hr] at h; exact Except.noConfusion h
      | ok Y =>
        rw [hr] at h
        have e0 : (0 : Int) = ((0 : Nat) : Int) := rfl
        rw [e0] at hr
        obtain ⟨h1, h2⟩ := existRot_inv B i j 5 0 p Y (by omega) hr
        cases Y with
        | inl R1 =>
          simp only [] at h
          injection h with h
          subst h
          constructor
          · intro R hR
            injection hR with hR
            subst hR
            obtain ⟨t, q, s, ht, hq, hs, he, hfl⟩ := h1 R1 rfl
            exact ⟨j, p, hp, hg, t, q, s, by omega, hq, hs, he, hfl⟩
          · intro p1 hp1; exact Sum.noConfusion hp1
        | inr p2 =>
          simp only [] at h
          exact ih _ p2 X (hI p p2 hp (h2 p2 rfl)) h
    · rw [if_neg hg] at h
      injection h with h
      subst h
      constructor
      · intro R hR; exact Sum.noConfusion hR
      · intro p1 hp1
        injection hp1 with hp1
        subst hp1
        exact hp

theorem existRows_inv (B : gomoku_board) (I : gomoku_board → Prop)
    (hI : ∀ p p1, I p → rotN 4 p = .ok p1 → I p1) :
    ∀ (f i : Nat) (p : gomoku_board) (X : gomoku_board ⊕ gomoku_board), I p →
      existRows B f i p = .ok X →
      (∀ R, X = .inl R → ∃ i1 j1 pr p0, I pr ∧ i1 ≤ sub64 B.lastcell.x pr.lastcell.x ∧
        I p0 ∧ j1 ≤ sub64 B.lastcell.y p0.lastcell.y ∧ returnsAt B p0 R i1 j1) ∧
      (∀ p1, X = .inr p1 → I p1) := by
  intro f
  induction f with
  | zero => intro i p X _ h; rw [existRows] at h; exact Except.noConfusion h
  | succ f ih =>
    intro i p X hp h
    rw [existRows] at h
    by_cases hg : i ≤ sub64 B.lastcell.x p.lastcell.x
    · rw [if_pos hg] at h
      cases hr : existCols B i (2 ^ 64 + 1) 0 p with
      | error e => rw [hr] at h; exact Except.noConfusion h
      | ok Y =>
        rw [hr] at h
        obtain ⟨h1, h2⟩ := existCols_inv B i I hI _ 0 p Y hp hr
        cases Y with
        | inl R1 =>
          simp only [] at h
          injection h with h
          subst h
          constructor
          · intro R hR
            injection hR with hR
            subst hR
            obtain ⟨j1, p0, hp0, hj1, hret⟩ := h1 R1 rfl
            exact ⟨i, j1, p, p0, hp, hg, hp0, hj1, hret⟩
          · intro p1 hp1; exact Sum.noConfusion hp1
        | inr p2 =>
          simp only [] at h
          exact ih _ p2 X (h2 p2 rfl) h
    · rw [if_neg hg] at h
      injection h with h
      subst h
      constructor
      · intro R hR; exact Sum.noConfusion hR
      · intro p1 hp1
        injection hp1 with hp1
        subst hp1
        exact hp

theorem exist_inv (B P R : gomoku_board) (I : gomoku_board → Prop)
    (hI : ∀ p p1, I p → rotN 4 p = .ok p1 → I p1) (hP : I P) (h : B.exist P = .ok R) :
    R = ⟨[], none⟩ ∨
      ∃ i1 j1 pr p0, I pr ∧ i1 ≤ sub64 B.lastcell.x pr.lastcell.x ∧
        I p0 ∧ j1 ≤ sub64 B.lastcell.y p0.lastcell.y ∧ returnsAt B p0 R i1 j1 := by
  unfold gomoku_board.exist at h
  cases hr : existRows B (2 ^ 64 + 1) 0 P with
  | error e => rw [hr] at h; exact Except.noConfusion h
  | ok Y =>
    rw [hr] at h
    obtain ⟨h1, _⟩ := existRows_inv B I hI _ 0 P Y hP hr
    cases Y with
    | inl R1 =>
      simp only [] at h
      injection h with h
      subst h
      exact Or.inr (h1 R1 rfl)
    | inr p2 =>
      simp only [] at h
      left
      have hc : gomoku_board.create 0 0 = .ok ⟨[], none⟩ := by decide
      rw [hc] at h
      injection h with h
      exact h.symm

theorem exist_ok_first (B P R : gomoku_board) (h : B.exist P = .ok R) :
    ∃ s, B.subboard ⟨0, 0⟩ (toInt (add64 P.lastcell.x 1)) (toInt (add64 P.lastcell.y 1))
      = .ok s := by
  unfold gomoku_board.exist at h
  have hgx : 0 ≤ sub64 B.lastcell.x P.lastcell.x := Nat.zero_le _
  have hgy : 0 ≤ sub64 B.lastcell.y P.lastcell.y := Nat.zero_le _
  have h5 : (5 : Nat) = 4 + 1 := rfl
  have hk : (0 : Int) < 4 := by decide
  rw [existRows, if_pos hgx, existCols, if_pos hgy, h5, existRot, if_pos hk] at h
  cases hs : B.subboard ⟨0, 0⟩ (toInt (add64 P.lastcell.x 1))
      (toInt (add64 P.lastcell.y 1)) with
  | error e => rw [hs] at h; exact Except.noConfusion h
  | ok s => exact ⟨s, rfl⟩

theorem rotN4_eq_rotate4 (p : gomoku_board) : rotN 4 p = rotate4 p := by
  unfold rotate4
  cases h1 : p.rotate with
  | error e => rw [rotN, h1]
  | ok p1 =>
    rw [rotN_succ 3 p p1 h1]
    simp only []
    cases h2 : p1.rotate with
    | error e => rw [rotN, h2]
    | ok p2 =>
      rw [rotN_succ 2 p1 p2 h2]
      simp only []
      cases h3 : p2.rotate with
      | error e => rw [rotN, h3]
      | ok p3 =>
        rw [rotN_succ 1 p2 p3 h3]
        simp only []
        cases h4 : p3.rotate with
        | error e => rw [rotN, h4]
        | ok p4 =>
          rw [rotN_succ 0 p3 p4 h4]
          rfl

theorem wildcardFree_of_bounded (p : gomoku_board) (a b : Nat) (hp : p.sized a b)
    (h : ∀ u, u < a → ∀ v, v < b → p.cellAt u v ≠ WEVER) :
    ∀ x y, p.cellAt x y ≠ WEVER := by
  intro x y
  by_cases hin : x < a ∧ y < b
  · exact h x hin.1 y hin.2
  · rw [cellAt_out p a b x y hp hin]; exact empty_ne_wever

theorem returnsAt_match (B p0 R : gomoku_board) (mB nB r c i j : Nat) (hB : B.sized mB nB)
    (hp0 : p0.sized r c) (hr : 0 < r) (hc : 0 < c) (hr31 : r < 2 ^ 31) (hc31 : c < 2 ^ 31)
    (hm31 : mB < 2 ^ 31) (hn31 : nB < 2 ^ 31) (hi : i < 2 ^ 31) (hj : j < 2 ^ 31)
    (h : returnsAt B p0 R i j) :
    ∃ q a b, q.sized a b ∧ 0 < a ∧ 0 < b ∧ i + a ≤ mB ∧ j + b ≤ nB ∧ matchAt B q a b i j ∧
      existFillRows B i j (2 ^ 64 + 1) 0 q = .ok R ∧ R.sized a b ∧
      ((∀ x y, p0.cellAt x y ≠ WEVER) → ∀ x y, q.cellAt x y ≠ WEVER) := by
  obtain ⟨t, q, s, _, hq, hs, he, hfl⟩ := h
  obtain ⟨h0, h1, hw⟩ := rotN_shape t p0 q r c hp0 hr hr31 hc hc31 hq
  have key : ∀ a b, q.sized a b → 0 < a → a < 2 ^ 31 → 0 < b → b < 2 ^ 31 →
      q.sized a b ∧ 0 < a ∧ 0 < b ∧ i + a ≤ mB ∧ j + b ≤ nB ∧ matchAt B q a b i j ∧
        existFillRows B i j (2 ^ 64 + 1) 0 q = .ok R ∧ R.sized a b := by
    intro a b hqs ha ha31 hb hb31
    have hlc := lastcell_of_sized q a b hqs ha ha31 hb hb31
    have e1 : toInt (add64 (a - 1) 1) = (a : Int) := by
      rw [add64_small _ _ (by omega), toInt_small _ (by omega)]; omega
    have e2 : toInt (add64 (b - 1) 1) = (b : Int) := by
      rw [add64_small _ _ (by omega), toInt_small _ (by omega)]; omega
    have hs' := hs
    rw [hlc] at hs'
    simp only [e1, e2] at hs'
    obtain ⟨hfi, hfj⟩ :=
      subboard_ok_fits B s ⟨i, j⟩ mB nB a b hB ha hb hi ha31 hj hb31 hs'
    simp only [] at hfi hfj
    obtain ⟨s1, e, hs1, he1, hiff⟩ :=
      window_eq B q mB nB a b i j hB hqs ha hb hm31 hn31 hfi hfj
    rw [hs] at hs1
    injection hs1 with hs1
    subst hs1
    rw [he] at he1
    injection he1 with he1
    exact ⟨hqs, ha, hb, hfi, hfj, hiff.mp he1.symm, hfl,
      (existFillRows_sized B i j a b _ _ q R hqs hfl).1⟩
  rcases Nat.mod_two_eq_zero_or_one t with ht | ht
  · obtain ⟨k1, k2, k3, k4, k5, k6, k7, k8⟩ := key r c (h0 ht) hr hr31 hc hc31
    exact ⟨q, r, c, k1, k2, k3, k4, k5, k6, k7, k8, hw⟩
  · obtain ⟨k1, k2, k3, k4, k5, k6, k7, k8⟩ := key c r (h1 ht) hc hc31 hr hr31
    exact ⟨q, c, r, k1, k2, k3, k4, k5, k6, k7, k8, hw⟩

theorem cellAt_of_grid_eq (p q : gomoku_board) (h : p.b = q.b) (x y : Nat) :
    p.cellAt x y = q.cellAt x y := by
  simp [gomoku_board.cellAt, gomoku_board.read, h]

theorem sized_of_grid_eq (p q : gomoku_board) (a b : Nat) (h : p.b = q.b)
    (hq : q.sized a b) : p.sized a b := by
  unfold gomoku_board.sized
  rw [h]
  exact hq

theorem rotN4_grid (p p1 : gomoku_board) (a b : Nat) (hp : p.sized a b) (ha : 0 < a)
    (ha31 : a < 2 ^ 31) (hb : 0 < b) (hb31 : b < 2 ^ 31) (h : rotN 4 p = .ok p1) :
    p1.sized a b ∧ p1.b = p.b := by
  rw [rotN4_eq_rotate4] at h
  obtain ⟨R, hR, hs, hc⟩ := rotate4_ok p a b hp ha ha31 hb hb31
  rw [hR] at h
  injection h with h
  subst h
  exact ⟨hs, grid_ext R p a b hs hp hc⟩

theorem exist_ok_pattern_fits (B P R : gomoku_board) (mB nB r c : Nat) (hB : B.sized mB nB)
    (hP : P.sized r c) (hr : 0 < r) (hc : 0 < c) (hr31 : r < 2 ^ 31) (hc31 : c < 2 ^ 31)
    (h : B.exist P = .ok R) : r ≤ mB ∧ c ≤ nB := by
  obtain ⟨s, hs⟩ := exist_ok_first B P R h
  have hlc := lastcell_of_sized P r c hP hr hr31 hc hc31
  have e1 : toInt (add64 (r - 1) 1) = (r : Int) := by
    rw [add64_small _ _ (by omega), toInt_small _ (by omega)]; omega
  have e2 : toInt (add64 (c - 1) 1) = (c : Int) := by
    rw [add64_small _ _ (by omega), toInt_small _ (by omega)]; omega
  rw [hlc] at hs
  simp only [e1, e2] at hs
  have := subboard_ok_fits B s ⟨0, 0⟩ mB nB r c hB hr hc (by norm_num) hr31 (by norm_num)
    hc31 hs
  simp only [] at this
  omega

theorem exist_ok_anchor (B P R : gomoku_board) (mB nB r c : Nat) (hB : B.sized mB nB)
    (hP : P.sized r c) (hr : 0 < r) (hc : 0 < c) (hr31 : r < 2 ^ 31) (hc31 : c < 2 ^ 31)
    (hm31 : mB < 2 ^ 31) (hn31 : nB < 2 ^ 31) (h : B.exist P = .ok R) (hne : R.b ≠ []) :
    ∃ i j p0 q a b, p0.b = P.b ∧ returnsAt B p0 R i j ∧ i + r ≤ mB ∧ j + c ≤ nB ∧
      q.sized a b ∧ 0 < a ∧ 0 < b ∧ i + a ≤ mB ∧ j + b ≤ nB ∧ matchAt B q a b i j ∧
      existFillRows B i j (2 ^ 64 + 1) 0 q = .ok R ∧ R.sized a b ∧
      ((∀ x y, P.cellAt x y ≠ WEVER) → ∀ x y, q.cellAt x y ≠ WEVER) := by
  obtain ⟨hrm, hcn⟩ := exist_ok_pattern_fits B P R mB nB r c hB hP hr hc hr31 hc31 h
  have hmpos : 0 < mB := by omega
  have hnpos : 0 < nB := by omega
  have hlB := lastcell_of_sized B mB nB hB hmpos hm31 hnpos hn31
  have hI : ∀ p p1 : gomoku_board, (p.sized r c ∧ p.b = P.b) → rotN 4 p = .ok p1 →
      (p1.sized r c ∧ p1.b = P.b) := by
    intro p p1 hp h4
    obtain ⟨hs, hb⟩ := rotN4_grid p p1 r c hp.1 hr hr31 hc hc31 h4
    exact ⟨hs, by rw [hb, hp.2]⟩
  rcases exist_inv B P R (fun p => p.sized r c ∧ p.b = P.b) hI ⟨hP, rfl⟩ h with
    h0 | ⟨i, j, pr, p0, hpr, hib, hp0, hjb, hret⟩
  · rw [h0] at hne; exact absurd rfl hne
  · have hlr := lastcell_of_sized pr r c hpr.1 hr hr31 hc hc31
    have hl0 := lastcell_of_sized p0 r c hp0.1 hr hr31 hc hc31
    rw [hlB, hlr] at hib
    rw [hlB, hl0] at hjb
    simp only [] at hib hjb
    rw [sub64_small _ _ (by omega) (by omega)] at hib hjb
    obtain ⟨q, a, b, k1, k2, k3, k4, k5, k6, k7, k8, k9⟩ :=
      returnsAt_match B p0 R mB nB r c i j hB hp0.1 hr hc hr31 hc31 hm31 hn31 (by omega)
        (by omega) hret
    refine ⟨i, j, p0, q, a, b, hp0.2, hret, by omega, by omega, k1, k2, k3, k4, k5, k6, k7,
      k8, ?_⟩
    intro hw
    apply k9
    intro x y
    rw [cellAt_of_grid_eq p0 P hp0.2]
    exact hw x y

/-! ## Rectangular grids -/

theorem rectangular_of_sized (B : gomoku_board) (m n : Nat) (h : B.sized m n) :
    B.rectangular := by
  intro r1 h1 r2 h2
  rw [h.2 r1 h1, h.2 r2 h2]

theorem replace_returns_sized (B frm tgt : gomoku_board) (mB nB r c r2 c2 : Nat)
    (hB : B.sized mB nB) (hF : frm.sized r c) (hT : tgt.sized r2 c2)
    (hr : 0 < r) (hc : 0 < c) (hr2 : 0 < r2) (hc2 : 0 < c2)
    (hrm : r ≤ mB) (hcn : c ≤ nB) (hr231 : r2 < 2 ^ 31) (hc231 : c2 < 2 ^ 31)
    (hm31 : mB < 2 ^ 31) (hn31 : nB < 2 ^ 31) :
    ∃ B1, B.replace frm tgt = .ok B1 ∧ B1.sized mB nB := by
  by_cases hd : r = r2 ∧ c = c2
  · obtain ⟨e1, e2⟩ := hd
    subst e1; subst e2
    by_cases hex : ∃ i, ∃ j, i + r ≤ mB ∧ j + c ≤ nB ∧ matchAt B frm r c i j
    · classical
      let i0 := Nat.find hex
      have hi0 : ∃ j, i0 + r ≤ mB ∧ j + c ≤ nB ∧ matchAt B frm r c i0 j := Nat.find_spec hex
      let j0 := Nat.find hi0
      have hj0 : i0 + r ≤ mB ∧ j0 + c ≤ nB ∧ matchAt B frm r c i0 j0 := Nat.find_spec hi0
      have hfirst : ∀ i1 j1, 0 ≤ i1 → i1 + r ≤ mB → j1 + c ≤ nB →
          (i1 < i0 ∨ (i1 = i0 ∧ j1 < j0)) → ¬ matchAt B frm r c i1 j1 := by
        intro i1 j1 _ h1 h2 h3 hm
        rcases h3 with h3 | ⟨h3, h4⟩
        · exact Nat.find_min hex h3 ⟨j1, h1, h2, hm⟩
        · subst h3
          exact Nat.find_min hi0 h4 ⟨h1, h2, hm⟩
      have h1 := lastcell_of_sized frm r c hF hr (by omega) hc (by omega)
      have h2 := lastcell_of_sized tgt r c hT hr (by omega) hc (by omega)
      have hc0 : cell.ne frm.lastcell tgt.lastcell = false := by
        rw [h1, h2]; simp [cell.ne]
      have hfind := replaceFindRows_first B frm mB nB r c i0 j0 hB hF hr hc hm31 hn31 hj0.1
        hj0.2.1 hj0.2.2 none i0 0 (2 ^ 64 + 1) (by omega) (by omega) hfirst
      obtain ⟨B1, hw, hs, _, _⟩ :=
        replaceWriteRows_ok frm tgt mB nB r c i0 j0 hF hT hr hc hm31 hn31 hj0.1 hj0.2.1 r i0
          (2 ^ 64 + 1) B (by omega) (le_refl i0) (by omega) hB
      refine ⟨B1, ?_, hs⟩
      unfold gomoku_board.replace
      rw [if_neg (by rw [hc0]; exact Bool.false_ne_true), hfind]
      exact hw
    · refine ⟨B, ?_, hB⟩
      apply replace_no_match_noop B frm tgt mB nB r c hB hF hT hr hc hrm hcn hm31 hn31
      intro i j h1 h2 hm
      exact hex ⟨i, j, h1, h2, hm⟩
  · exact ⟨B, replace_size_mismatch_noop B frm tgt r c r2 c2 hF hT hr hc hr2 hc2 (by omega)
      (by omega) hr231 hc231 hd, hB⟩

theorem exist_returns_rectangular (B p R : gomoku_board) (r c : Nat) (hp : p.sized r c)
    (hr : 0 < r) (hc : 0 < c) (hr31 : r < 2 ^ 31) (hc31 : c < 2 ^ 31)
    (h : B.exist p = .ok R) : R.rectangular := by
  have hI : ∀ q q1 : gomoku_board, q.sized r c → rotN 4 q = .ok q1 → q1.sized r c :=
    fun q q1 hq h4 => (rotN4_grid q q1 r c hq hr hr31 hc hc31 h4).1
  rcases exist_inv B p R (fun q => q.sized r c) hI hp h with
    h0 | ⟨i, j, _, p0, _, _, hp0, _, t, q, s, _, hq, _, _, hfl⟩
  · rw [h0]
    intro r1 h1
    exact absurd h1 (List.not_mem_nil r1)
  · obtain ⟨h0, h1, _⟩ := rotN_shape t p0 q r c hp0 hr hr31 hc hc31 hq
    rcases Nat.mod_two_eq_zero_or_one t with ht | ht
    · exact rectangular_of_sized R r c (existFillRows_sized B i j r c _ _ q R (h0 ht) hfl).1
    · exact rectangular_of_sized R c r (existFillRows_sized B i j c r _ _ q R (h1 ht) hfl).1

theorem ofRows_sized (rs : List (List Nat)) (hlen : rs.length < 2 ^ 64) :
    ∃ B M, gomoku_board.ofRows rs = .ok B ∧ B.sized rs.length M := by
  obtain ⟨B, M, he, _, hl, hub, _, hk⟩ := ofRows_spec rs hlen
  refine ⟨B, M, he, hl, ?_⟩
  intro row hrow
  obtain ⟨k, hk1, e⟩ := List.getElem_of_mem hrow
  have h1 := hk k
  rw [List.getElem?_eq_getElem hk1, e] at h1
  have hk2 : k < rs.length := by omega
  rw [List.getElem?_eq_getElem hk2] at h1
  simp only [Option.map_some'] at h1
  injection h1 with h1
  rw [h1]
  exact padRow_length M _ (hub _ (List.getElem_mem _))

theorem create_returns (h v : Nat) (hh : h ≤ max_rows) (hv : v ≤ max_cols) :
    ∃ p, gomoku_board.create h v = .ok p ∧ p.sized h v := by
  have h1 : ¬ max_cols < v := by omega
  have h2 : ¬ max_rows < h := by omega
  have hc : gomoku_board.create h v = .ok ⟨List.replicate h (List.replicate v EMPTY), none⟩ := by
    simp [gomoku_board.create, h1, h2]
  exact ⟨_, hc, (create_ok_sized h v _ hc).1⟩

/-! ## The claims -/

/-- C1: on the one-row board `[[EMPTY, EMPTY]]` and the pattern `[[BLACK, BLACK]]` no
rotation of the pattern both fits and matches, yet `exist` does not return the empty
board: after the failed comparison at the anchor `(0, 0)` the pattern is rotated to two
rows and `subboard` reads row 1 of the one-row board.  On the one-column board
`[[BLACK], [BLACK]]` the 90° rotation of the same pattern fits and matches at `(0, 0)`,
and `exist` does not return either: the column bound `0 - 1` wraps around on `size_t`
and the unrotated pattern is read past the end of row 0. -/
theorem exist_nonsquare_pattern_faults :
    gomoku_board.exist ⟨[[EMPTY, EMPTY]], none⟩ ⟨[[BLACK, BLACK]], none⟩
      = .error .outOfRange ∧
    ¬ matchAt ⟨[[EMPTY, EMPTY]], none⟩ ⟨[[BLACK, BLACK]], none⟩ 1 2 0 0 ∧
    gomoku_board.rotate ⟨[[BLACK, BLACK]], none⟩ = .ok ⟨[[BLACK], [BLACK]], none⟩ ∧
    gomoku_board.subboard ⟨[[EMPTY, EMPTY]], none⟩ ⟨0, 0⟩ 2 1 = .error .outOfRange ∧
    gomoku_board.exist ⟨[[BLACK], [BLACK]], none⟩ ⟨[[BLACK, BLACK]], none⟩
      = .error .outOfRange ∧
    matchAt ⟨[[BLACK], [BLACK]], none⟩ ⟨[[BLACK], [BLACK]], none⟩ 2 1 0 0 := by
  decide

/-- C2: on the board `[[EMPTY, BLACK]]` the pattern `[[BLACK]]` matches at the anchor
`(0, 1)` (and not at `(0, 0)`), the comparison there succeeds, and the concretization
loop, whose column bound is `j + p.lastcell().y = 1`, reads `p[0][1]` outside the
one-cell pattern: `exist` does not return the board `[[BLACK]]`. -/
theorem exist_concretization_faults :
    ¬ matchAt ⟨[[EMPTY, BLACK]], none⟩ ⟨[[BLACK]], none⟩ 1 1 0 0 ∧
    matchAt ⟨[[EMPTY, BLACK]], none⟩ ⟨[[BLACK]], none⟩ 1 1 0 1 ∧
    gomoku_board.subboard ⟨[[EMPTY, BLACK]], none⟩ ⟨0, 1⟩ 1 1 = .ok ⟨[[BLACK]], none⟩ ∧
    gomoku_board.eq ⟨[[BLACK]], none⟩ ⟨[[BLACK]], none⟩ = .ok true ∧
    add64 1 (⟨[[BLACK]], none⟩ : gomoku_board).lastcell.y = 1 ∧
    gomoku_board.read ⟨[[BLACK]], none⟩ 0 1 = .error .outOfRange ∧
    existFillRows ⟨[[EMPTY, BLACK]], none⟩ 0 1 (2 ^ 64 + 1) 0 ⟨[[BLACK]], none⟩
      = .error .outOfRange ∧
    gomoku_board.exist ⟨[[EMPTY, BLACK]], none⟩ ⟨[[BLACK]], none⟩ = .error .outOfRange := by
  decide

/-- C3: on the 3 by 3 board with `BLACK` on the middle row and the middle column, the
pattern `[[BLACK, BLACK, BLACK]]` rotated once is a column that fits and matches at the
anchor `(0, 1)`, before the anchor `(1, 0)` in row-major order; `exist` tries only the
anchors of column 0 and returns the unrotated row found at `(1, 0)`. -/
theorem exist_skips_rotated_anchor :
    gomoku_board.exist
        ⟨[[EMPTY, BLACK, EMPTY], [BLACK, BLACK, BLACK], [EMPTY, BLACK, EMPTY]], none⟩
        ⟨[[BLACK, BLACK, BLACK]], none⟩ = .ok ⟨[[BLACK, BLACK, BLACK]], none⟩ ∧
    gomoku_board.rotate ⟨[[BLACK, BLACK, BLACK]], none⟩
      = .ok ⟨[[BLACK], [BLACK], [BLACK]], none⟩ ∧
    matchAt ⟨[[EMPTY, BLACK, EMPTY], [BLACK, BLACK, BLACK], [EMPTY, BLACK, EMPTY]], none⟩
      ⟨[[BLACK], [BLACK], [BLACK]], none⟩ 3 1 0 1 ∧
    sub64
      (⟨[[EMPTY, BLACK, EMPTY], [BLACK, BLACK, BLACK], [EMPTY, BLACK, EMPTY]], none⟩ :
        gomoku_board).lastcell.y
      (⟨[[BLACK, BLACK, BLACK]], none⟩ : gomoku_board).lastcell.y = 0 ∧
    (⟨[[BLACK], [BLACK], [BLACK]], none⟩ : gomoku_board) ≠ ⟨[[BLACK, BLACK, BLACK]], none⟩ := by
  decide

/-- C4: for rectangular boards `A` (`m` by `n`) and `B` (`m1` by `n1`) with at least
one row and one column, `A == B` returns, and it returns true exactly when the
dimensions agree and at every coordinate one of the two cells is the wildcard or the
two cells are equal; `A != B` returns the negation. -/
theorem eq_iff_wildcard_equal (A B : gomoku_board) (m n m1 n1 : Nat)
    (hA : A.sized m n) (hB : B.sized m1 n1)
    (hm : 0 < m) (hn : 0 < n) (hm1 : 0 < m1) (hn1 : 0 < n1)
    (hm31 : m < 2 ^ 31) (hn31 : n < 2 ^ 31) (hm131 : m1 < 2 ^ 31) (hn131 : n1 < 2 ^ 31) :
    ∃ r, A.eq B = .ok r ∧ A.neq B = .ok (!r) ∧
      (r = true ↔ (m = m1 ∧ n = n1 ∧
        ∀ i, i < m → ∀ j, j < n →
          (A.cellAt i j = WEVER ∨ B.cellAt i j = WEVER ∨ A.cellAt i j = B.cellAt i j))) := by
  by_cases hd : m = m1 ∧ n = n1
  · obtain ⟨e1, e2⟩ := hd
    subst e1; subst e2
    obtain ⟨r, he, hr⟩ := eq_same_size A B m n hA hB hm hm31 hn hn31
    refine ⟨r, he, by simp [gomoku_board.neq, he], ?_⟩
    rw [hr]
    constructor
    · intro h; exact ⟨rfl, rfl, h⟩
    · intro h; exact h.2.2
  · have he := eq_diff_size A B m n m1 n1 hA hB hm hm31 hn hn31 hm1 hm131 hn1 hn131 hd
    refine ⟨false, he, by simp [gomoku_board.neq, he], ?_⟩
    constructor
    · intro h; exact Bool.noConfusion h
    · intro h; exact absurd ⟨h.1, h.2.1⟩ hd

/-- A concrete instance, at `[[BLACK, WEVER]]` and `[[WEVER, WHITE]]`. -/
theorem eq_iff_wildcard_equal_witness :
    ∃ r, gomoku_board.eq ⟨[[BLACK, WEVER]], none⟩ ⟨[[WEVER, WHITE]], none⟩ = .ok r ∧
      gomoku_board.neq ⟨[[BLACK, WEVER]], none⟩ ⟨[[WEVER, WHITE]], none⟩ = .ok (!r) ∧
      (r = true ↔ (1 = 1 ∧ 2 = 2 ∧
        ∀ i, i < 1 → ∀ j, j < 2 →
          ((⟨[[BLACK, WEVER]], none⟩ : gomoku_board).cellAt i j = WEVER ∨
            (⟨[[WEVER, WHITE]], none⟩ : gomoku_board).cellAt i j = WEVER ∨
            (⟨[[BLACK, WEVER]], none⟩ : gomoku_board).cellAt i j =
              (⟨[[WEVER, WHITE]], none⟩ : gomoku_board).cellAt i j))) :=
  eq_iff_wildcard_equal ⟨[[BLACK, WEVER]], none⟩ ⟨[[WEVER, WHITE]], none⟩ 1 2 1 2
    (by decide) (by decide) (by decide) (by decide) (by decide) (by decide)
    (by norm_num) (by norm_num) (by norm_num) (by norm_num)

/-- C5: on a board of `m ≥ 1` rows and `n ≥ 1` columns `rotate` returns a board of
`n` rows and `m` columns whose cell `(j, m-1-i)` holds the old cell `(i, j)`, and every
cell of the new grid is the image of exactly one old cell. -/
theorem rotate_clockwise (B : gomoku_board) (m n : Nat) (hB : B.sized m n)
    (hm : 0 < m) (hn : 0 < n) (hm31 : m < 2 ^ 31) (hn31 : n < 2 ^ 31) :
    ∃ R, B.rotate = .ok R ∧ R.sized n m ∧
      (∀ i j, i < m → j < n → R.cellAt j (m - 1 - i) = B.cellAt i j) ∧
      (∀ a b, a < n → b < m →
        ∃! ij : Nat × Nat, ij.1 < m ∧ ij.2 < n ∧ ij.2 = a ∧ m - 1 - ij.1 = b) := by
  obtain ⟨R, hr, hs, _, hc⟩ := rotate_ok B m n hB hm hm31 hn hn31
  refine ⟨R, hr, hs, ?_, ?_⟩
  · intro i j hi hj
    rw [hc j (m - 1 - i) hj (by omega)]
    have e : m - 1 - (m - 1 - i) = i := by omega
    rw [e]
  · intro a b ha hb
    refine ⟨(m - 1 - b, a), ⟨by simp only []; omega, ha, rfl, by simp only []; omega⟩, ?_⟩
    rintro ⟨x, y⟩ ⟨h1, h2, h3, h4⟩
    simp only [] at h1 h2 h3 h4
    have ex : x = m - 1 - b := by omega
    rw [ex, h3]

/-- A concrete instance, at the board `[[BLACK, WHITE, EMPTY]]`. -/
theorem rotate_clockwise_witness :
    ∃ R, gomoku_board.rotate ⟨[[BLACK, WHITE, EMPTY]], none⟩ = .ok R ∧ R.sized 3 1 ∧
      (∀ i j, i < 1 → j < 3 →
        R.cellAt j (1 - 1 - i) = (⟨[[BLACK, WHITE, EMPTY]], none⟩ : gomoku_board).cellAt i j) ∧
      (∀ a b, a < 3 → b < 1 →
        ∃! ij : Nat × Nat, ij.1 < 1 ∧ ij.2 < 3 ∧ ij.2 = a ∧ 1 - 1 - ij.1 = b) :=
  rotate_clockwise ⟨[[BLACK, WHITE, EMPTY]], none⟩ 1 3 (by decide) (by decide) (by decide)
    (by norm_num) (by norm_num)

/-- C6, as stated, fails on the boards without cells: on the zero-row board
`gomoku_board (0, 0)` the first `rotate` asks for a grid of `2^64 - 2^31` rows and does
not return, and the one-row, zero-column board `gomoku_board (1, 0)` becomes the
zero-row board after one `rotate`, so that the second does not return. -/
theorem rotate4_degenerate_fails :
    gomoku_board.create 0 0 = .ok ⟨[], none⟩ ∧
    gomoku_board.rotate ⟨[], none⟩ = .error .lengthError ∧
    (¬ ∃ R, rotate4 ⟨[], none⟩ = .ok R ∧ R.b = []) ∧
    gomoku_board.create 1 0 = .ok ⟨[[]], none⟩ ∧
    gomoku_board.rotate ⟨[[]], none⟩ = .ok ⟨[], none⟩ ∧
    (¬ ∃ R, rotate4 ⟨[[]], none⟩ = .ok R ∧ R.b = [[]]) := by
  have h1 : rotate4 ⟨[], none⟩ = .error .lengthError := by decide
  have h2 : rotate4 ⟨[[]], none⟩ = .error .lengthError := by decide
  refine ⟨by decide, by decide, ?_, by decide, by decide, ?_⟩
  · rintro ⟨R, hR, _⟩
    rw [h1] at hR
    exact Except.noConfusion hR
  · rintro ⟨R, hR, _⟩
    rw [h2] at hR
    exact Except.noConfusion hR

/-- C6, amended: on a board with at least one row and one column, four successive
calls of `rotate` return a board with the same number of rows and columns and the
same grid, cell for cell. -/
theorem rotate4_identity (B : gomoku_board) (m n : Nat) (hB : B.sized m n)
    (hm : 0 < m) (hn : 0 < n) (hm31 : m < 2 ^ 31) (hn31 : n < 2 ^ 31) :
    ∃ R, rotate4 B = .ok R ∧ R.sized m n ∧ R.b = B.b ∧
      ∀ i j, R.cellAt i j = B.cellAt i j := by
  obtain ⟨R, hr, hs, hc⟩ := rotate4_ok B m n hB hm hm31 hn hn31
  have hb : R.b = B.b := grid_ext R B m n hs hB hc
  refine ⟨R, hr, hs, hb, ?_⟩
  intro i j
  simp [gomoku_board.cellAt, gomoku_board.read, hb]

/-- A concrete instance, at a board of two rows and three columns. -/
theorem rotate4_identity_witness :
    ∃ R, rotate4 ⟨[[BLACK, WHITE, EMPTY], [WEVER, BLACK, WHITE]], none⟩ = .ok R ∧
      R.sized 2 3 ∧ R.b = [[BLACK, WHITE, EMPTY], [WEVER, BLACK, WHITE]] ∧
      ∀ i j, R.cellAt i j =
        (⟨[[BLACK, WHITE, EMPTY], [WEVER, BLACK, WHITE]], none⟩ : gomoku_board).cellAt i j :=
  rotate4_identity ⟨[[BLACK, WHITE, EMPTY], [WEVER, BLACK, WHITE]], none⟩ 2 3
    (by decide) (by decide) (by decide) (by norm_num) (by norm_num)

/-- C7: for lengths `hl = r ≥ 0` and `vl = c ≥ 0` with `sp.x + r ≤ rows` and
`sp.y + c ≤ cols`, `subboard` returns (no access leaves the grid) a board of `r` rows
and `c` columns whose cell `(u, v)` is the cell `(sp.x + u, sp.y + v)` of the source;
with a zero length the result has no cell.  The source board is not part of the
result: `subboard` does not assign to the receiver. -/
theorem subboard_lower_right (B : gomoku_board) (sp : cell) (mB nB r c : Nat)
    (hB : B.sized mB nB) (hx : sp.x + r ≤ mB) (hy : sp.y + c ≤ nB)
    (hx31 : sp.x + r < 2 ^ 31) (hy31 : sp.y + c < 2 ^ 31) :
    ∃ R, B.subboard sp (r : Int) (c : Int) = .ok R ∧ R.sized r c ∧
      (∀ u v, u < r → v < c → R.cellAt u v = B.cellAt (sp.x + u) (sp.y + v)) ∧
      (r = 0 → R.b = []) ∧ (c = 0 → ∀ row ∈ R.b, row = []) := by
  obtain ⟨R, hr, hs, _, hc⟩ := subboard_ok B sp mB nB r c hB hx hx31 hy hy31
  refine ⟨R, hr, hs, hc, ?_, ?_⟩
  · intro h0
    have := hs.1
    rw [h0] at this
    exact List.length_eq_zero.mp this
  · intro h0 row hrow
    have := hs.2 row hrow
    rw [h0] at this
    exact List.length_eq_zero.mp this

/-- A concrete instance, at the lower right 2 by 2 corner of a 3 by 3
board. -/
theorem subboard_lower_right_witness :
    ∃ R, gomoku_board.subboard
        ⟨[[BLACK, WHITE, EMPTY], [WHITE, BLACK, WHITE], [EMPTY, WHITE, BLACK]], none⟩
        ⟨1, 1⟩ ((2 : Nat) : Int) ((2 : Nat) : Int) = .ok R ∧ R.sized 2 2 ∧
      (∀ u v, u < 2 → v < 2 → R.cellAt u v =
        (⟨[[BLACK, WHITE, EMPTY], [WHITE, BLACK, WHITE], [EMPTY, WHITE, BLACK]], none⟩ :
          gomoku_board).cellAt ((⟨1, 1⟩ : cell).x + u) ((⟨1, 1⟩ : cell).y + v)) ∧
      (2 = 0 → R.b = []) ∧ (2 = 0 → ∀ row ∈ R.b, row = []) :=
  subboard_lower_right
    ⟨[[BLACK, WHITE, EMPTY], [WHITE, BLACK, WHITE], [EMPTY, WHITE, BLACK]], none⟩
    ⟨1, 1⟩ 3 3 2 2 (by decide) (by decide) (by decide) (by norm_num) (by norm_num)

/-- C8: `subboard ((1,1), -2, 2)` on a 3 by 3 board returns a 2 by 2 board of `EMPTY`
cells, not the source cells of rows 1 and 0 and columns 1 and 2: with a negative
length the loop condition `i < (int)sp.x + hl` is false before the first pass. -/
theorem subboard_negative_length_empty :
    gomoku_board.subboard
        ⟨[[BLACK, WHITE, BLACK], [WHITE, BLACK, WHITE], [BLACK, WHITE, BLACK]], none⟩
        ⟨1, 1⟩ (-2) 2 = .ok ⟨[[EMPTY, EMPTY], [EMPTY, EMPTY]], none⟩ ∧
    (⟨[[BLACK, WHITE, BLACK], [WHITE, BLACK, WHITE], [BLACK, WHITE, BLACK]], none⟩ :
        gomoku_board).cellAt 1 1 = BLACK ∧
    (⟨[[EMPTY, EMPTY], [EMPTY, EMPTY]], none⟩ : gomoku_board).cellAt 0 0 ≠ BLACK := by
  decide

/-- C9: when `frm` and `tgt` have the same dimensions (at least 1 by 1, no larger than
`B`) and `(i, j)` is the first anchor in row-major order at which the sub-grid of `B`
agrees with `frm` up to wildcards, `replace` returns, the region of `B` at `(i, j)`
holds the cells of `tgt`, every other cell and the dimensions of `B` are unchanged. -/
theorem replace_first_match (B frm tgt : gomoku_board) (mB nB r c i j : Nat)
    (hB : B.sized mB nB) (hF : frm.sized r c) (hT : tgt.sized r c)
    (hr : 0 < r) (hc : 0 < c) (hm31 : mB < 2 ^ 31) (hn31 : nB < 2 ^ 31)
    (hi : i + r ≤ mB) (hj : j + c ≤ nB) (hmatch : matchAt B frm r c i j)
    (hfirst : ∀ i1 j1, i1 + r ≤ mB → j1 + c ≤ nB → (i1 < i ∨ (i1 = i ∧ j1 < j)) →
      ¬ matchAt B frm r c i1 j1) :
    ∃ B1, B.replace frm tgt = .ok B1 ∧ B1.sized mB nB ∧
      (∀ u v, u < r → v < c → B1.cellAt (i + u) (j + v) = tgt.cellAt u v) ∧
      (∀ x y, ¬ (i ≤ x ∧ x < i + r ∧ j ≤ y ∧ y < j + c) → B1.cellAt x y = B.cellAt x y) := by
  have h1 := lastcell_of_sized frm r c hF hr (by omega) hc (by omega)
  have h2 := lastcell_of_sized tgt r c hT hr (by omega) hc (by omega)
  have hc0 : cell.ne frm.lastcell tgt.lastcell = false := by rw [h1, h2]; simp [cell.ne]
  have hfind := replaceFindRows_first B frm mB nB r c i j hB hF hr hc hm31 hn31 hi hj
    hmatch none i 0 (2 ^ 64 + 1) (by omega) (by omega)
    (fun i1 j1 _ h3 h4 h5 => hfirst i1 j1 h3 h4 h5)
  obtain ⟨B1, hw, hs, _, hrd⟩ :=
    replaceWriteRows_ok frm tgt mB nB r c i j hF hT hr hc hm31 hn31 hi hj r i (2 ^ 64 + 1) B
      (by omega) (le_refl i) (by omega) hB
  refine ⟨B1, ?_, hs, ?_, ?_⟩
  · unfold gomoku_board.replace
    rw [if_neg (by rw [hc0]; exact Bool.false_ne_true), hfind]
    exact hw
  · intro u v hu hv
    apply cellAt_of_read
    rw [hrd]
    have : i ≤ i + u ∧ i + u < i + r ∧ j ≤ j + v ∧ j + v < j + c := by omega
    rw [if_pos this]
    have e1 : i + u - i = u := by omega
    have e2 : j + v - j = v := by omega
    rw [e1, e2]
  · intro x y hxy
    apply cellAt_congr
    rw [hrd, if_neg hxy]

/-- A concrete instance, at the source row `[BLACK, WHITE, EMPTY]` with
`frm = [[BLACK, WEVER]]` and `tgt = [[WHITE, WHITE]]`; the row becomes
`[WHITE, WHITE, EMPTY]`. -/
theorem replace_first_match_witness :
    (∃ B1, gomoku_board.replace ⟨[[BLACK, WHITE, EMPTY]], none⟩ ⟨[[BLACK, WEVER]], none⟩
        ⟨[[WHITE, WHITE]], none⟩ = .ok B1 ∧ B1.sized 1 3 ∧
      (∀ u v, u < 1 → v < 2 → B1.cellAt (0 + u) (0 + v) =
        (⟨[[WHITE, WHITE]], none⟩ : gomoku_board).cellAt u v) ∧
      (∀ x y, ¬ (0 ≤ x ∧ x < 0 + 1 ∧ 0 ≤ y ∧ y < 0 + 2) →
        B1.cellAt x y = (⟨[[BLACK, WHITE, EMPTY]], none⟩ : gomoku_board).cellAt x y)) ∧
    gomoku_board.replace ⟨[[BLACK, WHITE, EMPTY]], none⟩ ⟨[[BLACK, WEVER]], none⟩
        ⟨[[WHITE, WHITE]], none⟩ = .ok ⟨[[WHITE, WHITE, EMPTY]], none⟩ :=
  ⟨replace_first_match ⟨[[BLACK, WHITE, EMPTY]], none⟩ ⟨[[BLACK, WEVER]], none⟩
      ⟨[[WHITE, WHITE]], none⟩ 1 3 1 2 0 0 (by decide) (by decide) (by decide) (by decide)
      (by decide) (by norm_num) (by norm_num) (by decide) (by decide) (by decide)
      (fun i1 j1 _ _ h => by omega),
    by decide⟩

/-- C10: with `p1` and `p2` of two rows and `B` of one row, no anchor matches, yet
`replace` does not return: the bound `lastcell().x - p1.lastcell().x` is `0 - 1` on
`size_t`, the row loop runs, and `subboard` reads row 1 of the one-row board. -/
theorem replace_oversized_pattern_faults :
    gomoku_board.replace ⟨[[EMPTY]], none⟩ ⟨[[EMPTY], [EMPTY]], none⟩
        ⟨[[EMPTY], [EMPTY]], none⟩ = .error .outOfRange ∧
    sub64 (⟨[[EMPTY]], none⟩ : gomoku_board).lastcell.x
        (⟨[[EMPTY], [EMPTY]], none⟩ : gomoku_board).lastcell.x = 2 ^ 64 - 1 ∧
    gomoku_board.subboard ⟨[[EMPTY]], none⟩ ⟨0, 0⟩ 2 1 = .error .outOfRange := by
  decide

/-- C11: for boards `A` (`m` by `n`) and `B` (`m1` by `n1`) with at least one row and
one column, `diff` returns a list `L`; with identical dimensions `L` is in strict
row-major order (hence without repetition) and holds exactly the coordinates at which
the two cells differ and neither is the wildcard; with different dimensions `L` is
empty.  The two boards are arguments only: `diff` assigns to neither. -/
theorem diff_lists_differences (A B : gomoku_board) (m n m1 n1 : Nat)
    (hA : A.sized m n) (hB : B.sized m1 n1)
    (hm : 0 < m) (hn : 0 < n) (hm1 : 0 < m1) (hn1 : 0 < n1)
    (hm31 : m < 2 ^ 31) (hn31 : n < 2 ^ 31) (hm131 : m1 < 2 ^ 31) (hn131 : n1 < 2 ^ 31) :
    ∃ L, A.diff B = .ok L ∧
      ((m = m1 ∧ n = n1) → L.Pairwise cell.lt ∧ L.Nodup ∧
        ∀ c : cell, c ∈ L ↔
          (c.x < m ∧ c.y < n ∧ A.cellAt c.x c.y ≠ B.cellAt c.x c.y ∧
            A.cellAt c.x c.y ≠ WEVER ∧ B.cellAt c.x c.y ≠ WEVER)) ∧
      (¬ (m = m1 ∧ n = n1) → L = []) := by
  by_cases hd : m = m1 ∧ n = n1
  · obtain ⟨e1, e2⟩ := hd
    subst e1; subst e2
    obtain ⟨L, he, hp, hmem⟩ := diff_same_size A B m n hA hB hm hm31 hn hn31
    refine ⟨L, he, ?_, ?_⟩
    · intro _
      refine ⟨hp, hp.imp (fun {a b} h => cell_lt_ne a b h), ?_⟩
      intro c
      rw [hmem]
      rfl
    · intro h; exact absurd ⟨rfl, rfl⟩ h
  · refine ⟨[], diff_diff_size A B m n m1 n1 hA hB hm hm31 hn hn31 hm1 hm131 hn1 hn131 hd,
      ?_, ?_⟩
    · intro h; exact absurd h hd
    · intro _; rfl

/-- A concrete instance, at two boards of two rows and two columns that differ at
`(0, 1)` and `(1, 0)` and hold a wildcard at `(1, 1)`. -/
theorem diff_lists_differences_witness :
    (∃ L, gomoku_board.diff ⟨[[BLACK, WHITE], [WHITE, WEVER]], none⟩
        ⟨[[BLACK, BLACK], [EMPTY, EMPTY]], none⟩ = .ok L ∧
      ((2 = 2 ∧ 2 = 2) → L.Pairwise cell.lt ∧ L.Nodup ∧
        ∀ c : cell, c ∈ L ↔
          (c.x < 2 ∧ c.y < 2 ∧
            (⟨[[BLACK, WHITE], [WHITE, WEVER]], none⟩ : gomoku_board).cellAt c.x c.y ≠
              (⟨[[BLACK, BLACK], [EMPTY, EMPTY]], none⟩ : gomoku_board).cellAt c.x c.y ∧
            (⟨[[BLACK, WHITE], [WHITE, WEVER]], none⟩ : gomoku_board).cellAt c.x c.y ≠ WEVER ∧
            (⟨[[BLACK, BLACK], [EMPTY, EMPTY]], none⟩ : gomoku_board).cellAt c.x c.y ≠ WEVER)) ∧
      (¬ (2 = 2 ∧ 2 = 2) → L = [])) ∧
    gomoku_board.diff ⟨[[BLACK, WHITE], [WHITE, WEVER]], none⟩
        ⟨[[BLACK, BLACK], [EMPTY, EMPTY]], none⟩ = .ok [⟨0, 1⟩, ⟨1, 0⟩] :=
  ⟨diff_lists_differences ⟨[[BLACK, WHITE], [WHITE, WEVER]], none⟩
      ⟨[[BLACK, BLACK], [EMPTY, EMPTY]], none⟩ 2 2 2 2 (by decide) (by decide) (by decide)
      (by decide) (by decide) (by decide) (by norm_num) (by norm_num) (by norm_num)
      (by norm_num),
    by decide⟩

/-- C12: for `n` by `n` boards `B` and `p` (`n ≥ 1`), `exist` returns; the four
rotations of `p` exist; the result is the zero-row board exactly when none of them
agrees with `B` up to wildcards; otherwise it is the first rotation, in the order 0°,
90°, 180°, 270°, that does, with its wildcard cells replaced by the cells of `B`. -/
theorem exist_same_size_square (B p : gomoku_board) (n : Nat) (hB : B.sized n n)
    (hp : p.sized n n) (hn : 0 < n) (hn31 : n < 2 ^ 31) :
    ∃ R, B.exist p = .ok R ∧
      (∀ k, k < 4 → ∃ q, rotN k p = .ok q ∧ q.sized n n) ∧
      (R.b = [] ↔ ∀ k, k < 4 → ∀ q, rotN k p = .ok q → ¬ matchAt B q n n 0 0) ∧
      (R.b ≠ [] → ∃ k q, k < 4 ∧ rotN k p = .ok q ∧ matchAt B q n n 0 0 ∧
        (∀ k1, k1 < k → ∀ q1, rotN k1 p = .ok q1 → ¬ matchAt B q1 n n 0 0) ∧
        R.sized n n ∧
        ∀ u v, u < n → v < n →
          R.cellAt u v = if q.cellAt u v = WEVER then B.cellAt u v else q.cellAt u v) := by
  have hrot : ∀ k, k < 4 → ∃ q, rotN k p = .ok q ∧ q.sized n n :=
    fun k _ => rotN_square n hn hn31 k p hp
  rcases exist_square_spec B p n hB hp hn hn31 with
    ⟨t, q, R, ht, hq, hsq, hm, hear, hex, hsR, hcR⟩ | ⟨hall, hex⟩
  · have hne : R.b ≠ [] := by
      intro h0
      have := hsR.1
      rw [h0] at this
      simp at this
      omega
    refine ⟨R, hex, hrot, ?_, ?_⟩
    · constructor
      · intro h0; exact absurd h0 hne
      · intro h; exact absurd hm (h t ht q hq)
    · intro _
      exact ⟨t, q, ht, hq, hm, hear, hsR, hcR⟩
  · refine ⟨⟨[], none⟩, hex, hrot, ?_, ?_⟩
    · constructor
      · intro _; exact hall
      · intro _; rfl
    · intro h; exact absurd rfl h

/-- A concrete instance: the 3 by 3 all-`BLACK` pattern searched in the 3 by 3
all-`WHITE` board; the result is the zero-row board. -/
theorem exist_same_size_square_witness :
    (∃ R, gomoku_board.exist
        ⟨[[WHITE, WHITE, WHITE], [WHITE, WHITE, WHITE], [WHITE, WHITE, WHITE]], none⟩
        ⟨[[BLACK, BLACK, BLACK], [BLACK, BLACK, BLACK], [BLACK, BLACK, BLACK]], none⟩
          = .ok R ∧
      (∀ k, k < 4 → ∃ q,
        rotN k ⟨[[BLACK, BLACK, BLACK], [BLACK, BLACK, BLACK], [BLACK, BLACK, BLACK]], none⟩
          = .ok q ∧ q.sized 3 3) ∧
      (R.b = [] ↔ ∀ k, k < 4 → ∀ q,
        rotN k ⟨[[BLACK, BLACK, BLACK], [BLACK, BLACK, BLACK], [BLACK, BLACK, BLACK]], none⟩
          = .ok q →
        ¬ matchAt
          ⟨[[WHITE, WHITE, WHITE], [WHITE, WHITE, WHITE], [WHITE, WHITE, WHITE]], none⟩
          q 3 3 0 0) ∧
      (R.b ≠ [] → ∃ k q, k < 4 ∧
        rotN k ⟨[[BLACK, BLACK, BLACK], [BLACK, BLACK, BLACK], [BLACK, BLACK, BLACK]], none⟩
          = .ok q ∧
        matchAt
          ⟨[[WHITE, WHITE, WHITE], [WHITE, WHITE, WHITE], [WHITE, WHITE, WHITE]], none⟩
          q 3 3 0 0 ∧
        (∀ k1, k1 < k → ∀ q1,
          rotN k1
            ⟨[[BLACK, BLACK, BLACK], [BLACK, BLACK, BLACK], [BLACK, BLACK, BLACK]], none⟩
            = .ok q1 →
          ¬ matchAt
            ⟨[[WHITE, WHITE, WHITE], [WHITE, WHITE, WHITE], [WHITE, WHITE, WHITE]], none⟩
            q1 3 3 0 0) ∧
        R.sized 3 3 ∧
        ∀ u v, u < 3 → v < 3 →
          R.cellAt u v =
            if q.cellAt u v = WEVER then
              (⟨[[WHITE, WHITE, WHITE], [WHITE, WHITE, WHITE], [WHITE, WHITE, WHITE]], none⟩ :
                gomoku_board).cellAt u v
            else q.cellAt u v)) ∧
    gomoku_board.exist
        ⟨[[WHITE, WHITE, WHITE], [WHITE, WHITE, WHITE], [WHITE, WHITE, WHITE]], none⟩
        ⟨[[BLACK, BLACK, BLACK], [BLACK, BLACK, BLACK], [BLACK, BLACK, BLACK]], none⟩
      = .ok ⟨[], none⟩ :=
  ⟨exist_same_size_square
      ⟨[[WHITE, WHITE, WHITE], [WHITE, WHITE, WHITE], [WHITE, WHITE, WHITE]], none⟩
      ⟨[[BLACK, BLACK, BLACK], [BLACK, BLACK, BLACK], [BLACK, BLACK, BLACK]], none⟩ 3
      (by decide) (by decide) (by decide) (by norm_num),
    by decide⟩

/-- C13, as stated, fails when the board holds a wildcard: on `B = [[WEVER]]` the
wildcard-free pattern `[[BLACK]]` is found at the anchor `(0, 0)`, because a wildcard
of the board agrees with any pattern cell, and the board returned holds `BLACK` where
`B` holds `WEVER`. -/
theorem exist_board_wildcard_differs :
    gomoku_board.exist ⟨[[WEVER]], none⟩ ⟨[[BLACK]], none⟩ = .ok ⟨[[BLACK]], none⟩ ∧
    (⟨[[BLACK]], none⟩ : gomoku_board).cellAt 0 0 ≠ WEVER ∧
    returnsAt ⟨[[WEVER]], none⟩ ⟨[[BLACK]], none⟩ ⟨[[BLACK]], none⟩ 0 0 ∧
    (⟨[[BLACK]], none⟩ : gomoku_board).cellAt 0 0
      ≠ (⟨[[WEVER]], none⟩ : gomoku_board).cellAt (0 + 0) (0 + 0) := by
  refine ⟨by decide, by decide, ?_, by decide⟩
  exact ⟨0, ⟨[[BLACK]], none⟩, ⟨[[WEVER]], none⟩, by decide, rfl, by decide, by decide,
    by decide⟩

/-- C13, amended: for a board `B` and a pattern `P` without wildcard cell, if `exist`
returns a non-empty board `R`, it returns it at an anchor `(i, j)` at which `R` lies
inside `B` and agrees with the sub-grid up to wildcards, and `R[u][v] = B[i+u][j+v]` at
every position of `R` at which the cell of `B` is not the wildcard. -/
theorem exist_wildcard_free_exact (B P R : gomoku_board) (mB nB r c : Nat)
    (hB : B.sized mB nB) (hP : P.sized r c) (hr : 0 < r) (hc : 0 < c)
    (hr31 : r < 2 ^ 31) (hc31 : c < 2 ^ 31) (hm31 : mB < 2 ^ 31) (hn31 : nB < 2 ^ 31)
    (hPw : ∀ u, u < r → ∀ v, v < c → P.cellAt u v ≠ WEVER)
    (he : B.exist P = .ok R) (hne : R.b ≠ []) :
    ∃ i j p0 a b, p0.b = P.b ∧ returnsAt B p0 R i j ∧ R.sized a b ∧
      i + a ≤ mB ∧ j + b ≤ nB ∧ matchAt B R a b i j ∧
      ∀ u v, u < a → v < b → B.cellAt (i + u) (j + v) ≠ WEVER →
        R.cellAt u v = B.cellAt (i + u) (j + v) := by
  obtain ⟨i, j, p0, q, a, b, hb0, hret, _, _, hqs, _, _, hfi, hfj, hm, hfl, hRs, hw⟩ :=
    exist_ok_anchor B P R mB nB r c hB hP hr hc hr31 hc31 hm31 hn31 he hne
  have hqw := hw (wildcardFree_of_bounded P r c hP hPw)
  have hRq : R = q := existFillRows_id B i j _ _ q R hqw hfl
  subst hRq
  refine ⟨i, j, p0, a, b, hb0, hret, hRs, hfi, hfj, hm, ?_⟩
  intro u v hu hv hbw
  rcases hm u hu v hv with h1 | h1 | h1
  · exact absurd h1 hbw
  · exact absurd h1 (hqw u v)
  · exact h1.symm

/-- A concrete instance: the pattern `[[BLACK, WHITE]]` found in the second row of a
board of two rows and two columns. -/
theorem exist_wildcard_free_exact_witness :
    ∃ i j p0 a b, p0.b = (⟨[[BLACK, WHITE]], none⟩ : gomoku_board).b ∧
      returnsAt ⟨[[EMPTY, EMPTY], [BLACK, WHITE]], none⟩ p0 ⟨[[BLACK, WHITE]], none⟩ i j ∧
      (⟨[[BLACK, WHITE]], none⟩ : gomoku_board).sized a b ∧
      i + a ≤ 2 ∧ j + b ≤ 2 ∧
      matchAt ⟨[[EMPTY, EMPTY], [BLACK, WHITE]], none⟩ ⟨[[BLACK, WHITE]], none⟩ a b i j ∧
      ∀ u v, u < a → v < b →
        (⟨[[EMPTY, EMPTY], [BLACK, WHITE]], none⟩ : gomoku_board).cellAt (i + u) (j + v)
          ≠ WEVER →
        (⟨[[BLACK, WHITE]], none⟩ : gomoku_board).cellAt u v =
          (⟨[[EMPTY, EMPTY], [BLACK, WHITE]], none⟩ : gomoku_board).cellAt (i + u) (j + v) :=
  exist_wildcard_free_exact ⟨[[EMPTY, EMPTY], [BLACK, WHITE]], none⟩ ⟨[[BLACK, WHITE]], none⟩
    ⟨[[BLACK, WHITE]], none⟩ 2 2 1 2 (by decide) (by decide) (by decide) (by decide)
    (by norm_num) (by norm_num) (by norm_num) (by norm_num) (by decide) (by decide)
    (by decide)

/-- C14: on the one-cell board `[[EMPTY]]` neither the 2 by 2 pattern nor the pattern
`[[BLACK, BLACK]]` fits in any orientation, yet `exist` does not return the empty
board: the anchor bound `lastcell().x - p.lastcell().x`, `0 - 1` on `size_t`, is
`2^64 - 1`, the anchor `(0, 0)` is tried and `subboard` reads outside the board. -/
theorem exist_oversized_pattern_faults :
    gomoku_board.exist ⟨[[EMPTY]], none⟩ ⟨[[BLACK, BLACK], [BLACK, BLACK]], none⟩
      = .error .outOfRange ∧
    sub64 (⟨[[EMPTY]], none⟩ : gomoku_board).lastcell.x
      (⟨[[BLACK, BLACK], [BLACK, BLACK]], none⟩ : gomoku_board).lastcell.x = 2 ^ 64 - 1 ∧
    sub64 (⟨[[EMPTY]], none⟩ : gomoku_board).lastcell.y
      (⟨[[BLACK, BLACK], [BLACK, BLACK]], none⟩ : gomoku_board).lastcell.y = 2 ^ 64 - 1 ∧
    gomoku_board.subboard ⟨[[EMPTY]], none⟩ ⟨0, 0⟩ 2 2 = .error .outOfRange ∧
    gomoku_board.exist ⟨[[EMPTY]], none⟩ ⟨[[BLACK, BLACK]], none⟩ = .error .outOfRange := by
  decide

/-- C15: the board constructed from the rows `rs` has `|rs|` rows, every row has the
largest row length `M` of `rs`, the cell `(i, j)` is `rs[i][j]` where that exists and
`EMPTY` from the end of `rs[i]` on. -/
theorem ofRows_pads (rs : List (List Nat)) (hlen : rs.length < 2 ^ 64) :
    ∃ B M, gomoku_board.ofRows rs = .ok B ∧ B.b.length = rs.length ∧
      (∀ r ∈ rs, r.length ≤ M) ∧ (rs = [] → M = 0) ∧ (rs ≠ [] → ∃ r ∈ rs, r.length = M) ∧
      (∀ row ∈ B.b, row.length = M) ∧
      (∀ i r j x, rs[i]? = some r → r[j]? = some x → B.cellAt i j = x) ∧
      (∀ i r j, rs[i]? = some r → r.length ≤ j → B.cellAt i j = EMPTY) := by
  obtain ⟨B, M, he, _, hl, hub, hat, hk⟩ := ofRows_spec rs hlen
  refine ⟨B, M, he, hl, hub, ?_, ?_, ?_, ?_, ?_⟩
  · intro h0
    rcases hat with h | ⟨r, hr, _⟩
    · exact h
    · rw [h0] at hr; exact absurd hr (List.not_mem_nil r)
  · intro hne
    rcases hat with h | h
    · obtain ⟨r, hr⟩ := List.exists_mem_of_ne_nil rs hne
      have := hub r hr
      exact ⟨r, hr, by omega⟩
    · exact h
  · intro row hrow
    obtain ⟨k, hk1, e⟩ := List.getElem_of_mem hrow
    have h1 := hk k
    rw [List.getElem?_eq_getElem hk1, e] at h1
    have hk2 : k < rs.length := by omega
    rw [List.getElem?_eq_getElem hk2] at h1
    simp only [Option.map_some'] at h1
    injection h1 with h1
    rw [h1]
    exact padRow_length M _ (hub _ (List.getElem_mem _))
  · intro i r j x hr hx
    have h1 := hk i
    rw [hr] at h1
    simp only [Option.map_some'] at h1
    have hj : j < r.length := (List.getElem?_eq_some_iff.mp hx).1
    have h2 := padRow_getElem? M r j
    rw [if_pos hj, hx] at h2
    simp [gomoku_board.cellAt, gomoku_board.read, h1, h2]
  · intro i r j hr hj
    have h1 := hk i
    rw [hr] at h1
    simp only [Option.map_some'] at h1
    have h2 := padRow_getElem? M r j
    rw [if_neg (by omega)] at h2
    by_cases h3 : j < M
    · rw [if_pos h3] at h2
      simp [gomoku_board.cellAt, gomoku_board.read, h1, h2]
    · rw [if_neg h3] at h2
      simp [gomoku_board.cellAt, gomoku_board.read, h1, h2]

/-- A concrete instance, at the ragged rows `[[BLACK], [WHITE, WHITE, BLACK]]`; the
board built is `[[BLACK, EMPTY, EMPTY], [WHITE, WHITE, BLACK]]`. -/
theorem ofRows_pads_witness :
    (∃ B M, gomoku_board.ofRows [[BLACK], [WHITE, WHITE, BLACK]] = .ok B ∧
      B.b.length = [[BLACK], [WHITE, WHITE, BLACK]].length ∧
      (∀ r ∈ [[BLACK], [WHITE, WHITE, BLACK]], r.length ≤ M) ∧
      ([[BLACK], [WHITE, WHITE, BLACK]] = [] → M = 0) ∧
      ([[BLACK], [WHITE, WHITE, BLACK]] ≠ [] →
        ∃ r ∈ [[BLACK], [WHITE, WHITE, BLACK]], r.length = M) ∧
      (∀ row ∈ B.b, row.length = M) ∧
      (∀ i r j x, [[BLACK], [WHITE, WHITE, BLACK]][i]? = some r → r[j]? = some x →
        B.cellAt i j = x) ∧
      (∀ i r j, [[BLACK], [WHITE, WHITE, BLACK]][i]? = some r → r.length ≤ j →
        B.cellAt i j = EMPTY)) ∧
    gomoku_board.ofRows [[BLACK], [WHITE, WHITE, BLACK]]
      = .ok ⟨[[BLACK, EMPTY, EMPTY], [WHITE, WHITE, BLACK]], none⟩ :=
  ⟨ofRows_pads [[BLACK], [WHITE, WHITE, BLACK]] (by simp), by decide⟩

/-- C16, as stated, fails on the boards without cells: on the zero-row board, the
"not found" result of `exist`, `lastcell ()` is `(INT_MAX, INT_MAX)`, the loops of
`diff` run and read `b[0][0]`, which does not exist; likewise on a board of one row and
no column. -/
theorem diff_self_degenerate_fails :
    gomoku_board.exist ⟨[[WHITE]], none⟩ ⟨[[BLACK]], none⟩ = .ok ⟨[], none⟩ ∧
    gomoku_board.diff ⟨[], none⟩ ⟨[], none⟩ = .error .outOfRange ∧
    (¬ gomoku_board.diff ⟨[], none⟩ ⟨[], none⟩ = .ok []) ∧
    gomoku_board.read ⟨[], none⟩ 0 0 = .error .outOfRange ∧
    gomoku_board.diff ⟨[[]], none⟩ ⟨[[]], none⟩ = .error .outOfRange := by
  decide

/-- C16, amended: for any board `B` with at least one row and one column, `diff` of
`B` with itself returns the empty list (no access leaves the grid). -/
theorem diff_self_empty (B : gomoku_board) (m n : Nat) (hB : B.sized m n)
    (hm : 0 < m) (hn : 0 < n) (hm31 : m < 2 ^ 31) (hn31 : n < 2 ^ 31) :
    B.diff B = .ok [] := by
  obtain ⟨L, he, _, hmem⟩ := diff_same_size B B m n hB hB hm hm31 hn hn31
  have : L = [] := by
    apply List.eq_nil_iff_forall_not_mem.mpr
    intro c hc
    exact ((hmem c).mp hc).2.2.1 rfl
  rw [he, this]

/-- A concrete instance, at a board of two rows and two columns. -/
theorem diff_self_empty_witness :
    gomoku_board.diff ⟨[[BLACK, WHITE], [WEVER, EMPTY]], none⟩
      ⟨[[BLACK, WHITE], [WEVER, EMPTY]], none⟩ = .ok [] :=
  diff_self_empty ⟨[[BLACK, WHITE], [WEVER, EMPTY]], none⟩ 2 2 (by decide) (by decide)
    (by decide) (by norm_num) (by norm_num)

/-- C17: on a board of `m` rows and `n` columns, `move` at an in-range cell `w` with
side `s` returns; afterwards the cell `w` holds `s`, every other cell holds its previous
value, the dimensions are unchanged and `lastmove` is `w`.  A following `clear` returns,
sets every cell to `EMPTY`, and leaves the dimensions and `lastmove = w` unchanged. -/
theorem move_then_clear (B : gomoku_board) (m n : Nat) (w : cell) (s : Nat)
    (hB : B.sized m n) (hx : w.x < m) (hy : w.y < n) (hm : m < 2 ^ 64) (hn : n < 2 ^ 64) :
    ∃ B1 B2, B.move w s = .ok B1 ∧ B1.sized m n ∧ B1.cellAt w.x w.y = s ∧
      (∀ a b, ¬ (a = w.x ∧ b = w.y) → B1.cellAt a b = B.cellAt a b) ∧
      B1.lastmove = some w ∧
      B1.clear = .ok B2 ∧ B2.sized m n ∧ (∀ a b, B2.cellAt a b = EMPTY) ∧
      B2.lastmove = some w := by
  obtain ⟨B1, hmv, hs1, hl1, hr1⟩ := move_spec B m n w s hB hx hy
  obtain ⟨B2, hcl, hs2, hl2, hr2⟩ := clear_spec B1 m n hs1 hm hn
  refine ⟨B1, B2, hmv, hs1, ?_, ?_, hl1, hcl, hs2, hr2, ?_⟩
  · apply cellAt_of_read
    rw [hr1, if_pos ⟨rfl, rfl⟩]
  · intro a b hab
    apply cellAt_congr
    rw [hr1, if_neg hab]
  · unfold gomoku_board.lastmove
    rw [hl2, hl1]

/-- A concrete instance: `WHITE` written over the `BLACK` cell `(0, 1)` of a board of
two rows and two columns. -/
theorem move_then_clear_witness :
    ∃ B1 B2, gomoku_board.move ⟨[[EMPTY, BLACK], [WHITE, EMPTY]], none⟩ ⟨0, 1⟩ WHITE
        = .ok B1 ∧ B1.sized 2 2 ∧
      B1.cellAt (⟨0, 1⟩ : cell).x (⟨0, 1⟩ : cell).y = WHITE ∧
      (∀ a b, ¬ (a = (⟨0, 1⟩ : cell).x ∧ b = (⟨0, 1⟩ : cell).y) →
        B1.cellAt a b = (⟨[[EMPTY, BLACK], [WHITE, EMPTY]], none⟩ : gomoku_board).cellAt a b) ∧
      B1.lastmove = some ⟨0, 1⟩ ∧
      B1.clear = .ok B2 ∧ B2.sized 2 2 ∧ (∀ a b, B2.cellAt a b = EMPTY) ∧
      B2.lastmove = some ⟨0, 1⟩ :=
  move_then_clear ⟨[[EMPTY, BLACK], [WHITE, EMPTY]], none⟩ 2 2 ⟨0, 1⟩ WHITE (by decide)
    (by decide) (by decide) (by norm_num) (by norm_num)

/-- C18: every board built by the dimension constructor or by the constructor from
rows is rectangular; on a rectangular board `B` with at least one cell, `move` at an
in-range cell, `clear`, `rotate` and `replace` (with patterns of at least one cell, the
first no larger than `B`) return a rectangular board; every board returned by
`subboard` or by `exist` (with a pattern of at least one cell) is rectangular. -/
theorem rectangular_invariant (B : gomoku_board) (m n : Nat) (hB : B.sized m n)
    (hm : 0 < m) (hn : 0 < n) (hm31 : m < 2 ^ 31) (hn31 : n < 2 ^ 31) :
    B.rectangular ∧
    (∀ h v, h ≤ max_rows → v ≤ max_cols →
      ∃ p, gomoku_board.create h v = .ok p ∧ p.rectangular) ∧
    (∀ rs : List (List Nat), rs.length < 2 ^ 64 →
      ∃ p, gomoku_board.ofRows rs = .ok p ∧ p.rectangular) ∧
    (∀ (w : cell) (s : Nat), w.x < m → w.y < n →
      ∃ B1, B.move w s = .ok B1 ∧ B1.rectangular) ∧
    (∃ B1, B.clear = .ok B1 ∧ B1.rectangular) ∧
    (∃ B1, B.rotate = .ok B1 ∧ B1.rectangular) ∧
    (∀ (frm tgt : gomoku_board) (r c r2 c2 : Nat), frm.sized r c → tgt.sized r2 c2 →
      0 < r → 0 < c → 0 < r2 → 0 < c2 → r ≤ m → c ≤ n → r2 < 2 ^ 31 → c2 < 2 ^ 31 →
      ∃ B1, B.replace frm tgt = .ok B1 ∧ B1.rectangular) ∧
    (∀ (sp : cell) (hl vl : Int) (R : gomoku_board),
      B.subboard sp hl vl = .ok R → R.rectangular) ∧
    (∀ (p R : gomoku_board) (r c : Nat), p.sized r c → 0 < r → 0 < c → r < 2 ^ 31 →
      c < 2 ^ 31 → B.exist p = .ok R → R.rectangular) := by
  refine ⟨rectangular_of_sized B m n hB, ?_, ?_, ?_, ?_, ?_, ?_, ?_, ?_⟩
  · intro h v hh hv
    obtain ⟨p, hp, hs⟩ := create_returns h v hh hv
    exact ⟨p, hp, rectangular_of_sized p h v hs⟩
  · intro rs hlen
    obtain ⟨p, M, hp, hs⟩ := ofRows_sized rs hlen
    exact ⟨p, hp, rectangular_of_sized p _ _ hs⟩
  · intro w s hx hy
    obtain ⟨B1, h1, hs, _, _⟩ := move_spec B m n w s hB hx hy
    exact ⟨B1, h1, rectangular_of_sized B1 m n hs⟩
  · obtain ⟨B1, h1, hs, _, _⟩ := clear_spec B m n hB (by omega) (by omega)
    exact ⟨B1, h1, rectangular_of_sized B1 m n hs⟩
  · obtain ⟨B1, h1, hs, _, _⟩ := rotate_ok B m n hB hm hm31 hn hn31
    exact ⟨B1, h1, rectangular_of_sized B1 n m hs⟩
  · intro frm tgt r c r2 c2 hF hT hr hc hr2 hc2 hrm hcn hr231 hc231
    obtain ⟨B1, h1, hs⟩ :=
      replace_returns_sized B frm tgt m n r c r2 c2 hB hF hT hr hc hr2 hc2 hrm hcn hr231
        hc231 hm31 hn31
    exact ⟨B1, h1, rectangular_of_sized B1 m n hs⟩
  · intro sp hl vl R h
    exact rectangular_of_sized R _ _ (subboard_ok_sized B R sp hl vl h).1
  · intro p R r c hp hr hc hr31 hc31 h
    exact exist_returns_rectangular B p R r c hp hr hc hr31 hc31 h

/-- A concrete instance, at a board of two rows and three columns. -/
theorem rectangular_invariant_witness :
    (⟨[[BLACK, WHITE, EMPTY], [EMPTY, BLACK, WHITE]], none⟩ : gomoku_board).rectangular ∧
    (∀ h v, h ≤ max_rows → v ≤ max_cols →
      ∃ p, gomoku_board.create h v = .ok p ∧ p.rectangular) ∧
    (∀ rs : List (List Nat), rs.length < 2 ^ 64 →
      ∃ p, gomoku_board.ofRows rs = .ok p ∧ p.rectangular) ∧
    (∀ (w : cell) (s : Nat), w.x < 2 → w.y < 3 →
      ∃ B1, gomoku_board.move ⟨[[BLACK, WHITE, EMPTY], [EMPTY, BLACK, WHITE]], none⟩ w s
        = .ok B1 ∧ B1.rectangular) ∧
    (∃ B1, gomoku_board.clear ⟨[[BLACK, WHITE, EMPTY], [EMPTY, BLACK, WHITE]], none⟩
      = .ok B1 ∧ B1.rectangular) ∧
    (∃ B1, gomoku_board.rotate ⟨[[BLACK, WHITE, EMPTY], [EMPTY, BLACK, WHITE]], none⟩
      = .ok B1 ∧ B1.rectangular) ∧
    (∀ (frm tgt : gomoku_board) (r c r2 c2 : Nat), frm.sized r c → tgt.sized r2 c2 →
      0 < r → 0 < c → 0 < r2 → 0 < c2 → r ≤ 2 → c ≤ 3 → r2 < 2 ^ 31 → c2 < 2 ^ 31 →
      ∃ B1, gomoku_board.replace ⟨[[BLACK, WHITE, EMPTY], [EMPTY, BLACK, WHITE]], none⟩
        frm tgt = .ok B1 ∧ B1.rectangular) ∧
    (∀ (sp : cell) (hl vl : Int) (R : gomoku_board),
      gomoku_board.subboard ⟨[[BLACK, WHITE, EMPTY], [EMPTY, BLACK, WHITE]], none⟩ sp hl vl
        = .ok R → R.rectangular) ∧
    (∀ (p R : gomoku_board) (r c : Nat), p.sized r c → 0 < r → 0 < c → r < 2 ^ 31 →
      c < 2 ^ 31 →
      gomoku_board.exist ⟨[[BLACK, WHITE, EMPTY], [EMPTY, BLACK, WHITE]], none⟩ p = .ok R →
      R.rectangular) :=
  rectangular_invariant ⟨[[BLACK, WHITE, EMPTY], [EMPTY, BLACK, WHITE]], none⟩ 2 3
    (by decide) (by decide) (by decide) (by norm_num) (by norm_num)

/-- C19: on the board of two rows and two columns, after `move ((0, 1), BLACK)` the
member `lastmove` is `(0, 1)`; after `rotate` it is the never-set `last` of the board
built inside `rotate`, which `*this = p` copies over the receiver, not `(0, 1)`. -/
theorem rotate_loses_lastmove :
    gomoku_board.create 2 2 = .ok ⟨[[EMPTY, EMPTY], [EMPTY, EMPTY]], none⟩ ∧
    gomoku_board.move ⟨[[EMPTY, EMPTY], [EMPTY, EMPTY]], none⟩ ⟨0, 1⟩ BLACK
      = .ok ⟨[[EMPTY, BLACK], [EMPTY, EMPTY]], some ⟨0, 1⟩⟩ ∧
    gomoku_board.lastmove ⟨[[EMPTY, BLACK], [EMPTY, EMPTY]], some ⟨0, 1⟩⟩ = some ⟨0, 1⟩ ∧
    gomoku_board.rotate ⟨[[EMPTY, BLACK], [EMPTY, EMPTY]], some ⟨0, 1⟩⟩
      = .ok ⟨[[EMPTY, EMPTY], [EMPTY, BLACK]], none⟩ ∧
    gomoku_board.lastmove ⟨[[EMPTY, EMPTY], [EMPTY, BLACK]], none⟩ = none := by
  decide

/-- C20: on boards with at least one row and one column `operator==` is reflexive and
symmetric (also between boards of different dimensions), and it is not transitive:
`[[BLACK]] == [[WEVER]]` and `[[WEVER]] == [[WHITE]]` while `[[BLACK]] != [[WHITE]]`. -/
theorem eq_reflexive_symmetric_not_transitive (A B : gomoku_board) (m n m1 n1 : Nat)
    (hA : A.sized m n) (hB : B.sized m1 n1)
    (hm : 0 < m) (hn : 0 < n) (hm1 : 0 < m1) (hn1 : 0 < n1)
    (hm31 : m < 2 ^ 31) (hn31 : n < 2 ^ 31) (hm131 : m1 < 2 ^ 31) (hn131 : n1 < 2 ^ 31) :
    A.eq A = .ok true ∧ A.eq B = B.eq A ∧
    (gomoku_board.eq ⟨[[BLACK]], none⟩ ⟨[[WEVER]], none⟩ = .ok true ∧
      gomoku_board.eq ⟨[[WEVER]], none⟩ ⟨[[WHITE]], none⟩ = .ok true ∧
      gomoku_board.eq ⟨[[BLACK]], none⟩ ⟨[[WHITE]], none⟩ = .ok false ∧
      gomoku_board.neq ⟨[[BLACK]], none⟩ ⟨[[WHITE]], none⟩ = .ok true) ∧
    ¬ (∀ X Y Z : gomoku_board, X.sized 1 1 → Y.sized 1 1 → Z.sized 1 1 →
        X.eq Y = .ok true → Y.eq Z = .ok true → X.eq Z = .ok true) := by
  refine ⟨eq_refl_sized A m n hA hm hm31 hn hn31,
    eq_symm_sized A B m n m1 n1 hA hB hm hm31 hn hn31 hm1 hm131 hn1 hn131,
    by decide, ?_⟩
  intro h
  have h1 := h ⟨[[BLACK]], none⟩ ⟨[[WEVER]], none⟩ ⟨[[WHITE]], none⟩ (by decide) (by decide)
    (by decide) (by decide) (by decide)
  have h2 : gomoku_board.eq ⟨[[BLACK]], none⟩ ⟨[[WHITE]], none⟩ = .ok false := by decide
  rw [h2] at h1
  exact absurd h1 (by decide)

/-- A concrete instance, at a board of one row and a board of two rows. -/
theorem eq_reflexive_symmetric_not_transitive_witness :
    gomoku_board.eq ⟨[[BLACK, WEVER]], none⟩ ⟨[[BLACK, WEVER]], none⟩ = .ok true ∧
    gomoku_board.eq ⟨[[BLACK, WEVER]], none⟩ ⟨[[WHITE], [EMPTY]], none⟩ =
      gomoku_board.eq ⟨[[WHITE], [EMPTY]], none⟩ ⟨[[BLACK, WEVER]], none⟩ ∧
    (gomoku_board.eq ⟨[[BLACK]], none⟩ ⟨[[WEVER]], none⟩ = .ok true ∧
      gomoku_board.eq ⟨[[WEVER]], none⟩ ⟨[[WHITE]], none⟩ = .ok true ∧
      gomoku_board.eq ⟨[[BLACK]], none⟩ ⟨[[WHITE]], none⟩ = .ok false ∧
      gomoku_board.neq ⟨[[BLACK]], none⟩ ⟨[[WHITE]], none⟩ = .ok true) ∧
    ¬ (∀ X Y Z : gomoku_board, X.sized 1 1 → Y.sized 1 1 → Z.sized 1 1 →
        X.eq Y = .ok true → Y.eq Z = .ok true → X.eq Z = .ok true) :=
  eq_reflexive_symmetric_not_transitive ⟨[[BLACK, WEVER]], none⟩ ⟨[[WHITE], [EMPTY]], none⟩
    1 2 2 1 (by decide) (by decide) (by decide) (by decide) (by decide) (by decide)
    (by norm_num) (by norm_num) (by norm_num) (by norm_num)

end Gomoku
